import Mathlib

/-!
# md3dump: the MD3 dump tool of `main.go`, embedded in Lean

The Go program reads a whole Quake 3 MD3 file into a byte slice and prints the
header, the frames and the surfaces with their compressed vertices.

Modelling choices.

* A Go `byte` is `Fin 256`; a `[]byte` and a Go `string` are `List Byte`.
* `int16` / `int32` values are `Int`; the decoders produce them in range, and
  theorems that quantify over them carry the range as a hypothesis.
* A `float32` that is only read and printed (frame bounds) is kept as its raw
  32-bit pattern.  A `float32` that is computed (`xyz`) is the exact rational
  it denotes, every operation followed by `f32`, round-to-nearest-even onto
  the binary32 grid.
* `normal` uses `math.Cos`, `math.Sin` and `math.Pi`; it is written over an
  arbitrary field with the two functions, the constant and the two roundings
  (`float64` operations, `float32` conversion) as arguments.  "Over the reals"
  is the instance with `Real.cos`, `Real.sin`, `Real.pi` and no rounding; the
  floating-point run is any instance whose arguments meet stated error bounds.
* A run of `dump` is a pair: the print calls made so far, in order, and a final
  `Status`: `ok`, or `failed` with `fatal` for `log.Fatal` and `panic` for a Go
  run-time panic.
  One `Line` is the text written by one `fmt.Println` / `fmt.Printf` call.
* The text on standard output is made from the print calls by `stdoutToks`: a
  string operand (a name, a magic) is written byte for byte, so a line feed in
  it ends a line of the output, and `stdoutLines` cuts the text at its line
  feeds.  The text of a numeric operand is kept as one unit, which holds no
  line feed.
* Running out of memory in `make` and write errors on standard output are
  outside the model.
-/

namespace Md3

/-! ## Bytes and machine integers -/

/-- A Go `byte` (`uint8`). -/
abbrev Byte := Fin 256

/-- The constant `MAX_QPATH`. -/
def MAX_QPATH : Nat := 64

/-- The constant `MD3_XYZ_SCALE = 1 / 64.0` (an exact untyped Go constant). -/
def MD3_XYZ_SCALE : ℚ := 1 / 64

/-- The Go conversion `byte(m)` of a signed integer: the low eight bits. -/
def byte (m : Int) : Byte := ⟨(m % 256).toNat, by omega⟩

/-- Value of a byte string read as a little-endian unsigned integer
(`binary.LittleEndian.Uint16`, `Uint32`). -/
def le : List Byte → Nat
  | [] => 0
  | b :: bs => b.val + 256 * le bs

/-- Reinterpretation `int16(u)` of a 16-bit pattern. -/
def toInt16 (u : Nat) : Int := if u % 2 ^ 16 < 2 ^ 15 then (u % 2 ^ 16 : Nat) else (u % 2 ^ 16 : Nat) - 2 ^ 16

/-- Reinterpretation `int32(u)` of a 32-bit pattern. -/
def toInt32 (u : Nat) : Int := if u % 2 ^ 32 < 2 ^ 31 then (u % 2 ^ 32 : Nat) else (u % 2 ^ 32 : Nat) - 2 ^ 32

/-- Range of a Go `int16`. -/
def IsInt16 (n : Int) : Prop := -2 ^ 15 ≤ n ∧ n < 2 ^ 15

/-- Range of a Go `int32`. -/
def IsInt32 (n : Int) : Prop := -2 ^ 31 ≤ n ∧ n < 2 ^ 31

instance (n : Int) : Decidable (IsInt16 n) := by unfold IsInt16; infer_instance

instance (n : Int) : Decidable (IsInt32 n) := by unfold IsInt32; infer_instance

/-- A Go array `[3]T`. -/
structure V3 (α : Type) where
  x : α
  y : α
  z : α
  deriving DecidableEq, Repr

/-- Indexing `v[i]` of a `[3]T`. -/
def V3.get {α : Type} (v : V3 α) : Fin 3 → α
  | 0 => v.x
  | 1 => v.y
  | 2 => v.z

/-! ## binary32 rounding -/

/-- Multiply by `2 ^ e` for an integer exponent `e`. -/
def scale2 (q : ℚ) (e : Int) : ℚ :=
  if 0 ≤ e then q * ((2 ^ e.toNat : Nat) : ℚ) else q / ((2 ^ (-e).toNat : Nat) : ℚ)

/-- Binary exponent of a nonzero rational: the `e` with `2 ^ e ≤ |q| < 2 ^ (e + 1)`. -/
def expo (q : ℚ) : Int :=
  let e0 : Int := (Nat.log2 q.num.natAbs : Int) - (Nat.log2 q.den : Int)
  if scale2 1 e0 ≤ |q| then e0 else e0 - 1

/-- Round to the nearest integer, ties to even. -/
def roundEven (q : ℚ) : Int :=
  let f := ⌊q⌋
  let r := q - f
  if r < 1 / 2 then f else if 1 / 2 < r then f + 1 else if f % 2 = 0 then f else f + 1

/-- Round a rational to the nearest binary32 value, ties to even: 24 significant
bits, smallest spacing `2 ^ (-149)`.  Overflow to infinity is not represented;
every value rounded in this development is below `2 ^ 16` in magnitude. -/
def f32 (q : ℚ) : ℚ :=
  if q = 0 then 0 else
    let e := max (expo q - 23) (-149)
    scale2 (roundEven (scale2 q (-e))) e

/-! ## The decoding helpers of `main.go` -/

/-- The function `xyz`: each component converted to `float32` and multiplied by
`MD3_XYZ_SCALE` in `float32` arithmetic. -/
def xyz (c : V3 Int) : V3 ℚ :=
  { x := f32 (f32 (c.x : ℚ) * f32 MD3_XYZ_SCALE)
    y := f32 (f32 (c.y : ℚ) * f32 MD3_XYZ_SCALE)
    z := f32 (f32 (c.z : ℚ) * f32 MD3_XYZ_SCALE) }

/-- The latitude index `(n>>8)&0xFF` of `normal`. -/
def latIdx (n : Int) : Int := Int.land (n >>> (8 : Nat)) 0xFF

/-- The longitude index `(n>>0)&0xFF` of `normal`. -/
def lngIdx (n : Int) : Int := Int.land (n >>> (0 : Nat)) 0xFF

/-- The function `normal`, over a field `R`.  `cos`, `sin` and `pi` stand for
`math.Cos`, `math.Sin` and `math.Pi`; `r64` is the rounding of a `float64`
operation (and of the constant `2 * math.Pi`) and `r32` the conversion
`float32(..)`.  The conversions of the byte indices and of `0xFF` to `float64`
are exact. -/
def normal {R : Type} [Field R] (cos sin : R → R) (pi : R) (r64 r32 : R → R) (n : Int) : V3 R :=
  let lat : R := r64 (r64 ((latIdx n : R) * r64 (2 * pi)) / 0xFF)
  let lng : R := r64 (r64 ((lngIdx n : R) * r64 (2 * pi)) / 0xFF)
  { x := r32 (r64 (cos lat * sin lng))
    y := r32 (r64 (sin lat * sin lng))
    z := r32 (cos lng) }

/-- The function `magic`: the four bytes of `m`, low byte first, as a string. -/
def magic (m : Int) : List Byte :=
  [byte m, byte (m >>> (8 : Nat)), byte (m >>> (16 : Nat)), byte (m >>> (24 : Nat))]

/-- The call `bytes.Index(b, []byte{c})`: index of the first `c`, or `-1`. -/
def bytesIndex (b : List Byte) (c : Byte) : Int :=
  if c ∈ b then (b.indexOf c : Int) else -1

/-- The slice expression `b[:hi]`; `none` is the run-time panic for a bound out of range. -/
def sliceTo (b : List Byte) (hi : Int) : Option (List Byte) :=
  if 0 ≤ hi ∧ hi ≤ b.length then some (b.take hi.toNat) else none

/-- The slice expression `b[lo:]`; `none` is the run-time panic for a bound out of range. -/
def sliceFrom (b : List Byte) (lo : Int) : Option (List Byte) :=
  if 0 ≤ lo ∧ lo ≤ b.length then some (b.drop lo.toNat) else none

/-- The function `cstr`; `none` is a run-time panic. -/
def cstr (b : List Byte) : Option (List Byte) :=
  let nul := bytesIndex b 0
  sliceTo b nul

/-! ## The record shapes -/

/-- The struct `Header`. -/
structure Header where
  Magic : Int
  Version : Int
  Name : List Byte
  Flags : Int
  NumFrames : Int
  NumTags : Int
  NumSurfs : Int
  NumSkins : Int
  OfsFrames : Int
  OfsTags : Int
  OfsSurfs : Int
  OfsEOF : Int
  deriving DecidableEq, Repr

/-- The struct `Frame`; the `float32` fields are kept as bit patterns. -/
structure Frame where
  MinBounds : V3 Nat
  MaxBounds : V3 Nat
  LocalOrigin : V3 Nat
  Radius : Nat
  Name : List Byte
  deriving DecidableEq, Repr

/-- The struct `Surf`. -/
structure Surf where
  Magic : Int
  Name : List Byte
  Flags : Int
  NumFrames : Int
  NumShaders : Int
  NumVerts : Int
  NumTris : Int
  OfsTris : Int
  OfsShaders : Int
  OfsST : Int
  OfsXYZNormal : Int
  OfsEnd : Int
  deriving DecidableEq, Repr

/-- The struct `XYZNormal`. -/
structure XYZNormal where
  XYZ : V3 Int
  Normal : Int
  deriving DecidableEq, Repr

/-- Encoded size of `Header` (`binary.Size`): two `int32`, the name, nine `int32`. -/
def Header.size : Nat := 4 + 4 + MAX_QPATH + 9 * 4

/-- Encoded size of `Frame`: three `[3]float32`, one `float32`, sixteen name bytes. -/
def Frame.size : Nat := 3 * 4 + 3 * 4 + 3 * 4 + 4 + 16

/-- Encoded size of `Surf`: one `int32`, the name, ten `int32`. -/
def Surf.size : Nat := 4 + MAX_QPATH + 10 * 4

/-- Encoded size of `XYZNormal`: `[3]int16` and one `int16`. -/
def XYZNormal.size : Nat := 3 * 2 + 2

/-! ## `encoding/binary`: the sequential little-endian decoder

A decoder step takes the bytes not yet consumed and returns the decoded value
with the remaining bytes, as `decoder.value` advances its offset. -/

/-- Decode a `uint32`. -/
def getU32 (d : List Byte) : Nat × List Byte := (le (d.take 4), d.drop 4)

/-- Decode an `int32`. -/
def getI32 (d : List Byte) : Int × List Byte := (toInt32 (le (d.take 4)), d.drop 4)

/-- Decode an `int16`. -/
def getI16 (d : List Byte) : Int × List Byte := (toInt16 (le (d.take 2)), d.drop 2)

/-- Decode a `[n]uint8`. -/
def getBytes (n : Nat) (d : List Byte) : List Byte × List Byte := (d.take n, d.drop n)

/-- Decode a `[3]float32` (bit patterns). -/
def getF32x3 (d : List Byte) : V3 Nat × List Byte :=
  let (a, d) := getU32 d
  let (b, d) := getU32 d
  let (c, d) := getU32 d
  (⟨a, b, c⟩, d)

/-- Decode a `[3]int16`. -/
def getI16x3 (d : List Byte) : V3 Int × List Byte :=
  let (a, d) := getI16 d
  let (b, d) := getI16 d
  let (c, d) := getI16 d
  (⟨a, b, c⟩, d)

/-- Decode one `Header`, field by field in declaration order. -/
def Header.decode (d : List Byte) : Header × List Byte :=
  let (magic, d) := getI32 d
  let (version, d) := getI32 d
  let (name, d) := getBytes MAX_QPATH d
  let (flags, d) := getI32 d
  let (numFrames, d) := getI32 d
  let (numTags, d) := getI32 d
  let (numSurfs, d) := getI32 d
  let (numSkins, d) := getI32 d
  let (ofsFrames, d) := getI32 d
  let (ofsTags, d) := getI32 d
  let (ofsSurfs, d) := getI32 d
  let (ofsEOF, d) := getI32 d
  ({ Magic := magic, Version := version, Name := name, Flags := flags,
     NumFrames := numFrames, NumTags := numTags, NumSurfs := numSurfs,
     NumSkins := numSkins, OfsFrames := ofsFrames, OfsTags := ofsTags,
     OfsSurfs := ofsSurfs, OfsEOF := ofsEOF }, d)

/-- Decode one `Frame`. -/
def Frame.decode (d : List Byte) : Frame × List Byte :=
  let (minBounds, d) := getF32x3 d
  let (maxBounds, d) := getF32x3 d
  let (localOrigin, d) := getF32x3 d
  let (radius, d) := getU32 d
  let (name, d) := getBytes 16 d
  ({ MinBounds := minBounds, MaxBounds := maxBounds, LocalOrigin := localOrigin,
     Radius := radius, Name := name }, d)

/-- Decode one `Surf`. -/
def Surf.decode (d : List Byte) : Surf × List Byte :=
  let (magic, d) := getI32 d
  let (name, d) := getBytes MAX_QPATH d
  let (flags, d) := getI32 d
  let (numFrames, d) := getI32 d
  let (numShaders, d) := getI32 d
  let (numVerts, d) := getI32 d
  let (numTris, d) := getI32 d
  let (ofsTris, d) := getI32 d
  let (ofsShaders, d) := getI32 d
  let (ofsST, d) := getI32 d
  let (ofsXYZNormal, d) := getI32 d
  let (ofsEnd, d) := getI32 d
  ({ Magic := magic, Name := name, Flags := flags, NumFrames := numFrames,
     NumShaders := numShaders, NumVerts := numVerts, NumTris := numTris,
     OfsTris := ofsTris, OfsShaders := ofsShaders, OfsST := ofsST,
     OfsXYZNormal := ofsXYZNormal, OfsEnd := ofsEnd }, d)

/-- Decode one `XYZNormal`. -/
def XYZNormal.decode (d : List Byte) : XYZNormal × List Byte :=
  let (xyz, d) := getI16x3 d
  let (n, d) := getI16 d
  ({ XYZ := xyz, Normal := n }, d)

/-- Decode `n` consecutive records (a slice value in `decoder.value`). -/
def decodeN {α : Type} (dec : List Byte → α × List Byte) : Nat → List Byte → List α
  | 0, _ => []
  | n + 1, d => (dec d).1 :: decodeN dec n (dec d).2

/-- The errors `io.ReadFull` can return on a `bytes.Reader`. -/
inductive ReadErr
  | EOF
  | ErrUnexpectedEOF
  deriving DecidableEq, Repr

/-- The call `io.ReadFull(r, buf)` with `len(buf) = need` on a `bytes.Reader`
holding `r`: nothing is wanted, nothing is there, too little is there, or the
first `need` bytes are returned. -/
def readFull (r : List Byte) (need : Nat) : Except ReadErr (List Byte) :=
  if need = 0 then .ok []
  else if r.length = 0 then .error .EOF
  else if r.length < need then .error .ErrUnexpectedEOF
  else .ok (r.take need)

/-- The call `binary.Read(r, binary.LittleEndian, &m)` for one struct of encoded
size `size`. -/
def binaryRead1 {α : Type} (size : Nat) (dec : List Byte → α × List Byte)
    (r : List Byte) : Except ReadErr α :=
  match readFull r size with
  | .error e => .error e
  | .ok buf => .ok (dec buf).1

/-- The call `binary.Read(r, binary.LittleEndian, &xs)` for a slice of `n`
structs of encoded size `size` each. -/
def binaryRead {α : Type} (size : Nat) (dec : List Byte → α × List Byte)
    (r : List Byte) (n : Nat) : Except ReadErr (List α) :=
  match readFull r (n * size) with
  | .error e => .error e
  | .ok buf => .ok (decodeN dec n buf)

/-! ## Output and termination of `dump` -/

/-- How a run is cut short: `log.Fatal(err)` or a run-time panic. -/
inductive Fault
  | fatal (e : ReadErr)
  | panic
  deriving DecidableEq, Repr

/-- How a run ends: normal return, or a failure. -/
inductive Status
  | ok
  | failed (f : Fault)
  deriving DecidableEq, Repr

/-- A printed operand. -/
inductive Val
  | str (s : List Byte)
  | int (v : Int)
  | hex (v : Int)
  | idx (i : Nat)
  | f32 (bits : Nat)
  | f32x3 (bits : V3 Nat)
  | vec (v : V3 ℚ)
  | nrm (n : Int)
  deriving DecidableEq, Repr

/-- One print call.  `ln s v` is `fmt.Println(s, v)`; `pf pre v post` is
`fmt.Printf` with the literal text `pre` before the verb and `post` after it.
`Val.nrm n` stands for the printed vector `normal(n)`. -/
inductive Line
  | ln (s : String) (v : Val)
  | pf (pre : String) (v : Val) (post : String)
  deriving DecidableEq, Repr

/-- The literal text a printed line starts with. -/
def Line.lead : Line → String
  | .ln s _ => s
  | .pf pre _ _ => pre

/-- The operand of a printed line. -/
def Line.val : Line → Val
  | .ln _ v => v
  | .pf _ v _ => v

/-- The lines printed so far and how the run ended. -/
abbrev Out := List Line × Status

/-- Print some lines and go on. -/
def say (ls : List Line) : Out := (ls, .ok)

/-- Stop the program. -/
def die (f : Fault) : Out := ([], .failed f)

/-- Sequencing: the second part runs only if the first ended normally. -/
def andThen (a k : Out) : Out :=
  match a.2 with
  | .ok => (a.1 ++ k.1, k.2)
  | _ => a

/-- A `for i, x := range xs` loop whose body prints and may stop the program. -/
def forRange {α : Type} (body : Nat → α → Out) : Nat → List α → Out
  | _, [] => say []
  | i, x :: xs => andThen (body i x) (forRange body (i + 1) xs)

/-- The three statements `xs := make([]T, n)`, `r = bytes.NewReader(b[ofs:])`,
`err = binary.Read(r, binary.LittleEndian, &xs)` followed by
`if err != nil { log.Fatal(err) }`, as they occur for frames, surfaces and
vertices. -/
def readSlice {α : Type} (size : Nat) (dec : List Byte → α × List Byte)
    (b : List Byte) (n ofs : Int) : Except Fault (List α) :=
  if n < 0 then .error .panic
  else
    match sliceFrom b ofs with
    | none => .error .panic
    | some r =>
      match binaryRead size dec r n.toNat with
      | .error e => .error (.fatal e)
      | .ok xs => .ok xs

/-- The header read at the top of `dump`. -/
def readHeader (b : List Byte) : Except Fault Header :=
  match binaryRead1 Header.size Header.decode b with
  | .error e => .error (.fatal e)
  | .ok m => .ok m

/-- The twelve print calls for the header. -/
def headerLines (m : Header) : Out :=
  andThen (say [.pf "Magic = '" (.str (magic m.Magic)) "'", .ln "Version =" (.int m.Version)])
    (match cstr m.Name with
     | none => die .panic
     | some name =>
       say [.pf "Name = '" (.str name) "'",
            .ln "Flags =" (.int m.Flags),
            .ln "NumFrames =" (.int m.NumFrames),
            .ln "NumTags =" (.int m.NumTags),
            .ln "NumSurfs =" (.int m.NumSurfs),
            .ln "NumSkins =" (.int m.NumSkins),
            .pf "OfsFrames = " (.hex m.OfsFrames) "",
            .pf "OfsTags = " (.hex m.OfsTags) "",
            .pf "OfsSurfs = " (.hex m.OfsSurfs) "",
            .pf "OfsEOF = " (.hex m.OfsEOF) ""])

/-- The body of the frame loop. -/
def frameLines (i : Nat) (fr : Frame) : Out :=
  andThen (say [.ln "Frame" (.idx i),
                .ln " MinBounds =" (.f32x3 fr.MinBounds),
                .ln " MaxBounds =" (.f32x3 fr.MaxBounds),
                .ln " LocalOrigin =" (.f32x3 fr.LocalOrigin),
                .ln " Radius =" (.f32 fr.Radius)])
    (match cstr fr.Name with
     | none => die .panic
     | some name => say [.ln " Name =" (.str name)])

/-- The vertex read inside the surface loop (`verts`, lines 187 to 192). -/
def readVerts (b : List Byte) (s : Surf) : Except Fault (List XYZNormal) :=
  readSlice XYZNormal.size XYZNormal.decode b s.NumVerts s.OfsXYZNormal

/-- The two loops over `verts`. -/
def vertLines (verts : List XYZNormal) : List Line :=
  verts.map (fun v => Line.ln " Vertex =" (.vec (xyz v.XYZ))) ++
    verts.map (fun v => Line.ln " Normal =" (.nrm v.Normal))

/-- The twelve field lines of a surface after its heading and magic. -/
def surfFieldLines (s : Surf) (name : List Byte) : List Line :=
  [.pf " Name = '" (.str name) "'",
   .ln " Flags =" (.int s.Flags),
   .ln " NumFrames =" (.int s.NumFrames),
   .ln " NumShaders =" (.int s.NumShaders),
   .ln " NumVerts =" (.int s.NumVerts),
   .ln " NumTris =" (.int s.NumTris),
   .pf " OfsTris = " (.hex s.OfsTris) "",
   .pf " OfsShaders = " (.hex s.OfsShaders) "",
   .pf " OfsST = " (.hex s.OfsST) "",
   .pf " OfsXYZNormal = " (.hex s.OfsXYZNormal) "",
   .pf " OfsEnd = " (.hex s.OfsEnd) ""]

/-- The body of the surface loop. -/
def surfLines (b : List Byte) (i : Nat) (s : Surf) : Out :=
  andThen (say [.ln "Surface" (.idx i), .pf " Magic = '" (.str (magic s.Magic)) "'"])
    (match cstr s.Name with
     | none => die .panic
     | some name =>
       andThen (say (surfFieldLines s name))
         (match readVerts b s with
          | .error st => die st
          | .ok verts => say (vertLines verts)))

/-- The frames part of `dump`: read the frame array, then loop. -/
def dumpFrames (b : List Byte) (m : Header) : Out :=
  match readSlice Frame.size Frame.decode b m.NumFrames m.OfsFrames with
  | .error st => die st
  | .ok f => forRange frameLines 0 f

/-- The surfaces part of `dump`: read the surface array, then loop. -/
def dumpSurfs (b : List Byte) (m : Header) : Out :=
  match readSlice Surf.size Surf.decode b m.NumSurfs m.OfsSurfs with
  | .error st => die st
  | .ok surfs => forRange (surfLines b) 0 surfs

/-- The function `dump`. -/
def dump (b : List Byte) : Out :=
  match readHeader b with
  | .error st => die st
  | .ok m => andThen (headerLines m) (andThen (dumpFrames b m) (dumpSurfs b m))

/-! ## Vocabulary of the statements -/

/-- The `n` records of 8 bytes that start at absolute offset `off` of the file
`b`: record `j` is decoded from the bytes `off + 8 * j .. off + 8 * j + 7`. -/
def recordsAt (b : List Byte) (off n : Nat) : List XYZNormal :=
  (List.range n).map (fun j => (XYZNormal.decode ((b.drop (off + 8 * j)).take 8)).1)

/-- The heading and field lines of the block printed for surface `i`, followed by
the vertex and normal lines of `verts`. -/
def surfBlock (i : Nat) (s : Surf) (name : List Byte) (verts : List XYZNormal) : List Line :=
  [Line.ln "Surface" (.idx i), Line.pf " Magic = '" (.str (magic s.Magic)) "'"] ++
    surfFieldLines s name ++ vertLines verts

/-- The vertices read and printed for every surface of `b` are the `NumVerts`
records found at file offset `base m i + OfsXYZNormal`, where `base m i` is the
origin the offset of surface `i` is measured from: the read returns them, and
the output holds the block of surface `i` with their vertex and normal lines. -/
def VertsPrintedAt (base : Header → Nat → Int) (b : List Byte) : Prop :=
  ∀ m surfs, readHeader b = .ok m →
    readSlice Surf.size Surf.decode b m.NumSurfs m.OfsSurfs = .ok surfs →
    ∀ i (h : i < surfs.length),
      readVerts b (surfs.get ⟨i, h⟩) =
          .ok (recordsAt b (base m i + (surfs.get ⟨i, h⟩).OfsXYZNormal).toNat
            (surfs.get ⟨i, h⟩).NumVerts.toNat) ∧
        ∃ pre post name, cstr (surfs.get ⟨i, h⟩).Name = some name ∧ (dump b).1 = pre ++
          surfBlock i (surfs.get ⟨i, h⟩) name
            (recordsAt b (base m i + (surfs.get ⟨i, h⟩).OfsXYZNormal).toNat
              (surfs.get ⟨i, h⟩).NumVerts.toNat) ++ post

/-! ## Sample files -/

/-- Little-endian encoding of an `int32`. -/
def putI32 (n : Int) : List Byte :=
  [byte n, byte (n >>> (8 : Nat)), byte (n >>> (16 : Nat)), byte (n >>> (24 : Nat))]

/-- Little-endian encoding of an `int16`. -/
def putI16 (n : Int) : List Byte := [byte n, byte (n >>> (8 : Nat))]

/-- A header with magic `IDP3`, version 15 and the given name, counts and offsets. -/
def sampleHeader (name : List Byte) (numFrames numSurfs ofsFrames ofsSurfs ofsEOF : Int) :
    List Byte :=
  [0x49, 0x44, 0x50, 0x33] ++ putI32 15 ++ name ++ putI32 0 ++ putI32 numFrames ++ putI32 0 ++
    putI32 numSurfs ++ putI32 0 ++ putI32 ofsFrames ++ putI32 ofsFrames ++ putI32 ofsSurfs ++
    putI32 ofsEOF

/-- A surface record with magic `IDP3`, an empty name, `numVerts` vertices and
the vertex array at `ofsXYZNormal`. -/
def sampleSurf (numVerts ofsXYZNormal ofsEnd : Int) : List Byte :=
  [0x49, 0x44, 0x50, 0x33] ++ List.replicate 64 0 ++ putI32 0 ++ putI32 1 ++ putI32 0 ++
    putI32 numVerts ++ putI32 0 ++ putI32 108 ++ putI32 108 ++ putI32 108 ++
    putI32 ofsXYZNormal ++ putI32 ofsEnd

/-- A file of 224 bytes: a header, no frame, one surface record at offset 108
whose `OfsXYZNormal` is 108 and whose `NumVerts` is 1, and one vertex record
`(64, 128, 192)` with normal `0x1234` at offset 216 = 108 + 108. -/
def relFile : List Byte :=
  sampleHeader (List.replicate 64 0) 0 1 108 108 224 ++ sampleSurf 1 108 116 ++
    putI16 64 ++ putI16 128 ++ putI16 192 ++ putI16 0x1234

/-- A file of 108 bytes: a header whose 64 name bytes are all `A`, no frame and
no surface. -/
def fullNameFile : List Byte :=
  sampleHeader (List.replicate 64 0x41) 0 0 108 108 108

/-- The first 200 bytes of `relFile`: the header announces one surface record at
offset 108, which would end at byte 216. -/
def truncFile : List Byte := relFile.take 200

/-- The header of `relFile` and of `truncFile`. -/
def relHeader : Header :=
  { Magic := 0x33504449, Version := 15, Name := List.replicate 64 0, Flags := 0,
    NumFrames := 0, NumTags := 0, NumSurfs := 1, NumSkins := 0, OfsFrames := 108,
    OfsTags := 108, OfsSurfs := 108, OfsEOF := 224 }

/-- The surface record of `relFile`. -/
def relSurf : Surf :=
  { Magic := 0x33504449, Name := List.replicate 64 0, Flags := 0, NumFrames := 1,
    NumShaders := 0, NumVerts := 1, NumTris := 0, OfsTris := 108, OfsShaders := 108,
    OfsST := 108, OfsXYZNormal := 108, OfsEnd := 116 }

/-! ## Vocabulary of the layout statements -/

/-- The little-endian signed 32-bit value held in the four bytes of `b` that
start at offset `off`. -/
def i32At (b : List Byte) (off : Nat) : Int := toInt32 (le ((b.drop off).take 4))

/-- The `n` bytes of `b` that start at offset `off`. -/
def bytesAt (b : List Byte) (off n : Nat) : List Byte := (b.drop off).take n

/-- The `n` surface records of 108 bytes that start at absolute offset `off` of
the file `b`: record `j` is decoded from the 108 bytes at `off + 108 * j`. -/
def surfsAt (b : List Byte) (off n : Nat) : List Surf :=
  (List.range n).map (fun j => (Surf.decode ((b.drop (off + 108 * j)).take 108)).1)

/-- The `n` frame records of 56 bytes that start at absolute offset `off` of the
file `b`. -/
def framesAt (b : List Byte) (off n : Nat) : List Frame :=
  (List.range n).map (fun j => (Frame.decode ((b.drop (off + 56 * j)).take 56)).1)

/-- The little-endian unsigned 32-bit value held in the four bytes of `b` that
start at offset `off` (the bit pattern of a `float32`). -/
def u32At (b : List Byte) (off : Nat) : Nat := le ((b.drop off).take 4)

/-! ## Vocabulary of the output statements -/

/-- The text of a fixed-width name field: the bytes before its first zero byte. -/
def textOf (bs : List Byte) : List Byte := bs.take (bs.indexOf (0 : Byte))

/-- The twelve header lines, `Magic` to `OfsEOF`. -/
def headerBlock (m : Header) : List Line :=
  [Line.pf "Magic = '" (.str (magic m.Magic)) "'",
   Line.ln "Version =" (.int m.Version),
   Line.pf "Name = '" (.str (textOf m.Name)) "'",
   Line.ln "Flags =" (.int m.Flags),
   Line.ln "NumFrames =" (.int m.NumFrames),
   Line.ln "NumTags =" (.int m.NumTags),
   Line.ln "NumSurfs =" (.int m.NumSurfs),
   Line.ln "NumSkins =" (.int m.NumSkins),
   Line.pf "OfsFrames = " (.hex m.OfsFrames) "",
   Line.pf "OfsTags = " (.hex m.OfsTags) "",
   Line.pf "OfsSurfs = " (.hex m.OfsSurfs) "",
   Line.pf "OfsEOF = " (.hex m.OfsEOF) ""]

/-- The block of frame `i`: the heading `Frame i` and five field lines. -/
def frameBlock (i : Nat) (fr : Frame) : List Line :=
  [Line.ln "Frame" (.idx i),
   Line.ln " MinBounds =" (.f32x3 fr.MinBounds),
   Line.ln " MaxBounds =" (.f32x3 fr.MaxBounds),
   Line.ln " LocalOrigin =" (.f32x3 fr.LocalOrigin),
   Line.ln " Radius =" (.f32 fr.Radius),
   Line.ln " Name =" (.str (textOf fr.Name))]

/-- The block of surface `i` of the file `b`: heading, fields, and the lines of
the `NumVerts` vertex records found at file offset `OfsXYZNormal`. -/
def surfBlockAt (b : List Byte) (i : Nat) (s : Surf) : List Line :=
  surfBlock i s (textOf s.Name) (recordsAt b s.OfsXYZNormal.toNat s.NumVerts.toNat)

/-- Blocks of consecutive records, numbered upwards from `i`. -/
def blocks {α : Type} (f : Nat → α → List Line) : Nat → List α → List Line
  | _, [] => []
  | i, x :: xs => f i x ++ blocks f (i + 1) xs

/-- The whole output of a run on `b` with header `m` that ends normally: header
lines, one block per frame record, one block per surface record. -/
def expectedOutput (b : List Byte) (m : Header) : List Line :=
  headerBlock m ++ blocks frameBlock 0 (framesAt b m.OfsFrames.toNat m.NumFrames.toNat) ++
    blocks (surfBlockAt b) 0 (surfsAt b m.OfsSurfs.toNat m.NumSurfs.toNat)

/-- A frame record of 56 bytes: ten zero `float32` words and the name `f0`. -/
def sampleFrame : List Byte :=
  List.replicate 40 0 ++ [0x66, 0x30] ++ List.replicate 14 0

/-- A file of 280 bytes: a header, one frame record at offset 108, one surface
record at offset 164 with `NumVerts = 1` and `OfsXYZNormal = 272`, and the
vertex record `(64, 128, 192)` with normal `0x1234` at offset 272. -/
def oneFile : List Byte :=
  sampleHeader ([0x6D] ++ List.replicate 63 0) 1 1 108 164 280 ++ sampleFrame ++
    sampleSurf 1 272 116 ++ putI16 64 ++ putI16 128 ++ putI16 192 ++ putI16 0x1234

/-- The header of `oneFile`. -/
def oneHeader : Header :=
  { Magic := 0x33504449, Version := 15, Name := [0x6D] ++ List.replicate 63 0, Flags := 0,
    NumFrames := 1, NumTags := 0, NumSurfs := 1, NumSkins := 0, OfsFrames := 108,
    OfsTags := 108, OfsSurfs := 164, OfsEOF := 280 }

/-- The surface record of `oneFile`. -/
def oneSurf : Surf :=
  { Magic := 0x33504449, Name := List.replicate 64 0, Flags := 0, NumFrames := 1,
    NumShaders := 0, NumVerts := 1, NumTris := 0, OfsTris := 108, OfsShaders := 108,
    OfsST := 108, OfsXYZNormal := 272, OfsEnd := 116 }

/-- The run `y` carries on from the run `x`: either they are the same run, or `x`
was cut short and everything it printed is the beginning of what `y` prints. -/
def Extends (x y : Out) : Prop := x = y ∨ (x.2 ≠ .ok ∧ x.1 <+: y.1)

/-- A file of 108 bytes, one header with the given `Version`: the name is 60
letters `A` and four zero bytes, `NumFrames = 0`, `NumTags = 0`, `NumSurfs = 1`
and `OfsSurfs = 0`, so the one surface record is read from the header bytes
themselves and its name field is the bytes 4..67. -/
def overlapFile (version : Int) : List Byte :=
  [0x49, 0x44, 0x50, 0x33] ++ putI32 version ++ List.replicate 60 0x41 ++ List.replicate 4 0 ++
    putI32 0 ++ putI32 0 ++ putI32 0 ++ putI32 1 ++ putI32 0 ++ putI32 108 ++ putI32 108 ++
    putI32 0 ++ putI32 108

/-- The file `relFile` with magic `XXXX` and version 16 in place of `IDP3` and 15. -/
def relFileAlt : List Byte :=
  [0x58, 0x58, 0x58, 0x58] ++ putI32 16 ++ relFile.drop 8

/-! ## Standard output as text

`fmt.Println` and `fmt.Printf` write the label of a print call, its operand and
a line feed.  A string operand (`%s`, or a string passed to `Println`) is
written byte for byte, so a line feed inside a name or a magic ends the line
on standard output and starts another.  The text written for a numeric operand
is the work of `fmt`; it is kept as one unit, `Tok.num`, which holds no line
feed. -/

/-- One unit of the text on standard output: a byte, or the text `fmt` writes
for a numeric operand. -/
inductive Tok
  | byte (b : Byte)
  | num (v : Val)
  deriving DecidableEq, Repr

/-- The line feed. -/
def Tok.nl : Tok := Tok.byte 0x0A

/-- The bytes of a label (the labels of `main.go` are ASCII). -/
def strBytes (s : String) : List Byte := s.data.map (fun c => byte (c.toNat : Int))

/-- The text of a printed operand. -/
def Val.toks : Val → List Tok
  | .str s => s.map Tok.byte
  | v => [Tok.num v]

/-- The text of one print call without its final line feed: `Println` puts a
blank between the label and the operand, `Printf` puts the operand between the
two parts of the format. -/
def Line.body : Line → List Tok
  | .ln s v => (strBytes s).map Tok.byte ++ Tok.byte 0x20 :: v.toks
  | .pf pre v post => (strBytes pre).map Tok.byte ++ (v.toks ++ (strBytes post).map Tok.byte)

/-- The text of one print call. -/
def Line.toks (l : Line) : List Tok := l.body ++ [Tok.nl]

/-- The text on standard output after the print calls `out`. -/
def stdoutToks : List Line → List Tok
  | [] => []
  | l :: ls => l.toks ++ stdoutToks ls

/-- A text cut into lines at every line feed. -/
def textLines : List Tok → List (List Tok)
  | [] => []
  | t :: ts =>
    if t = Tok.nl then [] :: textLines ts
    else
      match textLines ts with
      | [] => [[t]]
      | l :: ls => (t :: l) :: ls

/-- The lines of standard output after the print calls `out`. -/
def stdoutLines (out : List Line) : List (List Tok) := textLines (stdoutToks out)

/-- The line `l` can begin with the bytes `p`: it agrees with `p` byte for byte,
up to the end of `p` or up to a numeric operand, whose text is not known. -/
def mayBegin : List Byte → List Tok → Bool
  | [], _ => true
  | _ :: _, [] => false
  | c :: p, Tok.byte d :: l => decide (c = d) && mayBegin p l
  | _ :: _, Tok.num _ :: _ => true

/-! ### Auxiliary definitions for the proofs about lines -/

/-- No string printed by the call `l` holds a line feed. -/
def Line.noFeed (l : Line) : Prop := ∀ s, l.val = Val.str s → (0x0A : Byte) ∉ s

/-- The bytes `p` and `a` differ at a position both have. -/
def clash : List Byte → List Byte → Bool
  | c :: p, d :: a => decide (c ≠ d) || clash p a
  | _, _ => false

/-- The label `lead` settles whether a line that starts with it begins with `p`:
it is `p`, or it differs from `p` at a position both have. -/
def labelTells (p lead : String) : Bool :=
  decide (lead = p) || clash (strBytes p) (strBytes lead)

/-- The text after the operand of a print call. -/
def Line.post : Line → String
  | .ln _ _ => ""
  | .pf _ _ post => post

/-- The literal text `lead` and `post` of a print call holds no line feed, and
`lead` settles whether the line begins with one of `Frame`, `Surface`,
` Vertex =`, ` Normal =`. -/
def tameLabel (lead post : String) : Bool :=
  decide ((0x0A : Byte) ∉ strBytes lead) && decide ((0x0A : Byte) ∉ strBytes post) &&
    labelTells "Frame" lead && labelTells "Surface" lead &&
    labelTells " Vertex =" lead && labelTells " Normal =" lead

/-- The literal text of the print call `l` is tame. -/
def Line.tame (l : Line) : Bool := tameLabel l.lead l.post

/-! ### Sample files with a line feed in a name -/

/-- A name field of 64 bytes: a line feed, the nine bytes of `Surface 0`, and 54
zero bytes. -/
def feedName : List Byte :=
  [0x0A, 0x53, 0x75, 0x72, 0x66, 0x61, 0x63, 0x65, 0x20, 0x30] ++ List.replicate 54 0

/-- A file of 158 bytes: a header with the name `feedName`, no frame, one
surface record announced at offset 108, and 50 zero bytes after the header. -/
def feedNameFile : List Byte :=
  sampleHeader feedName 0 1 108 108 158 ++ List.replicate 50 0

/-- The header of `feedNameFile`. -/
def feedNameHeader : Header :=
  { Magic := 0x33504449, Version := 15, Name := feedName, Flags := 0,
    NumFrames := 0, NumTags := 0, NumSurfs := 1, NumSkins := 0, OfsFrames := 108,
    OfsTags := 108, OfsSurfs := 108, OfsEOF := 158 }

/-- A frame record of 56 bytes: ten zero `float32` words and a name field of 16
bytes holding `x`, a line feed, the nine bytes of `Surface 0`, and five zero
bytes. -/
def feedFrame : List Byte :=
  List.replicate 40 0 ++ [0x78, 0x0A, 0x53, 0x75, 0x72, 0x66, 0x61, 0x63, 0x65, 0x20, 0x30] ++
    List.replicate 5 0

/-- A file of 164 bytes: a header with the name `m`, `NumFrames = 1`,
`NumSurfs = 0`, and the frame record `feedFrame` at offset 108. -/
def feedFrameFile : List Byte :=
  sampleHeader ([0x6D] ++ List.replicate 63 0) 1 0 108 164 164 ++ feedFrame

/-- The header of `feedFrameFile`. -/
def feedFrameHeader : Header :=
  { Magic := 0x33504449, Version := 15, Name := [0x6D] ++ List.replicate 63 0, Flags := 0,
    NumFrames := 1, NumTags := 0, NumSurfs := 0, NumSkins := 0, OfsFrames := 108,
    OfsTags := 108, OfsSurfs := 164, OfsEOF := 164 }

/-! ## Helper lemmas -/

theorem scale2_eq (q : ℚ) (e : Int) : scale2 q e = q * (2 : ℚ) ^ e := by
  unfold scale2
  split_ifs with h
  · obtain ⟨n, rfl⟩ := Int.eq_ofNat_of_zero_le h
    simp
  · push_neg at h
    obtain ⟨n, hn⟩ := Int.eq_ofNat_of_zero_le (show 0 ≤ -e by omega)
    have he : e = -(n : Int) := by omega
    subst he
    simp [div_eq_mul_inv]

theorem roundEven_intCast (z : Int) : roundEven (z : ℚ) = z := by
  simp [roundEven]

theorem two_zpow_expo_le (q : ℚ) (hq : q ≠ 0) : (2 : ℚ) ^ expo q ≤ |q| := by
  unfold expo
  simp only
  split_ifs with h
  · simpa [scale2_eq] using h
  · have hnum : q.num.natAbs ≠ 0 := by simpa using hq
    have h1 : 2 ^ Nat.log2 q.num.natAbs ≤ q.num.natAbs := Nat.log2_self_le hnum
    have h2 : q.den < 2 ^ (Nat.log2 q.den + 1) := Nat.lt_log2_self
    have habs : |q| = (q.num.natAbs : ℚ) / (q.den : ℚ) := by
      rw [Rat.abs_def, Rat.divInt_eq_div]
      simp [Nat.cast_natAbs]
    rw [habs]
    have hd : (0 : ℚ) < q.den := by exact_mod_cast q.den_pos
    rw [le_div_iff₀ hd]
    have h1q : (2 : ℚ) ^ Nat.log2 q.num.natAbs ≤ (q.num.natAbs : ℚ) := by exact_mod_cast h1
    have h2q : (q.den : ℚ) ≤ (2 : ℚ) ^ (Nat.log2 q.den + 1) := by exact_mod_cast h2.le
    have e1 : ((Nat.log2 q.num.natAbs : Int) - (Nat.log2 q.den : Int) - 1)
        = (Nat.log2 q.num.natAbs : Int) - ((Nat.log2 q.den + 1 : Nat) : Int) := by push_cast; ring
    rw [e1, zpow_sub₀ (by norm_num : (2 : ℚ) ≠ 0), zpow_natCast, zpow_natCast]
    calc (2 : ℚ) ^ Nat.log2 q.num.natAbs / 2 ^ (Nat.log2 q.den + 1) * q.den
        ≤ (2 : ℚ) ^ Nat.log2 q.num.natAbs / 2 ^ (Nat.log2 q.den + 1) * 2 ^ (Nat.log2 q.den + 1) := by
          apply mul_le_mul_of_nonneg_left h2q
          positivity
      _ = (2 : ℚ) ^ Nat.log2 q.num.natAbs := by field_simp
      _ ≤ _ := h1q

/-- A rational `m * 2 ^ k` with a 24-bit `m` and `k ≥ -149` is a binary32 value:
rounding leaves it unchanged. -/
theorem f32_exact (m k : Int) (hm : |m| < 2 ^ 24) (hk : -149 ≤ k) :
    f32 ((m : ℚ) * (2 : ℚ) ^ k) = (m : ℚ) * (2 : ℚ) ^ k := by
  unfold f32
  split_ifs with h0
  · exact h0.symm
  · simp only
    set q : ℚ := (m : ℚ) * (2 : ℚ) ^ k with hq
    have hlo := two_zpow_expo_le q h0
    have hhi : |q| < (2 : ℚ) ^ (24 + k) := by
      rw [hq, abs_mul, abs_of_pos (by positivity : (0 : ℚ) < 2 ^ k), zpow_add₀ (by norm_num : (2 : ℚ) ≠ 0)]
      apply mul_lt_mul_of_pos_right _ (by positivity)
      have : |(m : ℚ)| = ((|m| : Int) : ℚ) := by simp
      rw [this]
      exact_mod_cast hm
    have hlt : expo q < 24 + k := by
      have := lt_of_le_of_lt hlo hhi
      exact (zpow_lt_zpow_iff_right₀ (by norm_num : (1 : ℚ) < 2)).1 this
    set e : Int := max (expo q - 23) (-149) with he
    have hek : e ≤ k := by
      rw [he]; exact max_le (by omega) hk
    obtain ⟨n, hn⟩ := Int.eq_ofNat_of_zero_le (show 0 ≤ k - e by omega)
    have hs : scale2 q (-e) = ((m * 2 ^ n : Int) : ℚ) := by
      rw [scale2_eq, hq, mul_assoc, ← zpow_add₀ (by norm_num : (2 : ℚ) ≠ 0)]
      have : k + -e = (n : Int) := by omega
      rw [this]
      push_cast
      simp
    rw [hs, roundEven_intCast, scale2_eq]
    push_cast
    rw [mul_assoc, ← zpow_natCast, ← zpow_add₀ (by norm_num : (2 : ℚ) ≠ 0)]
    have : (n : Int) + e = k := by omega
    rw [this]

theorem bytesIndex_of_not_mem (b : List Byte) (c : Byte) (h : c ∉ b) : bytesIndex b c = -1 := by
  simp [bytesIndex, h]

theorem bytesIndex_of_mem (b : List Byte) (c : Byte) (h : c ∈ b) :
    bytesIndex b c = (b.indexOf c : Int) := by
  simp [bytesIndex, h]

theorem cstr_of_not_mem (b : List Byte) (h : (0 : Byte) ∉ b) : cstr b = none := by
  simp [cstr, bytesIndex_of_not_mem b 0 h, sliceTo]

theorem cstr_of_mem (b : List Byte) (h : (0 : Byte) ∈ b) :
    cstr b = some (b.take (b.indexOf (0 : Byte))) := by
  have hlt : b.indexOf (0 : Byte) < b.length := List.indexOf_lt_length.2 h
  simp [cstr, bytesIndex_of_mem b 0 h, sliceTo]
  omega

theorem take_indexOf_split (c : Byte) (b : List Byte) (h : c ∈ b) :
    c ∉ b.take (b.indexOf c) ∧ b = b.take (b.indexOf c) ++ [c] ++ b.drop (b.indexOf c + 1) := by
  induction b with
  | nil => simp at h
  | cons x xs ih =>
    by_cases hx : x = c
    · subst hx
      simp
    · have hc : c ∈ xs := by
        rcases List.mem_cons.1 h with h1 | h1
        · exact absurd h1.symm hx
        · exact h1
      obtain ⟨ih1, ih2⟩ := ih hc
      have hidx : (x :: xs).indexOf c = xs.indexOf c + 1 := by
        simp [List.indexOf_cons, hx]
      rw [hidx]
      refine ⟨?_, ?_⟩
      · simp only [List.take_succ_cons, List.mem_cons, not_or]
        exact ⟨fun h => hx h.symm, ih1⟩
      · simp only [List.take_succ_cons, List.drop_succ_cons, List.cons_append]
        rw [List.cons_inj_right]
        simpa using ih2

theorem byte_val (m : Int) : ((byte m).val : Int) = m % 256 := by
  simp only [byte]
  omega

theorem byte_shift_val (m : Int) (k : Nat) :
    ((byte (m >>> k)).val : Int) = m / ((2 ^ k : Nat) : Int) % 256 := by
  rw [byte_val, Int.shiftRight_eq_div_pow]

theorem magic_roundtrip_aux (m : Int) (hm : IsInt32 m) : toInt32 (le (magic m)) = m := by
  obtain ⟨h1, h2⟩ := hm
  have e0 := byte_val m
  have e1 := byte_shift_val m 8
  have e2 := byte_shift_val m 16
  have e3 := byte_shift_val m 24
  simp only [magic, le, toInt32]
  generalize (byte m).val = b0 at e0 ⊢
  generalize (byte (m >>> (8 : Nat))).val = b1 at e1 ⊢
  generalize (byte (m >>> (16 : Nat))).val = b2 at e2 ⊢
  generalize (byte (m >>> (24 : Nat))).val = b3 at e3 ⊢
  norm_num at e1 e2 e3 h1 h2 ⊢
  split_ifs <;> omega

theorem ldiff_255 (m : Nat) : Nat.ldiff 255 m = 255 - m % 256 := by
  apply Nat.eq_of_testBit_eq
  intro i
  have h : (255 : Nat) - m % 256 = 2 ^ 8 - (m % 2 ^ 8 + 1) := by norm_num; omega
  have h255 : (255 : Nat) = 2 ^ 8 - 1 := by norm_num
  rw [Nat.testBit_ldiff, h, Nat.testBit_two_pow_sub_succ (Nat.mod_lt _ (by norm_num)), h255,
    Nat.testBit_two_pow_sub_one, Nat.testBit_mod_two_pow]
  by_cases hi : i < 8 <;> simp [hi]

theorem land_255 (n : Int) : Int.land n 0xFF = n % 256 := by
  cases n with
  | ofNat m =>
    have h := Nat.and_pow_two_sub_one_eq_mod m 8
    norm_num at h
    simp only [Int.land, Int.ofNat_eq_coe]
    show ((m &&& 255 : Nat) : Int) = (m : Int) % 256
    rw [h]
    omega
  | negSucc m =>
    show ((Nat.ldiff 255 m : Nat) : Int) = Int.negSucc m % 256
    rw [ldiff_255]
    have hneg : Int.negSucc m = -((m : Int) + 1) := rfl
    rw [hneg]
    omega

theorem latIdx_eq (n : Int) : latIdx n = n / 256 % 256 := by
  rw [latIdx, land_255, Int.shiftRight_eq_div_pow]
  norm_num

theorem lngIdx_eq (n : Int) : lngIdx n = n % 256 := by
  rw [lngIdx, land_255, Int.shiftRight_eq_div_pow]
  norm_num

theorem f32_intCast (c : Int) (hc : |c| < 2 ^ 24) : f32 (c : ℚ) = c := by
  have h := f32_exact c 0 hc (by norm_num)
  simpa using h

theorem f32_scale : f32 MD3_XYZ_SCALE = 1 / 64 := by
  have h := f32_exact 1 (-6) (by norm_num) (by norm_num)
  have e : ((1 : Int) : ℚ) * (2 : ℚ) ^ (-6 : Int) = 1 / 64 := by norm_num
  rw [e] at h
  exact h

theorem f32_mul_scale (c : Int) (hc : IsInt16 c) :
    f32 (f32 (c : ℚ) * f32 MD3_XYZ_SCALE) = (c : ℚ) / 64 := by
  have habs : |c| < 2 ^ 24 := by
    obtain ⟨h1, h2⟩ := hc
    rw [abs_lt]
    constructor <;> norm_num at h1 h2 ⊢ <;> omega
  rw [f32_intCast c habs, f32_scale]
  have h := f32_exact c (-6) habs (by norm_num)
  have e : (c : ℚ) * (2 : ℚ) ^ (-6 : Int) = (c : ℚ) * (1 / 64) := by norm_num
  rw [e] at h
  rw [h]
  ring

theorem xyz_exact (c : V3 Int) (hx : IsInt16 c.x) (hy : IsInt16 c.y) (hz : IsInt16 c.z) :
    xyz c = ⟨(c.x : ℚ) / 64, (c.y : ℚ) / 64, (c.z : ℚ) / 64⟩ := by
  simp only [xyz, f32_mul_scale c.x hx, f32_mul_scale c.y hy, f32_mul_scale c.z hz]

/-! ### Reads -/

theorem readFull_eq_ok (r : List Byte) (need : Nat) (h : need ≤ r.length) :
    readFull r need = .ok (r.take need) := by
  by_cases h1 : need = 0
  · simp [readFull, h1]
  · have h2 : r.length ≠ 0 := by omega
    have h3 : ¬ r.length < need := by omega
    simp [readFull, h1, h2, h3]

theorem readFull_error (r : List Byte) (need : Nat) (h : r.length < need) :
    ∃ e, readFull r need = .error e := by
  have h1 : need ≠ 0 := by omega
  by_cases h2 : r.length = 0
  · exact ⟨.EOF, by simp [readFull, h1, h2]⟩
  · exact ⟨.ErrUnexpectedEOF, by simp [readFull, h1, h2, h]⟩

theorem binaryRead_eq_ok {α : Type} (size : Nat) (dec : List Byte → α × List Byte)
    (r : List Byte) (n : Nat) (h : n * size ≤ r.length) :
    binaryRead size dec r n = .ok (decodeN dec n (r.take (n * size))) := by
  simp [binaryRead, readFull_eq_ok r _ h]

theorem binaryRead_error {α : Type} (size : Nat) (dec : List Byte → α × List Byte)
    (r : List Byte) (n : Nat) (h : r.length < n * size) :
    ∃ e, binaryRead size dec r n = .error e := by
  obtain ⟨e, he⟩ := readFull_error r _ h
  exact ⟨e, by simp [binaryRead, he]⟩

theorem decodeN_length {α : Type} (dec : List Byte → α × List Byte) (n : Nat) (d : List Byte) :
    (decodeN dec n d).length = n := by
  induction n generalizing d with
  | zero => rfl
  | succ k ih => simp [decodeN, ih]

theorem sliceFrom_eq_some (b : List Byte) (o : Int) (h0 : 0 ≤ o) (h1 : o ≤ b.length) :
    sliceFrom b o = some (b.drop o.toNat) := by
  simp [sliceFrom, h0, h1]

theorem readSlice_eq_ok {α : Type} (size : Nat) (dec : List Byte → α × List Byte)
    (b : List Byte) (n o : Int) (hn : 0 ≤ n) (h0 : 0 ≤ o) (h1 : o ≤ b.length)
    (h : o + n * size ≤ b.length) :
    readSlice size dec b n o =
      .ok (decodeN dec n.toNat ((b.drop o.toNat).take (n.toNat * size))) := by
  have hle : n.toNat * size ≤ (b.drop o.toNat).length := by
    rw [List.length_drop]
    have e1 : ((n.toNat * size : Nat) : Int) = n * size := by
      push_cast
      rw [Int.toNat_of_nonneg hn]
    omega
  simp only [readSlice, not_lt.2 hn, if_false, sliceFrom_eq_some b o h0 h1,
    binaryRead_eq_ok size dec _ _ hle]

theorem readSlice_fatal {α : Type} (size : Nat) (dec : List Byte → α × List Byte)
    (b : List Byte) (n o : Int) (hn : 0 ≤ n) (h0 : 0 ≤ o) (h1 : o ≤ b.length)
    (h : (b.length : Int) < o + n * size) :
    ∃ e, readSlice size dec b n o = .error (.fatal e) := by
  have hlt : (b.drop o.toNat).length < n.toNat * size := by
    rw [List.length_drop]
    have e1 : ((n.toNat * size : Nat) : Int) = n * size := by
      push_cast
      rw [Int.toNat_of_nonneg hn]
    omega
  obtain ⟨e, he⟩ := binaryRead_error size dec _ _ hlt
  exact ⟨e, by simp only [readSlice, not_lt.2 hn, if_false, sliceFrom_eq_some b o h0 h1, he]⟩

theorem readSlice_ok_inv {α : Type} (size : Nat) (dec : List Byte → α × List Byte)
    (b : List Byte) (n o : Int) (xs : List α) (h : readSlice size dec b n o = .ok xs) :
    0 ≤ n ∧ 0 ≤ o ∧ o ≤ b.length ∧ o + n * size ≤ b.length ∧
      xs = decodeN dec n.toNat ((b.drop o.toNat).take (n.toNat * size)) := by
  by_cases hn : n < 0
  · simp [readSlice, hn] at h
  · have hn0 : 0 ≤ n := not_lt.1 hn
    by_cases ho : 0 ≤ o ∧ o ≤ (b.length : Int)
    · by_cases hfit : o + n * size ≤ b.length
      · rw [readSlice_eq_ok size dec b n o hn0 ho.1 ho.2 hfit] at h
        injection h with h
        exact ⟨hn0, ho.1, ho.2, hfit, h.symm⟩
      · obtain ⟨e, he⟩ := readSlice_fatal size dec b n o hn0 ho.1 ho.2 (not_le.1 hfit)
        rw [he] at h
        cases h
    · simp [readSlice, hn, sliceFrom, ho] at h

theorem readHeader_eq_ok (b : List Byte) (h : Header.size ≤ b.length) :
    readHeader b = .ok (Header.decode (b.take Header.size)).1 := by
  simp [readHeader, binaryRead1, readFull_eq_ok b _ h]

theorem readHeader_fatal (b : List Byte) (h : b.length < Header.size) :
    ∃ e, readHeader b = .error (.fatal e) := by
  obtain ⟨e, he⟩ := readFull_error b _ h
  exact ⟨e, by simp [readHeader, binaryRead1, he]⟩

/-! ### Sequencing -/

theorem andThen_of_ok (a k : Out) (h : a.2 = .ok) : andThen a k = (a.1 ++ k.1, k.2) := by
  simp [andThen, h]

theorem andThen_of_not_ok (a k : Out) (h : a.2 ≠ .ok) : andThen a k = a := by
  unfold andThen
  split
  · rename_i heq; exact absurd heq h
  · rfl

theorem andThen_ok_inv (a k : Out) (h : (andThen a k).2 = .ok) :
    a.2 = .ok ∧ k.2 = .ok ∧ (andThen a k).1 = a.1 ++ k.1 := by
  by_cases ha : a.2 = .ok
  · rw [andThen_of_ok a k ha] at h ⊢
    exact ⟨ha, h, rfl⟩
  · rw [andThen_of_not_ok a k ha] at h
    exact absurd h ha

theorem andThen_mem (a k : Out) (l : Line) (h : l ∈ (andThen a k).1) : l ∈ a.1 ∨ l ∈ k.1 := by
  by_cases ha : a.2 = .ok
  · rw [andThen_of_ok a k ha] at h
    exact List.mem_append.1 h
  · rw [andThen_of_not_ok a k ha] at h
    exact Or.inl h

theorem andThen_not_ok_right (a k : Out) (h : k.2 ≠ .ok) : (andThen a k).2 ≠ .ok := by
  intro hok
  exact h (andThen_ok_inv a k hok).2.1

theorem forRange_ok_get {α : Type} (body : Nat → α → Out) :
    ∀ (xs : List α) (i : Nat), (forRange body i xs).2 = .ok →
      ∀ (j : Nat) (hj : j < xs.length),
        (body (i + j) (xs.get ⟨j, hj⟩)).2 = .ok ∧
          ∃ pre post, (forRange body i xs).1 = pre ++ (body (i + j) (xs.get ⟨j, hj⟩)).1 ++ post := by
  intro xs
  induction xs with
  | nil => intro i _ j hj; simp at hj
  | cons x xs ih =>
    intro i hok j hj
    simp only [forRange] at hok ⊢
    obtain ⟨h1, h2, h3⟩ := andThen_ok_inv _ _ hok
    rw [h3]
    cases j with
    | zero => exact ⟨h1, [], (forRange body (i + 1) xs).1, by simp⟩
    | succ j =>
      have hj2 : j < xs.length := by simpa using hj
      obtain ⟨g1, pre, post, g2⟩ := ih (i + 1) h2 j hj2
      have e : i + (j + 1) = i + 1 + j := by omega
      simp only [List.get_cons_succ, e]
      refine ⟨g1, (body i x).1 ++ pre, post, ?_⟩
      rw [g2]
      simp

theorem forRange_mem {α : Type} (body : Nat → α → Out) (P : Line → Prop)
    (hbody : ∀ i x, ∀ l ∈ (body i x).1, P l) :
    ∀ (xs : List α) (i : Nat), ∀ l ∈ (forRange body i xs).1, P l := by
  intro xs
  induction xs with
  | nil => intro i l hl; simp [forRange, say] at hl
  | cons x xs ih =>
    intro i l hl
    simp only [forRange] at hl
    rcases andThen_mem _ _ l hl with h | h
    · exact hbody i x l h
    · exact ih (i + 1) l h

/-! ### Sequential decoding and records at fixed offsets -/

theorem decodeN_eq_map {α : Type} (dec : List Byte → α × List Byte) (s : Nat)
    (hrest : ∀ d, (dec d).2 = d.drop s) (hloc : ∀ d, (dec d).1 = (dec (d.take s)).1) :
    ∀ (n : Nat) (d : List Byte),
      decodeN dec n d = (List.range n).map (fun j => (dec ((d.drop (s * j)).take s)).1) := by
  intro n
  induction n with
  | zero => intro d; rfl
  | succ k ih =>
    intro d
    rw [decodeN, ih, hrest, List.range_succ_eq_map, List.map_cons, List.map_map]
    congr 1
    · simpa using hloc d
    · apply List.map_congr_left
      intro j _
      simp only [Function.comp, List.drop_drop]
      have e : s + s * j = s * (j + 1) := by ring
      rw [e]

theorem take_drop_take (r : List Byte) (s n j : Nat) (hj : j < n) :
    ((r.take (n * s)).drop (s * j)).take s = (r.drop (s * j)).take s := by
  rw [List.drop_take, List.take_take]
  have h : s * (j + 1) ≤ n * s := by
    rw [Nat.mul_comm n s]
    exact Nat.mul_le_mul_left s hj
  have : min s (n * s - s * j) = s := by
    apply Nat.min_eq_left
    have e : s * (j + 1) = s * j + s := by ring
    omega
  rw [this]

theorem decodeN_take_eq_map {α : Type} (dec : List Byte → α × List Byte) (s : Nat)
    (hrest : ∀ d, (dec d).2 = d.drop s) (hloc : ∀ d, (dec d).1 = (dec (d.take s)).1)
    (b : List Byte) (o n : Nat) :
    decodeN dec n ((b.drop o).take (n * s)) =
      (List.range n).map (fun j => (dec ((b.drop (o + s * j)).take s)).1) := by
  rw [decodeN_eq_map dec s hrest hloc]
  apply List.map_congr_left
  intro j hj
  rw [take_drop_take _ s n j (List.mem_range.1 hj), List.drop_drop]

theorem XYZNormal_decode_rest (d : List Byte) : (XYZNormal.decode d).2 = d.drop 8 := by
  simp [XYZNormal.decode, getI16x3, getI16, List.drop_drop]

theorem take_drop_of_take (d : List Byte) (s a k : Nat) (h : a + k ≤ s) :
    ((d.take s).drop a).take k = (d.drop a).take k := by
  rw [List.drop_take, List.take_take]
  have : min k (s - a) = k := Nat.min_eq_left (by omega)
  rw [this]

theorem take_of_take (d : List Byte) (s k : Nat) (h : k ≤ s) :
    (d.take s).take k = d.take k := by
  rw [List.take_take]
  have : min k s = k := Nat.min_eq_left h
  rw [this]

theorem XYZNormal_decode_local (d : List Byte) :
    (XYZNormal.decode d).1 = (XYZNormal.decode (d.take 8)).1 := by
  simp only [XYZNormal.decode, getI16x3, getI16, List.drop_drop]
  rw [take_of_take d 8 2 (by norm_num), take_drop_of_take d 8 2 2 (by norm_num),
    take_drop_of_take d 8 (2 + 2) 2 (by norm_num),
    take_drop_of_take d 8 (2 + (2 + 2)) 2 (by norm_num)]

theorem readVerts_ok_inv (b : List Byte) (s : Surf) (vs : List XYZNormal)
    (h : readVerts b s = .ok vs) :
    0 ≤ s.NumVerts ∧ 0 ≤ s.OfsXYZNormal ∧ s.OfsXYZNormal + s.NumVerts * 8 ≤ b.length ∧
      vs = recordsAt b s.OfsXYZNormal.toNat s.NumVerts.toNat := by
  obtain ⟨h1, h2, _, h4, h5⟩ := readSlice_ok_inv _ _ _ _ _ _ h
  refine ⟨h1, h2, h4, ?_⟩
  rw [h5, recordsAt]
  exact decodeN_take_eq_map XYZNormal.decode 8 XYZNormal_decode_rest XYZNormal_decode_local _ _ _

/-! ### Error analysis of `normal` -/

theorem normal_real_sq (n : Int) :
    (normal Real.cos Real.sin Real.pi id id n).x ^ 2 +
        (normal Real.cos Real.sin Real.pi id id n).y ^ 2 +
        (normal Real.cos Real.sin Real.pi id id n).z ^ 2 = 1 := by
  simp only [normal, id]
  generalize ((latIdx n : Int) : ℝ) * (2 * Real.pi) / 0xFF = a
  generalize ((lngIdx n : Int) : ℝ) * (2 * Real.pi) / 0xFF = b
  have ha := Real.sin_sq_add_cos_sq a
  have hb := Real.sin_sq_add_cos_sq b
  nlinarith [ha, hb]

theorem near_unit_norm_gen (δ ε ux uy uz dx dy dz : ℝ) (hδ : 0 ≤ δ) (hε : 0 ≤ ε) (hε1 : ε ≤ 1)
    (hb1 : 7 / 2 * δ + 3 * δ ^ 2 ≤ 2 * ε + ε ^ 2) (hb2 : 7 / 2 * δ ≤ 2 * ε - ε ^ 2)
    (hu : ux ^ 2 + uy ^ 2 + uz ^ 2 = 1)
    (hx : |dx| ≤ δ) (hy : |dy| ≤ δ) (hz : |dz| ≤ δ) :
    |Real.sqrt ((ux + dx) ^ 2 + (uy + dy) ^ 2 + (uz + dz) ^ 2) - 1| ≤ ε := by
  -- the sum of the absolute components is at most 7/4
  have hS : |ux| + |uy| + |uz| ≤ 7 / 4 := by
    have h3 : (|ux| + |uy| + |uz|) ^ 2 ≤ 3 := by
      have e1 : |ux| ^ 2 = ux ^ 2 := sq_abs ux
      have e2 : |uy| ^ 2 = uy ^ 2 := sq_abs uy
      have e3 : |uz| ^ 2 = uz ^ 2 := sq_abs uz
      nlinarith [sq_nonneg (|ux| - |uy|), sq_nonneg (|ux| - |uz|), sq_nonneg (|uy| - |uz|)]
    nlinarith [abs_nonneg ux, abs_nonneg uy, abs_nonneg uz]
  have hdot : |ux * dx + uy * dy + uz * dz| ≤ (7 / 4) * δ := by
    have t1 : |ux * dx| ≤ |ux| * δ := by
      rw [abs_mul]; exact mul_le_mul_of_nonneg_left hx (abs_nonneg _)
    have t2 : |uy * dy| ≤ |uy| * δ := by
      rw [abs_mul]; exact mul_le_mul_of_nonneg_left hy (abs_nonneg _)
    have t3 : |uz * dz| ≤ |uz| * δ := by
      rw [abs_mul]; exact mul_le_mul_of_nonneg_left hz (abs_nonneg _)
    have t4 := abs_add_three (ux * dx) (uy * dy) (uz * dz)
    have t5 : (|ux| + |uy| + |uz|) * δ ≤ 7 / 4 * δ := mul_le_mul_of_nonneg_right hS hδ
    linarith
  obtain ⟨hd1, hd2⟩ := abs_le.1 hdot
  have q1 : dx ^ 2 ≤ δ ^ 2 := by
    rw [← sq_abs dx]; exact pow_le_pow_left₀ (abs_nonneg _) hx 2
  have q2 : dy ^ 2 ≤ δ ^ 2 := by
    rw [← sq_abs dy]; exact pow_le_pow_left₀ (abs_nonneg _) hy 2
  have q3 : dz ^ 2 ≤ δ ^ 2 := by
    rw [← sq_abs dz]; exact pow_le_pow_left₀ (abs_nonneg _) hz 2
  have hv : (ux + dx) ^ 2 + (uy + dy) ^ 2 + (uz + dz) ^ 2 =
      1 + 2 * (ux * dx + uy * dy + uz * dz) + (dx ^ 2 + dy ^ 2 + dz ^ 2) := by
    rw [← hu]; ring
  have hup : (ux + dx) ^ 2 + (uy + dy) ^ 2 + (uz + dz) ^ 2 ≤ (1 + ε) ^ 2 := by
    rw [hv]
    have : (1 + ε) ^ 2 = 1 + (2 * ε + ε ^ 2) := by ring
    rw [this]; linarith
  have hlow : (1 - ε) ^ 2 ≤ (ux + dx) ^ 2 + (uy + dy) ^ 2 + (uz + dz) ^ 2 := by
    rw [hv]
    have h0 : 0 ≤ dx ^ 2 + dy ^ 2 + dz ^ 2 := by positivity
    have : (1 - ε) ^ 2 = 1 - (2 * ε - ε ^ 2) := by ring
    rw [this]; linarith
  rw [abs_le]
  constructor
  · have := Real.sqrt_le_sqrt hlow
    rw [Real.sqrt_sq (by linarith)] at this
    linarith
  · have := Real.sqrt_le_sqrt hup
    rw [Real.sqrt_sq (by linarith)] at this
    linarith

theorem near_unit_norm (ux uy uz vx vy vz : ℝ) (hu : ux ^ 2 + uy ^ 2 + uz ^ 2 = 1)
    (hx : |vx - ux| ≤ 5 / 10 ^ 6) (hy : |vy - uy| ≤ 5 / 10 ^ 6) (hz : |vz - uz| ≤ 5 / 10 ^ 6) :
    |Real.sqrt (vx ^ 2 + vy ^ 2 + vz ^ 2) - 1| ≤ 1 / 10 ^ 5 := by
  have h := near_unit_norm_gen (5 / 10 ^ 6) (1 / 10 ^ 5) ux uy uz (vx - ux) (vy - uy) (vz - uz)
    (by norm_num) (by norm_num) (by norm_num) (by norm_num) (by norm_num) hu hx hy hz
  have ex : ux + (vx - ux) = vx := by ring
  have ey : uy + (vy - uy) = vy := by ring
  have ez : uz + (vz - uz) = vz := by ring
  rw [ex, ey, ez] at h
  exact h

theorem abs_sin_sub_sin_le (x y : ℝ) : |Real.sin x - Real.sin y| ≤ |x - y| := by
  rw [Real.sin_sub_sin, abs_mul, abs_mul]
  have h1 : |Real.sin ((x - y) / 2)| ≤ |(x - y) / 2| := Real.abs_sin_le_abs
  have h2 : |Real.cos ((x + y) / 2)| ≤ 1 := Real.abs_cos_le_one _
  have h3 : |(x - y) / 2| = |x - y| / 2 := by rw [abs_div]; norm_num
  have h4 : (0 : ℝ) ≤ |Real.sin ((x - y) / 2)| := abs_nonneg _
  have h5 : (0 : ℝ) ≤ |Real.cos ((x + y) / 2)| := abs_nonneg _
  have h6 : |(2 : ℝ)| = 2 := by norm_num
  rw [h6]
  nlinarith

theorem abs_cos_sub_cos_le (x y : ℝ) : |Real.cos x - Real.cos y| ≤ |x - y| := by
  rw [Real.cos_sub_cos, abs_mul, abs_mul]
  have h1 : |Real.sin ((x - y) / 2)| ≤ |(x - y) / 2| := Real.abs_sin_le_abs
  have h2 : |Real.sin ((x + y) / 2)| ≤ 1 := Real.abs_sin_le_one _
  have h3 : |(x - y) / 2| = |x - y| / 2 := by rw [abs_div]; norm_num
  have h4 : (0 : ℝ) ≤ |Real.sin ((x - y) / 2)| := abs_nonneg _
  have h5 : (0 : ℝ) ≤ |Real.sin ((x + y) / 2)| := abs_nonneg _
  have h6 : |(-2 : ℝ)| = 2 := by norm_num
  rw [h6]
  nlinarith

/-- The angle computed in `float64` is within `5e-9` of `k * 2π / 255`. -/
theorem angle_error (r64 : ℝ → ℝ) (piF k : ℝ) (hpi : |piF - Real.pi| ≤ 1 / 10 ^ 9)
    (h64 : ∀ x : ℝ, |x| ≤ 2048 → |r64 x - x| ≤ 1 / 10 ^ 9) (hk0 : 0 ≤ k) (hk1 : k ≤ 255) :
    |r64 (r64 (k * r64 (2 * piF)) / 255) - k * (2 * Real.pi) / 255| ≤ 5 / 10 ^ 9 ∧
      |r64 (r64 (k * r64 (2 * piF)) / 255)| ≤ 7 := by
  have hπ3 := Real.pi_gt_three
  have hπ4 := Real.pi_lt_d2
  norm_num at hπ4
  obtain ⟨p1, p2⟩ := abs_sub_le_iff.1 hpi
  have hP := h64 (2 * piF) (by rw [abs_le]; constructor <;> linarith)
  obtain ⟨P1, P2⟩ := abs_sub_le_iff.1 hP
  generalize r64 (2 * piF) = P at P1 P2 ⊢
  have hP0 : 0 ≤ P := by linarith
  have hP7 : P ≤ 7 := by linarith
  have hkP : |k * P| ≤ 2048 := by
    rw [abs_le]; constructor <;> nlinarith
  have hX := h64 (k * P) hkP
  obtain ⟨X1, X2⟩ := abs_sub_le_iff.1 hX
  generalize r64 (k * P) = X at X1 X2 ⊢
  have hkd1 : k * P - k * (2 * Real.pi) ≤ 255 * (3 / 10 ^ 9) := by nlinarith
  have hkd2 : k * (2 * Real.pi) - k * P ≤ 255 * (3 / 10 ^ 9) := by nlinarith
  have hA0 : 0 ≤ k * (2 * Real.pi) := by positivity
  have hA1 : k * (2 * Real.pi) ≤ 255 * (63 / 10) := by nlinarith
  have hXd : |X / 255| ≤ 2048 := by
    rw [abs_le]; constructor <;> linarith
  have hY := h64 (X / 255) hXd
  obtain ⟨Y1, Y2⟩ := abs_sub_le_iff.1 hY
  generalize r64 (X / 255) = Y at Y1 Y2 ⊢
  constructor
  · rw [abs_le]; constructor <;> linarith
  · rw [abs_le]; constructor <;> linarith

/-- A product of two values near a cosine and a sine, rounded twice. -/
theorem component_error (r64 r32 : ℝ → ℝ) (c s C S : ℝ)
    (h64 : ∀ x : ℝ, |x| ≤ 2048 → |r64 x - x| ≤ 1 / 10 ^ 9)
    (h32 : ∀ x : ℝ, |x| ≤ 2 → |r32 x - x| ≤ 1 / 10 ^ 6)
    (hc : |c| ≤ 1) (hs : |s| ≤ 1) (hC : |C - c| ≤ 6 / 10 ^ 9) (hS : |S - s| ≤ 6 / 10 ^ 9) :
    |r32 (r64 (C * S)) - c * s| ≤ 5 / 10 ^ 6 := by
  obtain ⟨c1, c2⟩ := abs_le.1 hc
  obtain ⟨s1, s2⟩ := abs_le.1 hs
  obtain ⟨C1, C2⟩ := abs_sub_le_iff.1 hC
  obtain ⟨S1, S2⟩ := abs_sub_le_iff.1 hS
  have hprod1 : C * S - c * s ≤ 2 / 10 ^ 8 := by nlinarith
  have hprod2 : c * s - C * S ≤ 2 / 10 ^ 8 := by nlinarith
  have hcs1 : c * s ≤ 1 := by nlinarith
  have hcs2 : -1 ≤ c * s := by nlinarith
  have hCS : |C * S| ≤ 2048 := by
    rw [abs_le]; constructor <;> linarith
  have hQ := h64 (C * S) hCS
  obtain ⟨Q1, Q2⟩ := abs_sub_le_iff.1 hQ
  generalize r64 (C * S) = Q at Q1 Q2 ⊢
  have hQ2 : |Q| ≤ 2 := by
    rw [abs_le]; constructor <;> linarith
  have hR := h32 Q hQ2
  obtain ⟨R1, R2⟩ := abs_sub_le_iff.1 hR
  rw [abs_le]; constructor <;> linarith

/-- With primitives that meet the stated error bounds, every component of
`normal n` is within `5e-6` of its value over the reals. -/
theorem normal_float_error (cosF sinF r64 r32 : ℝ → ℝ) (piF : ℝ) (n : Int)
    (hpi : |piF - Real.pi| ≤ 1 / 10 ^ 9)
    (h64 : ∀ x : ℝ, |x| ≤ 2048 → |r64 x - x| ≤ 1 / 10 ^ 9)
    (h32 : ∀ x : ℝ, |x| ≤ 2 → |r32 x - x| ≤ 1 / 10 ^ 6)
    (hcos : ∀ x : ℝ, |x| ≤ 7 → |cosF x - Real.cos x| ≤ 1 / 10 ^ 9)
    (hsin : ∀ x : ℝ, |x| ≤ 7 → |sinF x - Real.sin x| ≤ 1 / 10 ^ 9) :
    |(normal cosF sinF piF r64 r32 n).x - (normal Real.cos Real.sin Real.pi id id n).x|
        ≤ 5 / 10 ^ 6 ∧
      |(normal cosF sinF piF r64 r32 n).y - (normal Real.cos Real.sin Real.pi id id n).y|
        ≤ 5 / 10 ^ 6 ∧
      |(normal cosF sinF piF r64 r32 n).z - (normal Real.cos Real.sin Real.pi id id n).z|
        ≤ 5 / 10 ^ 6 := by
  have hlat0 : (0 : ℝ) ≤ (latIdx n : ℝ) := by
    have : 0 ≤ latIdx n := by rw [latIdx_eq]; omega
    exact_mod_cast this
  have hlat1 : (latIdx n : ℝ) ≤ 255 := by
    have : latIdx n ≤ 255 := by rw [latIdx_eq]; omega
    exact_mod_cast this
  have hlng0 : (0 : ℝ) ≤ (lngIdx n : ℝ) := by
    have : 0 ≤ lngIdx n := by rw [lngIdx_eq]; omega
    exact_mod_cast this
  have hlng1 : (lngIdx n : ℝ) ≤ 255 := by
    have : lngIdx n ≤ 255 := by rw [lngIdx_eq]; omega
    exact_mod_cast this
  obtain ⟨a1, a2⟩ := angle_error r64 piF (latIdx n : ℝ) hpi h64 hlat0 hlat1
  obtain ⟨b1, b2⟩ := angle_error r64 piF (lngIdx n : ℝ) hpi h64 hlng0 hlng1
  simp only [normal, id]
  have e255 : (0xFF : ℝ) = 255 := by norm_num
  rw [e255]
  generalize r64 (r64 ((latIdx n : ℝ) * r64 (2 * piF)) / 255) = la at a1 a2 ⊢
  generalize r64 (r64 ((lngIdx n : ℝ) * r64 (2 * piF)) / 255) = lo at b1 b2 ⊢
  generalize (latIdx n : ℝ) * (2 * Real.pi) / 255 = A at a1 ⊢
  generalize (lngIdx n : ℝ) * (2 * Real.pi) / 255 = B at b1 ⊢
  have near (f F : ℝ → ℝ) (hF : ∀ x : ℝ, |x| ≤ 7 → |F x - f x| ≤ 1 / 10 ^ 9)
      (hL : ∀ x y : ℝ, |f x - f y| ≤ |x - y|) (t T : ℝ) (h1 : |t - T| ≤ 5 / 10 ^ 9)
      (h2 : |t| ≤ 7) : |F t - f T| ≤ 6 / 10 ^ 9 := by
    have g1 := hF t h2
    have g2 := le_trans (hL t T) h1
    have g3 := abs_sub_le (F t) (f t) (f T)
    linarith
  have cA := near Real.cos cosF hcos abs_cos_sub_cos_le la A a1 a2
  have sA := near Real.sin sinF hsin abs_sin_sub_sin_le la A a1 a2
  have cB := near Real.cos cosF hcos abs_cos_sub_cos_le lo B b1 b2
  have sB := near Real.sin sinF hsin abs_sin_sub_sin_le lo B b1 b2
  refine ⟨?_, ?_, ?_⟩
  · exact component_error r64 r32 _ _ _ _ h64 h32 (Real.abs_cos_le_one A) (Real.abs_sin_le_one B) cA sB
  · exact component_error r64 r32 _ _ _ _ h64 h32 (Real.abs_sin_le_one A) (Real.abs_sin_le_one B) sA sB
  · obtain ⟨z1, z2⟩ := abs_sub_le_iff.1 cB
    obtain ⟨w1, w2⟩ := abs_le.1 (Real.abs_cos_le_one B)
    have hz : |cosF lo| ≤ 2 := by
      rw [abs_le]; constructor <;> linarith
    obtain ⟨R1, R2⟩ := abs_sub_le_iff.1 (h32 (cosF lo) hz)
    rw [abs_le]; constructor <;> linarith

/-! ### The surface loop -/

theorem surfLines_ok_inv (b : List Byte) (i : Nat) (s : Surf) (h : (surfLines b i s).2 = .ok) :
    ∃ name verts, cstr s.Name = some name ∧ readVerts b s = .ok verts ∧
      (surfLines b i s).1 = surfBlock i s name verts := by
  unfold surfLines at h ⊢
  obtain ⟨_, h2, h3⟩ := andThen_ok_inv _ _ h
  rw [h3]
  cases hc : cstr s.Name with
  | none => simp [hc, die] at h2
  | some name =>
    simp only [hc] at h2 ⊢
    obtain ⟨_, g2, g3⟩ := andThen_ok_inv _ _ h2
    rw [g3]
    cases hv : readVerts b s with
    | error st => simp [hv, die] at g2
    | ok verts =>
      refine ⟨name, verts, rfl, rfl, ?_⟩
      simp [say, surfBlock]

theorem dump_ok_surfaces (b : List Byte) (m : Header) (surfs : List Surf)
    (hok : (dump b).2 = .ok) (hm : readHeader b = .ok m)
    (hs : readSlice Surf.size Surf.decode b m.NumSurfs m.OfsSurfs = .ok surfs) :
    (forRange (surfLines b) 0 surfs).2 = .ok ∧
      (dump b).1 = (headerLines m).1 ++ (dumpFrames b m).1 ++ (forRange (surfLines b) 0 surfs).1 := by
  have hdump : dump b = andThen (headerLines m) (andThen (dumpFrames b m) (dumpSurfs b m)) := by
    simp [dump, hm]
  have hsurfs : dumpSurfs b m = forRange (surfLines b) 0 surfs := by simp [dumpSurfs, hs]
  rw [hdump, hsurfs] at hok ⊢
  obtain ⟨_, h2, h3⟩ := andThen_ok_inv _ _ hok
  obtain ⟨_, g2, g3⟩ := andThen_ok_inv _ _ h2
  refine ⟨g2, ?_⟩
  rw [h3, g3, List.append_assoc]

/-! ### Field offsets of the decoded records -/

theorem Header_decode_rest (d : List Byte) : (Header.decode d).2 = d.drop 108 := by
  simp [Header.decode, getI32, getBytes, MAX_QPATH, List.drop_drop]

theorem Surf_decode_rest (d : List Byte) : (Surf.decode d).2 = d.drop 108 := by
  simp [Surf.decode, getI32, getBytes, MAX_QPATH, List.drop_drop]

theorem Frame_decode_rest (d : List Byte) : (Frame.decode d).2 = d.drop 56 := by
  simp [Frame.decode, getF32x3, getU32, getBytes, List.drop_drop]

theorem Header_decode_fields (d : List Byte) :
    (Header.decode d).1 =
      { Magic := i32At d 0, Version := i32At d 4, Name := bytesAt d 8 64,
        Flags := i32At d 72, NumFrames := i32At d 76, NumTags := i32At d 80,
        NumSurfs := i32At d 84, NumSkins := i32At d 88, OfsFrames := i32At d 92,
        OfsTags := i32At d 96, OfsSurfs := i32At d 100, OfsEOF := i32At d 104 } := by
  simp [Header.decode, getI32, getBytes, MAX_QPATH, List.drop_drop, i32At, bytesAt]

theorem Surf_decode_fields (d : List Byte) :
    (Surf.decode d).1 =
      { Magic := i32At d 0, Name := bytesAt d 4 64, Flags := i32At d 68,
        NumFrames := i32At d 72, NumShaders := i32At d 76, NumVerts := i32At d 80,
        NumTris := i32At d 84, OfsTris := i32At d 88, OfsShaders := i32At d 92,
        OfsST := i32At d 96, OfsXYZNormal := i32At d 100, OfsEnd := i32At d 104 } := by
  simp [Surf.decode, getI32, getBytes, MAX_QPATH, List.drop_drop, i32At, bytesAt]

theorem i32At_take (d : List Byte) (s off : Nat) (h : off + 4 ≤ s) :
    i32At (d.take s) off = i32At d off := by
  simp only [i32At, take_drop_of_take d s off 4 h]

theorem bytesAt_take (d : List Byte) (s off n : Nat) (h : off + n ≤ s) :
    bytesAt (d.take s) off n = bytesAt d off n := by
  simp only [bytesAt, take_drop_of_take d s off n h]

theorem i32At_drop (d : List Byte) (o off : Nat) : i32At (d.drop o) off = i32At d (o + off) := by
  simp only [i32At, List.drop_drop]

theorem bytesAt_drop (d : List Byte) (o off n : Nat) :
    bytesAt (d.drop o) off n = bytesAt d (o + off) n := by
  simp only [bytesAt, List.drop_drop]

theorem Header_decode_local (d : List Byte) :
    (Header.decode d).1 = (Header.decode (d.take 108)).1 := by
  rw [Header_decode_fields, Header_decode_fields]
  rw [i32At_take d 108 0 (by norm_num),
    i32At_take d 108 4 (by norm_num),
    i32At_take d 108 72 (by norm_num),
    i32At_take d 108 76 (by norm_num),
    i32At_take d 108 80 (by norm_num),
    i32At_take d 108 84 (by norm_num),
    i32At_take d 108 88 (by norm_num),
    i32At_take d 108 92 (by norm_num),
    i32At_take d 108 96 (by norm_num),
    i32At_take d 108 100 (by norm_num),
    i32At_take d 108 104 (by norm_num),
    bytesAt_take d 108 8 64 (by norm_num)]

theorem Surf_decode_local (d : List Byte) :
    (Surf.decode d).1 = (Surf.decode (d.take 108)).1 := by
  rw [Surf_decode_fields, Surf_decode_fields]
  rw [i32At_take d 108 0 (by norm_num),
    i32At_take d 108 68 (by norm_num),
    i32At_take d 108 72 (by norm_num),
    i32At_take d 108 76 (by norm_num),
    i32At_take d 108 80 (by norm_num),
    i32At_take d 108 84 (by norm_num),
    i32At_take d 108 88 (by norm_num),
    i32At_take d 108 92 (by norm_num),
    i32At_take d 108 96 (by norm_num),
    i32At_take d 108 100 (by norm_num),
    i32At_take d 108 104 (by norm_num),
    bytesAt_take d 108 4 64 (by norm_num)]

theorem Frame_decode_fields (d : List Byte) :
    (Frame.decode d).1 =
      { MinBounds := ⟨u32At d 0, u32At d 4, u32At d 8⟩,
        MaxBounds := ⟨u32At d 12, u32At d 16, u32At d 20⟩,
        LocalOrigin := ⟨u32At d 24, u32At d 28, u32At d 32⟩,
        Radius := u32At d 36, Name := bytesAt d 40 16 } := by
  simp [Frame.decode, getF32x3, getU32, getBytes, List.drop_drop, u32At, bytesAt]

theorem u32At_take (d : List Byte) (s off : Nat) (h : off + 4 ≤ s) :
    u32At (d.take s) off = u32At d off := by
  simp only [u32At, take_drop_of_take d s off 4 h]

theorem Frame_decode_local (d : List Byte) :
    (Frame.decode d).1 = (Frame.decode (d.take 56)).1 := by
  rw [Frame_decode_fields, Frame_decode_fields]
  rw [u32At_take d 56 0 (by norm_num), u32At_take d 56 4 (by norm_num),
    u32At_take d 56 8 (by norm_num), u32At_take d 56 12 (by norm_num),
    u32At_take d 56 16 (by norm_num), u32At_take d 56 20 (by norm_num),
    u32At_take d 56 24 (by norm_num), u32At_take d 56 28 (by norm_num),
    u32At_take d 56 32 (by norm_num), u32At_take d 56 36 (by norm_num),
    bytesAt_take d 56 40 16 (by norm_num)]

theorem readSurfs_ok_inv (b : List Byte) (n o : Int) (surfs : List Surf)
    (h : readSlice Surf.size Surf.decode b n o = .ok surfs) :
    0 ≤ n ∧ 0 ≤ o ∧ o + n * 108 ≤ b.length ∧ surfs = surfsAt b o.toNat n.toNat := by
  obtain ⟨h1, h2, _, h4, h5⟩ := readSlice_ok_inv _ _ _ _ _ _ h
  refine ⟨h1, h2, h4, ?_⟩
  rw [h5, surfsAt]
  exact decodeN_take_eq_map Surf.decode 108 Surf_decode_rest Surf_decode_local _ _ _

theorem readFrames_ok_inv (b : List Byte) (n o : Int) (fs : List Frame)
    (h : readSlice Frame.size Frame.decode b n o = .ok fs) :
    0 ≤ n ∧ 0 ≤ o ∧ o + n * 56 ≤ b.length ∧ fs = framesAt b o.toNat n.toNat := by
  obtain ⟨h1, h2, _, h4, h5⟩ := readSlice_ok_inv _ _ _ _ _ _ h
  refine ⟨h1, h2, h4, ?_⟩
  rw [h5, framesAt]
  exact decodeN_take_eq_map Frame.decode 56 Frame_decode_rest Frame_decode_local _ _ _

theorem readHeader_ok_inv (b : List Byte) (m : Header) (h : readHeader b = .ok m) :
    108 ≤ b.length ∧ m = (Header.decode (b.take 108)).1 := by
  by_cases hlen : Header.size ≤ b.length
  · rw [readHeader_eq_ok b hlen] at h
    injection h with h
    exact ⟨hlen, h.symm⟩
  · obtain ⟨e, he⟩ := readHeader_fatal b (not_le.1 hlen)
    rw [he] at h
    cases h

/-! ### Byte patterns of `normal` -/

theorem latIdx_toInt16 (p : Nat) (hp : p < 65536) : latIdx (toInt16 p) = ((p / 256 : Nat) : Int) := by
  rw [latIdx_eq]
  unfold toInt16
  norm_num
  split_ifs <;> omega

theorem lngIdx_toInt16 (p : Nat) (hp : p < 65536) : lngIdx (toInt16 p) = ((p % 256 : Nat) : Int) := by
  have _ := hp
  rw [lngIdx_eq]
  unfold toInt16
  norm_num
  split_ifs <;> omega

theorem toInt16_isInt16 (p : Nat) : IsInt16 (toInt16 p) := by
  unfold toInt16 IsInt16
  norm_num
  split_ifs <;> constructor <;> omega

theorem normal_real_of_bytes (h l : Nat) (hh : h ≤ 255) (hl : l ≤ 255) :
    normal Real.cos Real.sin Real.pi id id (toInt16 (256 * h + l)) =
      ⟨Real.cos ((h : ℝ) * (2 * Real.pi) / 255) * Real.sin ((l : ℝ) * (2 * Real.pi) / 255),
        Real.sin ((h : ℝ) * (2 * Real.pi) / 255) * Real.sin ((l : ℝ) * (2 * Real.pi) / 255),
        Real.cos ((l : ℝ) * (2 * Real.pi) / 255)⟩ := by
  have e1 : (256 * h + l) / 256 = h := by omega
  have e2 : (256 * h + l) % 256 = l := by omega
  simp only [normal, id, latIdx_toInt16 _ (show 256 * h + l < 65536 by omega),
    lngIdx_toInt16 _ (show 256 * h + l < 65536 by omega), e1, e2]
  norm_num

theorem angle_255 : ((255 : Nat) : ℝ) * (2 * Real.pi) / 255 = 2 * Real.pi := by
  push_cast
  ring

/-! ### The output of a run that ends normally -/

theorem cstr_some_inv (bs name : List Byte) (h : cstr bs = some name) :
    (0 : Byte) ∈ bs ∧ name = textOf bs := by
  by_cases h0 : (0 : Byte) ∈ bs
  · rw [cstr_of_mem bs h0] at h
    injection h with h
    exact ⟨h0, h.symm⟩
  · rw [cstr_of_not_mem bs h0] at h
    cases h

theorem cstr_eq_textOf (bs : List Byte) (h : (0 : Byte) ∈ bs) : cstr bs = some (textOf bs) :=
  cstr_of_mem bs h

theorem headerLines_ok_iff (m : Header) : (headerLines m).2 = .ok ↔ (0 : Byte) ∈ m.Name := by
  unfold headerLines
  constructor
  · intro h
    obtain ⟨_, h2, _⟩ := andThen_ok_inv _ _ h
    cases hc : cstr m.Name with
    | none => simp [hc, die] at h2
    | some name => exact (cstr_some_inv _ _ hc).1
  · intro h
    simp [cstr_eq_textOf _ h, andThen, say]

theorem headerLines_of_mem (m : Header) (h : (0 : Byte) ∈ m.Name) :
    headerLines m = (headerBlock m, .ok) := by
  simp [headerLines, cstr_eq_textOf _ h, andThen, say, headerBlock]

theorem headerLines_of_not_mem (m : Header) (h : (0 : Byte) ∉ m.Name) :
    headerLines m = ((headerBlock m).take 2, .failed .panic) := by
  simp [headerLines, cstr_of_not_mem _ h, andThen, say, die, headerBlock]

theorem frameLines_of_mem (i : Nat) (fr : Frame) (h : (0 : Byte) ∈ fr.Name) :
    frameLines i fr = (frameBlock i fr, .ok) := by
  simp [frameLines, cstr_eq_textOf _ h, andThen, say, frameBlock]

theorem frameLines_of_not_mem (i : Nat) (fr : Frame) (h : (0 : Byte) ∉ fr.Name) :
    frameLines i fr = ((frameBlock i fr).take 5, .failed .panic) := by
  simp [frameLines, cstr_of_not_mem _ h, andThen, say, die, frameBlock]

theorem frameLines_ok_iff (i : Nat) (fr : Frame) :
    (frameLines i fr).2 = .ok ↔ (0 : Byte) ∈ fr.Name := by
  by_cases h : (0 : Byte) ∈ fr.Name
  · simp [frameLines_of_mem i fr h, h]
  · simp [frameLines_of_not_mem i fr h, h]

theorem surfLines_of_ok (b : List Byte) (i : Nat) (s : Surf) (verts : List XYZNormal)
    (h : (0 : Byte) ∈ s.Name) (hv : readVerts b s = .ok verts) :
    surfLines b i s = (surfBlock i s (textOf s.Name) verts, .ok) := by
  simp [surfLines, cstr_eq_textOf _ h, hv, andThen, say, surfBlock]

theorem surfLines_ok_block (b : List Byte) (i : Nat) (s : Surf) (h : (surfLines b i s).2 = .ok) :
    (0 : Byte) ∈ s.Name ∧
      readVerts b s = .ok (recordsAt b s.OfsXYZNormal.toNat s.NumVerts.toNat) ∧
      (surfLines b i s).1 = surfBlockAt b i s := by
  obtain ⟨name, verts, h1, h2, h3⟩ := surfLines_ok_inv b i s h
  obtain ⟨g1, g2⟩ := cstr_some_inv _ _ h1
  obtain ⟨_, _, _, hv⟩ := readVerts_ok_inv b s verts h2
  subst hv g2
  exact ⟨g1, h2, h3⟩

theorem forRange_ok_blocks {α : Type} (body : Nat → α → Out) (f : Nat → α → List Line) :
    ∀ (xs : List α) (i : Nat), (forRange body i xs).2 = .ok →
      (∀ j x, (body j x).2 = .ok → (body j x).1 = f j x) →
      (forRange body i xs).1 = blocks f i xs := by
  intro xs
  induction xs with
  | nil => intro i _ _; rfl
  | cons x xs ih =>
    intro i hok hf
    simp only [forRange] at hok ⊢
    obtain ⟨h1, h2, h3⟩ := andThen_ok_inv _ _ hok
    rw [h3, hf i x h1, ih (i + 1) h2 hf]
    rfl

theorem forRange_ok_of_all {α : Type} (body : Nat → α → Out) :
    ∀ (xs : List α) (i : Nat), (∀ j, ∀ x ∈ xs, (body j x).2 = .ok) →
      (forRange body i xs).2 = .ok := by
  intro xs
  induction xs with
  | nil => intro i _; rfl
  | cons x xs ih =>
    intro i h
    simp only [forRange]
    rw [andThen_of_ok _ _ (h i x (List.mem_cons_self _ _))]
    exact ih (i + 1) (fun j y hy => h j y (List.mem_cons_of_mem _ hy))

theorem forRange_ok_all {α : Type} (body : Nat → α → Out) :
    ∀ (xs : List α) (i : Nat), (forRange body i xs).2 = .ok →
      ∀ x ∈ xs, ∃ j, (body j x).2 = .ok := by
  intro xs
  induction xs with
  | nil => intro i _ x hx; simp at hx
  | cons y ys ih =>
    intro i hok x hx
    simp only [forRange] at hok
    obtain ⟨h1, h2, _⟩ := andThen_ok_inv _ _ hok
    rcases List.mem_cons.1 hx with rfl | hx
    · exact ⟨i, h1⟩
    · exact ih (i + 1) h2 x hx

/-- A run that ends normally: the three reads succeeded, every name holds a zero
byte, and the output is `expectedOutput`. -/
theorem dump_ok_inv (b : List Byte) (hok : (dump b).2 = .ok) :
    ∃ m, readHeader b = .ok m ∧ (0 : Byte) ∈ m.Name ∧
      readSlice Frame.size Frame.decode b m.NumFrames m.OfsFrames =
        .ok (framesAt b m.OfsFrames.toNat m.NumFrames.toNat) ∧
      readSlice Surf.size Surf.decode b m.NumSurfs m.OfsSurfs =
        .ok (surfsAt b m.OfsSurfs.toNat m.NumSurfs.toNat) ∧
      (forRange frameLines 0 (framesAt b m.OfsFrames.toNat m.NumFrames.toNat)).2 = .ok ∧
      (forRange (surfLines b) 0 (surfsAt b m.OfsSurfs.toNat m.NumSurfs.toNat)).2 = .ok ∧
      (dump b).1 = expectedOutput b m := by
  cases hm : readHeader b with
  | error st => simp [dump, hm, die] at hok
  | ok m =>
    have hdump : dump b = andThen (headerLines m) (andThen (dumpFrames b m) (dumpSurfs b m)) := by
      simp [dump, hm]
    rw [hdump] at hok ⊢
    obtain ⟨h1, h2, h3⟩ := andThen_ok_inv _ _ hok
    obtain ⟨g1, g2, g3⟩ := andThen_ok_inv _ _ h2
    have hname := (headerLines_ok_iff m).1 h1
    cases hf : readSlice Frame.size Frame.decode b m.NumFrames m.OfsFrames with
    | error st => simp [dumpFrames, hf, die] at g1
    | ok fs =>
      cases hs : readSlice Surf.size Surf.decode b m.NumSurfs m.OfsSurfs with
      | error st => simp [dumpSurfs, hs, die] at g2
      | ok ss =>
        obtain ⟨_, _, _, hfs⟩ := readFrames_ok_inv b _ _ fs hf
        obtain ⟨_, _, _, hss⟩ := readSurfs_ok_inv b _ _ ss hs
        subst hfs hss
        have ef : dumpFrames b m =
            forRange frameLines 0 (framesAt b m.OfsFrames.toNat m.NumFrames.toNat) := by
          simp [dumpFrames, hf]
        have es : dumpSurfs b m =
            forRange (surfLines b) 0 (surfsAt b m.OfsSurfs.toNat m.NumSurfs.toNat) := by
          simp [dumpSurfs, hs]
        rw [ef] at g1 g3
        rw [es] at g2 g3
        refine ⟨m, rfl, hname, hf, hs, g1, g2, ?_⟩
        rw [h3, ef, es, g3, headerLines_of_mem m hname,
          forRange_ok_blocks frameLines frameBlock _ 0 g1
            (fun j x hx => by rw [frameLines_of_mem j x ((frameLines_ok_iff j x).1 hx)]),
          forRange_ok_blocks (surfLines b) (surfBlockAt b) _ 0 g2
            (fun j x hx => (surfLines_ok_block b j x hx).2.2)]
        simp [expectedOutput, List.append_assoc]

/-! ### Reads that fit -/

theorem readFrames_eq_ok (b : List Byte) (n o : Int) (hn : 0 ≤ n) (h0 : 0 ≤ o)
    (h : o + 56 * n ≤ b.length) :
    readSlice Frame.size Frame.decode b n o = .ok (framesAt b o.toNat n.toNat) := by
  have hS : ((Frame.size : Nat) : Int) = 56 := by decide
  rw [readSlice_eq_ok Frame.size Frame.decode b n o hn h0 (by omega) (by rw [hS]; omega), framesAt]
  exact congrArg _
    (decodeN_take_eq_map Frame.decode 56 Frame_decode_rest Frame_decode_local _ _ _)

theorem readSurfs_eq_ok (b : List Byte) (n o : Int) (hn : 0 ≤ n) (h0 : 0 ≤ o)
    (h : o + 108 * n ≤ b.length) :
    readSlice Surf.size Surf.decode b n o = .ok (surfsAt b o.toNat n.toNat) := by
  have hS : ((Surf.size : Nat) : Int) = 108 := by decide
  rw [readSlice_eq_ok Surf.size Surf.decode b n o hn h0 (by omega) (by rw [hS]; omega), surfsAt]
  exact congrArg _
    (decodeN_take_eq_map Surf.decode 108 Surf_decode_rest Surf_decode_local _ _ _)

theorem readVerts_eq_ok (b : List Byte) (s : Surf) (hn : 0 ≤ s.NumVerts)
    (h0 : 0 ≤ s.OfsXYZNormal) (h : s.OfsXYZNormal + 8 * s.NumVerts ≤ b.length) :
    readVerts b s = .ok (recordsAt b s.OfsXYZNormal.toNat s.NumVerts.toNat) := by
  have hS : ((XYZNormal.size : Nat) : Int) = 8 := by decide
  rw [readVerts, readSlice_eq_ok XYZNormal.size XYZNormal.decode b _ _ hn h0 (by omega)
    (by rw [hS]; omega), recordsAt]
  exact congrArg _
    (decodeN_take_eq_map XYZNormal.decode 8 XYZNormal_decode_rest XYZNormal_decode_local _ _ _)

/-! ### Counting the lines of a block -/

theorem filter_lead_map {α : Type} (g : α → Val) (q p : String) (xs : List α) :
    (xs.map (fun v => Line.ln q (g v))).filter (fun l => decide (l.lead = p)) =
      if q = p then xs.map (fun v => Line.ln q (g v)) else [] := by
  induction xs with
  | nil => simp
  | cons x xs ih =>
    by_cases h : q = p
    · simp [h, Line.lead] at ih ⊢
    · simp [h, Line.lead] at ih ⊢

theorem filter_surfBlock_surface (i : Nat) (s : Surf) (name : List Byte)
    (verts : List XYZNormal) :
    (surfBlock i s name verts).filter (fun l => decide (l.lead = "Surface")) =
      [Line.ln "Surface" (.idx i)] := by
  simp only [surfBlock, vertLines, List.filter_append, filter_lead_map]
  simp [surfFieldLines, Line.lead, List.filter]

theorem filter_surfBlock_frame (i : Nat) (s : Surf) (name : List Byte)
    (verts : List XYZNormal) :
    (surfBlock i s name verts).filter (fun l => decide (l.lead = "Frame")) = [] := by
  simp only [surfBlock, vertLines, List.filter_append, filter_lead_map]
  simp [surfFieldLines, Line.lead, List.filter]

theorem filter_frameBlock_frame (i : Nat) (fr : Frame) :
    (frameBlock i fr).filter (fun l => decide (l.lead = "Frame")) = [Line.ln "Frame" (.idx i)] := by
  simp [frameBlock, Line.lead, List.filter]

theorem filter_frameBlock_surface (i : Nat) (fr : Frame) :
    (frameBlock i fr).filter (fun l => decide (l.lead = "Surface")) = [] := by
  simp [frameBlock, Line.lead, List.filter]

theorem filter_headerBlock (m : Header) :
    (headerBlock m).filter (fun l => decide (l.lead = "Frame")) = [] ∧
      (headerBlock m).filter (fun l => decide (l.lead = "Surface")) = [] := by
  simp [headerBlock, Line.lead, List.filter]

theorem filter_blocks_nil {α : Type} (p : Line → Bool) (f : Nat → α → List Line)
    (hf : ∀ i x, (f i x).filter p = []) :
    ∀ (xs : List α) (i : Nat), (blocks f i xs).filter p = [] := by
  intro xs
  induction xs with
  | nil => intro i; rfl
  | cons x xs ih => intro i; simp [blocks, hf, ih]

theorem filter_blocks_heading {α : Type} (p : Line → Bool) (f : Nat → α → List Line)
    (H : Nat → Line) (hf : ∀ i x, (f i x).filter p = [H i]) :
    ∀ (xs : List α) (i : Nat),
      (blocks f i xs).filter p = (List.range' i xs.length).map H := by
  intro xs
  induction xs with
  | nil => intro i; rfl
  | cons x xs ih => intro i; simp [blocks, hf, ih, List.range'_succ]

theorem blocks_split {α : Type} (f : Nat → α → List Line) :
    ∀ (xs : List α) (i j : Nat) (h : j < xs.length),
      blocks f i xs =
        blocks f i (xs.take j) ++ f (i + j) (xs.get ⟨j, h⟩) ++
          blocks f (i + j + 1) (xs.drop (j + 1)) := by
  intro xs
  induction xs with
  | nil => intro i j h; simp at h
  | cons x xs ih =>
    intro i j h
    cases j with
    | zero => simp [blocks]
    | succ j =>
      have hj : j < xs.length := by simpa using h
      have e1 : i + (j + 1) = i + 1 + j := by omega
      simp only [blocks, List.take_succ_cons, List.drop_succ_cons, List.get_cons_succ,
        List.append_assoc, e1]
      rw [ih (i + 1) j hj]
      simp only [List.append_assoc]

/-! ### A longer buffer carries the run on -/

theorem extends_refl (x : Out) : Extends x x := Or.inl rfl

theorem extends_die (f : Fault) (y : Out) : Extends (die f) y :=
  Or.inr ⟨by simp [die], by simp [die]⟩

theorem extends_output (x y : Out) (h : Extends x y) : x.1 <+: y.1 := by
  rcases h with h | h
  · rw [h]
  · exact h.2

theorem andThen_keeps_first (a k : Out) : a.1 <+: (andThen a k).1 := by
  by_cases ha : a.2 = .ok
  · rw [andThen_of_ok a k ha]
    exact List.prefix_append _ _
  · rw [andThen_of_not_ok a k ha]

theorem extends_andThen (a a2 k k2 : Out) (ha : Extends a a2) (hk : Extends k k2) :
    Extends (andThen a k) (andThen a2 k2) := by
  rcases ha with ha | ⟨ha1, ha2⟩
  · subst ha
    by_cases hok : a.2 = .ok
    · rw [andThen_of_ok a k hok, andThen_of_ok a k2 hok]
      rcases hk with hk | ⟨hk1, hk2⟩
      · subst hk; exact Or.inl rfl
      · exact Or.inr ⟨hk1, (List.prefix_append_right_inj _).2 hk2⟩
    · rw [andThen_of_not_ok a k hok, andThen_of_not_ok a k2 hok]
      exact Or.inl rfl
  · rw [andThen_of_not_ok a k ha1]
    exact Or.inr ⟨ha1, ha2.trans (andThen_keeps_first a2 k2)⟩

theorem extends_forRange {α : Type} (body body2 : Nat → α → Out)
    (h : ∀ i x, Extends (body i x) (body2 i x)) :
    ∀ (xs : List α) (i : Nat), Extends (forRange body i xs) (forRange body2 i xs) := by
  intro xs
  induction xs with
  | nil => intro i; exact Or.inl rfl
  | cons x xs ih =>
    intro i
    simp only [forRange]
    exact extends_andThen _ _ _ _ (h i x) (ih (i + 1))

theorem take_drop_append (b ext : List Byte) (o k : Nat) (h : o + k ≤ b.length) :
    ((b ++ ext).drop o).take k = (b.drop o).take k := by
  rw [List.drop_append_of_le_length (by omega), List.take_append_of_le_length]
  rw [List.length_drop]
  omega

theorem readSlice_append {α : Type} (size : Nat) (dec : List Byte → α × List Byte)
    (b ext : List Byte) (n o : Int) (xs : List α) (h : readSlice size dec b n o = .ok xs) :
    readSlice size dec (b ++ ext) n o = .ok xs := by
  obtain ⟨h1, h2, h3, h4, h5⟩ := readSlice_ok_inv size dec b n o xs h
  have hl : ((b ++ ext).length : Int) = b.length + ext.length := by simp
  rw [readSlice_eq_ok size dec (b ++ ext) n o h1 h2 (by omega) (by omega), h5]
  have hfit : o.toNat + n.toNat * size ≤ b.length := by
    have e1 : ((n.toNat * size : Nat) : Int) = n * size := by
      push_cast
      rw [Int.toNat_of_nonneg h1]
    omega
  rw [take_drop_append b ext _ _ hfit]

theorem readHeader_append (b ext : List Byte) (m : Header) (h : readHeader b = .ok m) :
    readHeader (b ++ ext) = .ok m := by
  obtain ⟨h1, h2⟩ := readHeader_ok_inv b m h
  have hsz : Header.size = 108 := by decide
  rw [readHeader_eq_ok (b ++ ext) (by rw [hsz, List.length_append]; omega), h2, hsz,
    List.take_append_of_le_length h1]

theorem extends_surfLines (b ext : List Byte) (i : Nat) (s : Surf) :
    Extends (surfLines b i s) (surfLines (b ++ ext) i s) := by
  unfold surfLines
  apply extends_andThen _ _ _ _ (extends_refl _)
  cases hc : cstr s.Name with
  | none => exact extends_refl _
  | some name =>
    apply extends_andThen _ _ _ _ (extends_refl _)
    cases hv : readVerts b s with
    | error st => exact extends_die st _
    | ok verts =>
      have hv2 : readVerts (b ++ ext) s = .ok verts := readSlice_append _ _ b ext _ _ verts hv
      rw [hv2]
      exact extends_refl _

theorem extends_dumpFrames (b ext : List Byte) (m : Header) :
    Extends (dumpFrames b m) (dumpFrames (b ++ ext) m) := by
  unfold dumpFrames
  cases hf : readSlice Frame.size Frame.decode b m.NumFrames m.OfsFrames with
  | error st => exact extends_die st _
  | ok f =>
    rw [readSlice_append _ _ b ext _ _ f hf]
    exact extends_refl _

theorem extends_dumpSurfs (b ext : List Byte) (m : Header) :
    Extends (dumpSurfs b m) (dumpSurfs (b ++ ext) m) := by
  unfold dumpSurfs
  cases hs : readSlice Surf.size Surf.decode b m.NumSurfs m.OfsSurfs with
  | error st => exact extends_die st _
  | ok surfs =>
    rw [readSlice_append _ _ b ext _ _ surfs hs]
    exact extends_forRange _ _ (extends_surfLines b ext) surfs 0

theorem extends_dump (b ext : List Byte) : Extends (dump b) (dump (b ++ ext)) := by
  unfold dump
  cases hm : readHeader b with
  | error st => exact extends_die st _
  | ok m =>
    rw [readHeader_append b ext m hm]
    exact extends_andThen _ _ _ _ (extends_refl _)
      (extends_andThen _ _ _ _ (extends_dumpFrames b ext m) (extends_dumpSurfs b ext m))

/-! ### Buffers that agree from byte 8 on -/

theorem andThen_assoc (a k r : Out) : andThen (andThen a k) r = andThen a (andThen k r) := by
  by_cases ha : a.2 = .ok
  · by_cases hk : k.2 = .ok
    · have h1 : (andThen a k).2 = .ok := by rw [andThen_of_ok a k ha]; exact hk
      rw [andThen_of_ok _ r h1, andThen_of_ok a k ha, andThen_of_ok k r hk, andThen_of_ok a _ ha]
      simp
    · have h1 : (andThen a k).2 ≠ .ok := by rw [andThen_of_ok a k ha]; exact hk
      rw [andThen_of_not_ok _ r h1, andThen_of_not_ok k r hk]
  · rw [andThen_of_not_ok a k ha, andThen_of_not_ok a r ha, andThen_of_not_ok a _ ha]

theorem drop_eq_of_drop_eight (b1 b2 : List Byte) (h : b1.drop 8 = b2.drop 8) (k : Nat)
    (hk : 8 ≤ k) : b1.drop k = b2.drop k := by
  have e : k = 8 + (k - 8) := by omega
  rw [e, ← List.drop_drop, ← List.drop_drop, h]

theorem readSlice_congr {α : Type} (size : Nat) (dec : List Byte → α × List Byte)
    (b1 b2 : List Byte) (n o : Int) (hlen : b1.length = b2.length)
    (h : b1.drop 8 = b2.drop 8) (ho : n ≤ 0 ∨ 8 ≤ o) :
    readSlice size dec b1 n o = readSlice size dec b2 n o := by
  by_cases hn : n < 0
  · simp [readSlice, hn]
  · by_cases hr : 0 ≤ o ∧ o ≤ (b1.length : Int)
    · have hr2 : 0 ≤ o ∧ o ≤ (b2.length : Int) := by rw [← hlen]; exact hr
      simp only [readSlice, hn, if_false, sliceFrom, hr, hr2, and_self, if_true]
      rcases ho with ho | ho
      · have e : n.toNat = 0 := by omega
        simp [e, binaryRead, readFull, decodeN]
      · rw [drop_eq_of_drop_eight b1 b2 h o.toNat (by omega)]
    · have hr2 : ¬ (0 ≤ o ∧ o ≤ (b2.length : Int)) := by rw [← hlen]; exact hr
      simp [readSlice, hn, sliceFrom, hr, hr2]

theorem i32At_congr (b1 b2 : List Byte) (h : b1.drop 8 = b2.drop 8) (k : Nat) (hk : 8 ≤ k) :
    i32At b1 k = i32At b2 k := by
  simp only [i32At, drop_eq_of_drop_eight b1 b2 h k hk]

theorem header_congr (b1 b2 : List Byte) (h : b1.drop 8 = b2.drop 8) :
    (Header.decode b2).1 =
      { (Header.decode b1).1 with Magic := i32At b2 0, Version := i32At b2 4 } := by
  rw [Header_decode_fields, Header_decode_fields]
  simp only [bytesAt, drop_eq_of_drop_eight b1 b2 h 8 (by norm_num),
    i32At_congr b1 b2 h 72 (by norm_num), i32At_congr b1 b2 h 76 (by norm_num),
    i32At_congr b1 b2 h 80 (by norm_num), i32At_congr b1 b2 h 84 (by norm_num),
    i32At_congr b1 b2 h 88 (by norm_num), i32At_congr b1 b2 h 92 (by norm_num),
    i32At_congr b1 b2 h 96 (by norm_num), i32At_congr b1 b2 h 100 (by norm_num),
    i32At_congr b1 b2 h 104 (by norm_num)]

theorem forRange_congr {α : Type} (body body2 : Nat → α → Out) :
    ∀ (xs : List α) (i : Nat), (∀ j, ∀ x ∈ xs, body j x = body2 j x) →
      forRange body i xs = forRange body2 i xs := by
  intro xs
  induction xs with
  | nil => intro i _; rfl
  | cons x xs ih =>
    intro i h
    simp only [forRange]
    rw [h i x (List.mem_cons_self _ _), ih (i + 1) (fun j y hy => h j y (List.mem_cons_of_mem _ hy))]

theorem readHeader_short_congr (b1 b2 : List Byte) (hlen : b1.length = b2.length)
    (h : b1.length < 108) : readHeader b1 = readHeader b2 := by
  have hsz : Header.size = 108 := by decide
  have h2 : b2.length < 108 := by omega
  by_cases h0 : b1.length = 0
  · have h02 : b2.length = 0 := by omega
    simp [readHeader, binaryRead1, readFull, hsz, h0, h02]
  · have h02 : b2.length ≠ 0 := by omega
    simp [readHeader, binaryRead1, readFull, hsz, h0, h02, h, h2]

theorem say_andThen (l1 l2 : Line) (t : Out) : andThen (say [l1, l2]) t = (l1 :: l2 :: t.1, t.2) := by
  simp [andThen, say]

/-- The part of `dump` after the `Magic` and `Version` lines is the same for two
buffers of equal length that agree from byte 8 on, when every array read with a
positive count starts at offset 8 or later. -/
theorem dump_congr (b1 b2 : List Byte) (hlen : b1.length = b2.length)
    (hrest : b1.drop 8 = b2.drop 8) (h108 : 108 ≤ b1.length)
    (hoff : ∀ m, readHeader b1 = .ok m →
      (m.NumFrames ≤ 0 ∨ 8 ≤ m.OfsFrames) ∧ (m.NumSurfs ≤ 0 ∨ 8 ≤ m.OfsSurfs) ∧
        ∀ surfs, readSlice Surf.size Surf.decode b1 m.NumSurfs m.OfsSurfs = .ok surfs →
          ∀ s ∈ surfs, s.NumVerts ≤ 0 ∨ 8 ≤ s.OfsXYZNormal) :
    ∃ (m1 m2 : Header) (t : Out), readHeader b1 = .ok m1 ∧ readHeader b2 = .ok m2 ∧
      dump b1 = (Line.pf "Magic = '" (.str (magic m1.Magic)) "'" ::
        Line.ln "Version =" (.int m1.Version) :: t.1, t.2) ∧
      dump b2 = (Line.pf "Magic = '" (.str (magic m2.Magic)) "'" ::
        Line.ln "Version =" (.int m2.Version) :: t.1, t.2) := by
  have hsz : Header.size = 108 := by decide
  have hm1 : readHeader b1 = .ok (Header.decode b1).1 := by
    rw [readHeader_eq_ok b1 (by omega), hsz, ← Header_decode_local]
  have hm2 : readHeader b2 = .ok (Header.decode b2).1 := by
    rw [readHeader_eq_ok b2 (by omega), hsz, ← Header_decode_local]
  obtain ⟨o1, o2, o3⟩ := hoff _ hm1
  have hc := header_congr b1 b2 hrest
  generalize (Header.decode b1).1 = m1 at hm1 hc o1 o2 o3
  generalize (Header.decode b2).1 = m2 at hm2 hc
  subst hc
  have hF : dumpFrames b2 { m1 with Magic := i32At b2 0, Version := i32At b2 4 } =
      dumpFrames b1 m1 := by
    simp only [dumpFrames]
    rw [readSlice_congr _ _ b1 b2 _ _ hlen hrest o1]
  have hS : dumpSurfs b2 { m1 with Magic := i32At b2 0, Version := i32At b2 4 } =
      dumpSurfs b1 m1 := by
    simp only [dumpSurfs]
    rw [← readSlice_congr _ _ b1 b2 _ _ hlen hrest o2]
    cases hs : readSlice Surf.size Surf.decode b1 m1.NumSurfs m1.OfsSurfs with
    | error st => rfl
    | ok surfs =>
      simp only
      apply forRange_congr
      intro j s hmem
      have hv : readVerts b2 s = readVerts b1 s :=
        (readSlice_congr _ _ b1 b2 _ _ hlen hrest (o3 surfs hs s hmem)).symm
      simp only [surfLines, hv]
  refine ⟨m1, _, andThen (match cstr m1.Name with
      | none => die .panic
      | some name =>
        say [Line.pf "Name = '" (.str name) "'",
            Line.ln "Flags =" (.int m1.Flags),
            Line.ln "NumFrames =" (.int m1.NumFrames),
            Line.ln "NumTags =" (.int m1.NumTags),
            Line.ln "NumSurfs =" (.int m1.NumSurfs),
            Line.ln "NumSkins =" (.int m1.NumSkins),
            Line.pf "OfsFrames = " (.hex m1.OfsFrames) "",
            Line.pf "OfsTags = " (.hex m1.OfsTags) "",
            Line.pf "OfsSurfs = " (.hex m1.OfsSurfs) "",
            Line.pf "OfsEOF = " (.hex m1.OfsEOF) ""])
      (andThen (dumpFrames b1 m1) (dumpSurfs b1 m1)), hm1, hm2, ?_, ?_⟩
  · rw [← say_andThen, ← andThen_assoc]
    simp only [dump, hm1, headerLines]
  · rw [← say_andThen, ← andThen_assoc]
    simp only [dump, hm2, headerLines, hF, hS]

/-! ### Lines of standard output -/

theorem textLines_cons (t : Tok) (ts : List Tok) :
    textLines (t :: ts) =
      if t = Tok.nl then [] :: textLines ts
      else
        match textLines ts with
        | [] => [[t]]
        | l :: ls => (t :: l) :: ls := rfl

theorem textLines_append_nl_ne_nil (a b : List Tok) : textLines (a ++ Tok.nl :: b) ≠ [] := by
  induction a with
  | nil => simp [textLines]
  | cons t a ih =>
    rw [List.cons_append, textLines_cons]
    split_ifs
    · simp
    · cases h : textLines (a ++ Tok.nl :: b) with
      | nil => exact absurd h ih
      | cons l ls => simp

theorem textLines_append_nl (a b : List Tok) :
    textLines (a ++ Tok.nl :: b) = textLines (a ++ [Tok.nl]) ++ textLines b := by
  induction a with
  | nil => simp [textLines]
  | cons t a ih =>
    rw [List.cons_append, List.cons_append, textLines_cons, textLines_cons]
    split_ifs
    · rw [ih]; rfl
    · rw [ih]
      cases h : textLines (a ++ [Tok.nl]) with
      | nil => exact absurd h (textLines_append_nl_ne_nil a [])
      | cons l ls => rfl

theorem textLines_clean (a : List Tok) (h : Tok.nl ∉ a) : textLines (a ++ [Tok.nl]) = [a] := by
  induction a with
  | nil => simp [textLines]
  | cons t a ih =>
    have ht : t ≠ Tok.nl := fun e => h (by rw [e]; exact List.mem_cons_self _ _)
    have ha : Tok.nl ∉ a := fun e => h (List.mem_cons_of_mem _ e)
    rw [List.cons_append, textLines_cons, if_neg ht, ih ha]

theorem stdoutLines_cons (l : Line) (ls : List Line) :
    stdoutLines (l :: ls) = textLines l.toks ++ stdoutLines ls := by
  simp only [stdoutLines, stdoutToks, Line.toks, List.append_assoc, List.singleton_append]
  exact textLines_append_nl _ _

theorem stdoutLines_append (xs ys : List Line) :
    stdoutLines (xs ++ ys) = stdoutLines xs ++ stdoutLines ys := by
  induction xs with
  | nil => rfl
  | cons x xs ih => rw [List.cons_append, stdoutLines_cons, stdoutLines_cons, ih, List.append_assoc]

theorem stdoutLines_all (P : List Tok → Prop) (out : List Line)
    (h : ∀ l ∈ out, ∀ t ∈ textLines l.toks, P t) : ∀ t ∈ stdoutLines out, P t := by
  induction out with
  | nil => intro t ht; simp [stdoutLines, stdoutToks, textLines] at ht
  | cons x xs ih =>
    intro t ht
    rw [stdoutLines_cons] at ht
    rcases List.mem_append.1 ht with h1 | h1
    · exact h x (List.mem_cons_self _ _) t h1
    · exact ih (fun l hl => h l (List.mem_cons_of_mem _ hl)) t h1

theorem body_eq_lead_append (l : Line) : ∃ r, l.body = (strBytes l.lead).map Tok.byte ++ r := by
  cases l with
  | ln s v => exact ⟨_, rfl⟩
  | pf pre v post => exact ⟨_, rfl⟩

theorem mayBegin_of_clash (p a : List Byte) (r : List Tok) (h : clash p a = true) :
    mayBegin p (a.map Tok.byte ++ r) = false := by
  induction p generalizing a with
  | nil => cases a <;> simp [clash] at h
  | cons c p ih =>
    cases a with
    | nil => simp [clash] at h
    | cons d a =>
      simp only [clash, Bool.or_eq_true, decide_eq_true_eq] at h
      simp only [List.map_cons, List.cons_append, mayBegin, Bool.and_eq_false_imp,
        decide_eq_true_eq]
      intro hcd
      rcases h with h | h
      · exact absurd hcd h
      · exact ih a h

theorem mayBegin_self (p : List Byte) (r : List Tok) : mayBegin p (p.map Tok.byte ++ r) = true := by
  induction p with
  | nil => simp [mayBegin]
  | cons c p ih => simp [mayBegin, ih]

theorem mayBegin_body (p : String) (l : Line) (h : labelTells p l.lead = true) :
    mayBegin (strBytes p) l.body = decide (l.lead = p) := by
  obtain ⟨r, hr⟩ := body_eq_lead_append l
  rw [hr]
  by_cases hp : l.lead = p
  · rw [hp, mayBegin_self]
    simp
  · simp only [labelTells, hp, decide_False, Bool.false_or] at h
    rw [mayBegin_of_clash _ _ r h]
    simp [hp]

theorem body_clean (l : Line) (h1 : (0x0A : Byte) ∉ strBytes l.lead)
    (h2 : (0x0A : Byte) ∉ strBytes l.post) (h3 : l.noFeed) : Tok.nl ∉ l.body := by
  cases l with
  | ln s v =>
    simp only [Line.lead] at h1
    cases v <;> simp [Line.body, Val.toks, Tok.nl, h1]
    exact h3 _ rfl
  | pf pre v post =>
    simp only [Line.lead] at h1
    simp only [Line.post] at h2
    cases v <;> simp [Line.body, Val.toks, Tok.nl, h1, h2]
    exact h3 _ rfl

theorem tame_clean (l : Line) (h : l.tame = true) (h3 : l.noFeed) : Tok.nl ∉ l.body := by
  simp only [Line.tame, tameLabel, Bool.and_eq_true, decide_eq_true_eq] at h
  exact body_clean l h.1.1.1.1.1 h.1.1.1.1.2 h3

theorem textLines_mem_sub (T : List Tok) : ∀ t ∈ textLines T, ∀ x ∈ t, x ∈ T := by
  induction T with
  | nil => intro t ht; simp [textLines] at ht
  | cons y T ih =>
    intro t ht x hx
    rw [textLines_cons] at ht
    split_ifs at ht with h
    · rcases List.mem_cons.1 ht with rfl | h1
      · simp at hx
      · exact List.mem_cons_of_mem _ (ih t h1 x hx)
    · cases hT : textLines T with
      | nil =>
        rw [hT] at ht
        simp only [List.mem_singleton] at ht
        subst ht
        simp only [List.mem_singleton] at hx
        subst hx
        exact List.mem_cons_self _ _
      | cons l ls =>
        rw [hT] at ht ih
        rcases List.mem_cons.1 ht with rfl | h1
        · rcases List.mem_cons.1 hx with rfl | h2
          · exact List.mem_cons_self _ _
          · exact List.mem_cons_of_mem _ (ih l (List.mem_cons_self _ _) x h2)
        · exact List.mem_cons_of_mem _ (ih t (List.mem_cons_of_mem _ h1) x hx)

theorem textLines_length_le (X : List Tok) :
    ∀ t ∈ textLines (X ++ [Tok.nl]), t.length ≤ X.length := by
  induction X with
  | nil => intro t ht; simp [textLines] at ht; simp [ht]
  | cons y X ih =>
    intro t ht
    rw [List.cons_append, textLines_cons] at ht
    split_ifs at ht with h
    · rcases List.mem_cons.1 ht with rfl | h1
      · simp
      · have := ih t h1
        simp only [List.length_cons]
        omega
    · cases hT : textLines (X ++ [Tok.nl]) with
      | nil => exact absurd hT (textLines_append_nl_ne_nil X [])
      | cons l ls =>
        rw [hT] at ht ih
        rcases List.mem_cons.1 ht with rfl | h1
        · have := ih l (List.mem_cons_self _ _)
          simp only [List.length_cons]
          omega
        · have := ih t (List.mem_cons_of_mem _ h1)
          simp only [List.length_cons]
          omega

theorem textLines_tail_length (X : List Tok) (l : List Tok) (ls : List (List Tok))
    (h : textLines (X ++ [Tok.nl]) = l :: ls) : ∀ t ∈ ls, t.length + 1 ≤ X.length := by
  induction X generalizing l ls with
  | nil =>
    intro t ht
    simp [textLines] at h
    rw [h.2] at ht
    simp at ht
  | cons y X ih =>
    intro t ht
    rw [List.cons_append, textLines_cons] at h
    split_ifs at h with hy
    · injection h with h1 h2
      subst h2
      have := textLines_length_le X t ht
      simp only [List.length_cons]
      omega
    · cases hT : textLines (X ++ [Tok.nl]) with
      | nil => exact absurd hT (textLines_append_nl_ne_nil X [])
      | cons l2 ls2 =>
        rw [hT] at h
        injection h with h1 h2
        subst h2
        have := ih l2 ls2 hT t ht
        simp only [List.length_cons]
        omega

theorem textLines_bytes_append (a X : List Tok) (h : Tok.nl ∉ a) :
    ∃ l ls, textLines (X ++ [Tok.nl]) = l :: ls ∧
      textLines (a ++ (X ++ [Tok.nl])) = (a ++ l) :: ls := by
  cases hT : textLines (X ++ [Tok.nl]) with
  | nil => exact absurd hT (textLines_append_nl_ne_nil X [])
  | cons l ls =>
    refine ⟨l, ls, rfl, ?_⟩
    induction a with
    | nil => simpa using hT
    | cons y a ih =>
      have hy : y ≠ Tok.nl := fun e => h (by rw [e]; exact List.mem_cons_self _ _)
      have ha : Tok.nl ∉ a := fun e => h (List.mem_cons_of_mem _ e)
      rw [List.cons_append, textLines_cons, if_neg hy, ih ha]
      rfl

theorem mayBegin_short (p : List Byte) (t : List Tok) (hb : ∀ x ∈ t, ∃ c, x = Tok.byte c)
    (hlen : t.length < p.length) : mayBegin p t = false := by
  induction p generalizing t with
  | nil => simp at hlen
  | cons c p ih =>
    cases t with
    | nil => rfl
    | cons x t =>
      obtain ⟨d, rfl⟩ := hb x (List.mem_cons_self _ _)
      simp only [mayBegin, Bool.and_eq_false_imp, decide_eq_true_eq]
      intro _
      exact ih t (fun y hy => hb y (List.mem_cons_of_mem _ hy))
        (by simpa using hlen)

theorem clean_line_filter (p : String) (L : Line) (ht : L.tame = true) (hn : L.noFeed)
    (htell : labelTells p L.lead = true) :
    (textLines L.toks).filter (mayBegin (strBytes p)) = if L.lead = p then [L.body] else [] := by
  rw [Line.toks, textLines_clean _ (tame_clean L ht hn)]
  simp only [List.filter_cons, List.filter_nil, mayBegin_body p L htell]
  by_cases h : L.lead = p <;> simp [h]

theorem magic_line_filter (p pre : String) (x : Int) (hp : 5 ≤ (strBytes p).length)
    (hc : clash (strBytes p) (strBytes pre) = true) (hnl : (0x0A : Byte) ∉ strBytes pre) :
    (textLines (Line.pf pre (.str (magic x)) "'").toks).filter (mayBegin (strBytes p)) = [] := by
  have ha : Tok.nl ∉ (strBytes pre).map Tok.byte := by
    simpa [Tok.nl] using hnl
  obtain ⟨l, ls, h1, h2⟩ := textLines_bytes_append ((strBytes pre).map Tok.byte)
    ((magic x).map Tok.byte ++ (strBytes "'").map Tok.byte) ha
  have e : (Line.pf pre (.str (magic x)) "'").toks =
      (strBytes pre).map Tok.byte ++
        (((magic x).map Tok.byte ++ (strBytes "'").map Tok.byte) ++ [Tok.nl]) := by
    simp [Line.toks, Line.body, Val.toks]
  rw [e, h2, List.filter_cons, mayBegin_of_clash _ _ l hc]
  simp only [Bool.false_eq_true, if_false, List.filter_eq_nil_iff, Bool.not_eq_true]
  intro t ht
  have hlen := textLines_tail_length _ l ls h1 t ht
  have hsub := textLines_mem_sub _ t (by rw [h1]; exact List.mem_cons_of_mem _ ht)
  apply mayBegin_short
  · intro y hy
    have := hsub y hy
    simp only [List.mem_append, List.mem_map, List.mem_singleton, Tok.nl] at this
    rcases this with (⟨c, _, rfl⟩ | ⟨c, _, rfl⟩) | rfl <;> exact ⟨_, rfl⟩
  · have h5 : ((magic x).map Tok.byte ++ (strBytes "'").map Tok.byte).length = 5 := by
      simp [magic, strBytes]
    omega

theorem stdoutLines_filter (q : List Tok → Bool) (p : String) (out : List Line)
    (h : ∀ L ∈ out, (textLines L.toks).filter q = if L.lead = p then [L.body] else []) :
    (stdoutLines out).filter q = (out.filter (fun l => decide (l.lead = p))).map Line.body := by
  induction out with
  | nil => rfl
  | cons x xs ih =>
    rw [stdoutLines_cons, List.filter_append, h x (List.mem_cons_self _ _),
      ih (fun L hL => h L (List.mem_cons_of_mem _ hL)), List.filter_cons]
    by_cases e : x.lead = p <;> simp [e]


/-! ### The lines of the blocks -/

theorem four_labels (p : String)
    (hp : p = "Frame" ∨ p = "Surface" ∨ p = " Vertex =" ∨ p = " Normal =") :
    5 ≤ (strBytes p).length ∧ clash (strBytes p) (strBytes "Magic = '") = true ∧
      clash (strBytes p) (strBytes " Magic = '") = true := by
  rcases hp with rfl | rfl | rfl | rfl <;> decide

theorem tame_tells_label (p : String)
    (hp : p = "Frame" ∨ p = "Surface" ∨ p = " Vertex =" ∨ p = " Normal =") (L : Line)
    (ht : L.tame = true) : labelTells p L.lead = true := by
  simp only [Line.tame, tameLabel, Bool.and_eq_true] at ht
  rcases hp with rfl | rfl | rfl | rfl
  · exact ht.1.1.1.2
  · exact ht.1.1.2
  · exact ht.1.2
  · exact ht.2

theorem line_filter (p : String)
    (hp : p = "Frame" ∨ p = "Surface" ∨ p = " Vertex =" ∨ p = " Normal =") (L : Line)
    (h : L.tame = true ∧ (L.noFeed ∨ ∃ x, L = Line.pf "Magic = '" (.str (magic x)) "'" ∨
      L = Line.pf " Magic = '" (.str (magic x)) "'")) :
    (textLines L.toks).filter (mayBegin (strBytes p)) = if L.lead = p then [L.body] else [] := by
  obtain ⟨ht, hn | ⟨x, rfl | rfl⟩⟩ := h
  · exact clean_line_filter p L ht hn (tame_tells_label p hp L ht)
  · obtain ⟨h5, hc, _⟩ := four_labels p hp
    rw [magic_line_filter p _ x h5 hc (by decide), if_neg]
    rcases hp with rfl | rfl | rfl | rfl <;> simp only [Line.lead] <;> decide
  · obtain ⟨h5, _, hc⟩ := four_labels p hp
    rw [magic_line_filter p _ x h5 hc (by decide), if_neg]
    rcases hp with rfl | rfl | rfl | rfl <;> simp only [Line.lead] <;> decide

theorem headerBlock_lines (m : Header) (hname : (0x0A : Byte) ∉ textOf m.Name) :
    ∀ L ∈ headerBlock m, L.tame = true ∧
      (L.noFeed ∨ ∃ x, L = Line.pf "Magic = '" (.str (magic x)) "'" ∨
        L = Line.pf " Magic = '" (.str (magic x)) "'") := by
  intro L hL
  simp only [headerBlock, List.mem_cons, List.mem_singleton, List.not_mem_nil, or_false] at hL
  rcases hL with rfl | rfl | rfl | rfl | rfl | rfl | rfl | rfl | rfl | rfl | rfl | rfl <;>
    refine ⟨by simp only [Line.tame, Line.lead, Line.post]; decide, ?_⟩ <;>
    first
      | exact Or.inr ⟨_, Or.inl rfl⟩
      | (refine Or.inl (fun s hs => ?_); simp only [Line.val] at hs; cases hs <;> exact hname)

theorem frameBlock_lines (i : Nat) (fr : Frame) (hname : (0x0A : Byte) ∉ textOf fr.Name) :
    ∀ L ∈ frameBlock i fr, L.tame = true ∧
      (L.noFeed ∨ ∃ x, L = Line.pf "Magic = '" (.str (magic x)) "'" ∨
        L = Line.pf " Magic = '" (.str (magic x)) "'") := by
  intro L hL
  simp only [frameBlock, List.mem_cons, List.mem_singleton, List.not_mem_nil, or_false] at hL
  rcases hL with rfl | rfl | rfl | rfl | rfl | rfl <;>
    refine ⟨by simp only [Line.tame, Line.lead, Line.post]; decide, ?_⟩ <;>
    (refine Or.inl (fun s hs => ?_); simp only [Line.val] at hs; cases hs <;> exact hname)

theorem surfBlock_lines (i : Nat) (s : Surf) (name : List Byte) (verts : List XYZNormal)
    (hname : (0x0A : Byte) ∉ name) :
    ∀ L ∈ surfBlock i s name verts, L.tame = true ∧
      (L.noFeed ∨ ∃ x, L = Line.pf "Magic = '" (.str (magic x)) "'" ∨
        L = Line.pf " Magic = '" (.str (magic x)) "'") := by
  intro L hL
  simp only [surfBlock, surfFieldLines, vertLines, List.mem_append, List.mem_cons,
    List.mem_singleton, List.not_mem_nil, or_false, List.mem_map] at hL
  rcases hL with ((rfl | rfl) | (rfl | rfl | rfl | rfl | rfl | rfl | rfl | rfl | rfl | rfl | rfl)) |
    (⟨v, _, rfl⟩ | ⟨v, _, rfl⟩) <;>
    refine ⟨by simp only [Line.tame, Line.lead, Line.post]; decide, ?_⟩ <;>
    first
      | exact Or.inr ⟨_, Or.inr rfl⟩
      | (refine Or.inl (fun s hs => ?_); simp only [Line.val] at hs; cases hs <;> exact hname)

theorem blocks_all {α : Type} (P : Line → Prop) (f : Nat → α → List Line) :
    ∀ (xs : List α) (i : Nat), (∀ j, ∀ x ∈ xs, ∀ l ∈ f j x, P l) →
      ∀ l ∈ blocks f i xs, P l := by
  intro xs
  induction xs with
  | nil => intro i _ l hl; simp [blocks] at hl
  | cons x xs ih =>
    intro i h l hl
    simp only [blocks, List.mem_append] at hl
    rcases hl with h1 | h1
    · exact h i x (List.mem_cons_self _ _) l h1
    · exact ih (i + 1) (fun j y hy => h j y (List.mem_cons_of_mem _ hy)) l h1

theorem forRange_mem_of {α : Type} (body : Nat → α → Out) (P : Line → Prop) :
    ∀ (xs : List α) (i : Nat), (∀ j, ∀ x ∈ xs, ∀ l ∈ (body j x).1, P l) →
      ∀ l ∈ (forRange body i xs).1, P l := by
  intro xs
  induction xs with
  | nil => intro i _ l hl; simp [forRange, say] at hl
  | cons x xs ih =>
    intro i h l hl
    simp only [forRange] at hl
    rcases andThen_mem _ _ l hl with h1 | h1
    · exact h i x (List.mem_cons_self _ _) l h1
    · exact ih (i + 1) (fun j y hy => h j y (List.mem_cons_of_mem _ hy)) l h1

theorem headerLines_sub (m : Header) : ∀ L ∈ (headerLines m).1, L ∈ headerBlock m := by
  intro L hL
  by_cases h : (0 : Byte) ∈ m.Name
  · rw [headerLines_of_mem m h] at hL
    exact hL
  · rw [headerLines_of_not_mem m h] at hL
    exact List.mem_of_mem_take hL

theorem frameLines_sub (i : Nat) (fr : Frame) :
    ∀ L ∈ (frameLines i fr).1, L ∈ frameBlock i fr := by
  intro L hL
  by_cases h : (0 : Byte) ∈ fr.Name
  · rw [frameLines_of_mem i fr h] at hL
    exact hL
  · rw [frameLines_of_not_mem i fr h] at hL
    exact List.mem_of_mem_take hL

theorem expectedOutput_lines (b : List Byte) (m : Header)
    (hname : (0x0A : Byte) ∉ textOf m.Name)
    (hfr : ∀ fr ∈ framesAt b m.OfsFrames.toNat m.NumFrames.toNat, (0x0A : Byte) ∉ textOf fr.Name)
    (hs : ∀ s ∈ surfsAt b m.OfsSurfs.toNat m.NumSurfs.toNat, (0x0A : Byte) ∉ textOf s.Name) :
    ∀ L ∈ expectedOutput b m, L.tame = true ∧
      (L.noFeed ∨ ∃ x, L = Line.pf "Magic = '" (.str (magic x)) "'" ∨
        L = Line.pf " Magic = '" (.str (magic x)) "'") := by
  intro L hL
  simp only [expectedOutput, List.mem_append] at hL
  rcases hL with (h | h) | h
  · exact headerBlock_lines m hname L h
  · exact blocks_all _ frameBlock _ 0 (fun j x hx => frameBlock_lines j x (hfr x hx)) L h
  · exact blocks_all _ (surfBlockAt b) _ 0
      (fun j x hx => surfBlock_lines j x _ _ (hs x hx)) L h

theorem filter_surfBlock_vertex (i : Nat) (s : Surf) (name : List Byte)
    (verts : List XYZNormal) :
    (surfBlock i s name verts).filter (fun l => decide (l.lead = " Vertex =")) =
        verts.map (fun v => Line.ln " Vertex =" (.vec (xyz v.XYZ))) ∧
      (surfBlock i s name verts).filter (fun l => decide (l.lead = " Normal =")) =
        verts.map (fun v => Line.ln " Normal =" (.nrm v.Normal)) := by
  simp only [surfBlock, vertLines, List.filter_append, filter_lead_map]
  simp [surfFieldLines, Line.lead, List.filter]

theorem stdoutLines_heading (p : String) (i : Nat) (ls : List Line)
    (h : (0x0A : Byte) ∉ strBytes p) :
    stdoutLines (Line.ln p (.idx i) :: ls) = (Line.ln p (.idx i)).body :: stdoutLines ls := by
  rw [stdoutLines_cons, Line.toks, textLines_clean]
  · rfl
  · simpa [Line.body, Val.toks, Tok.nl] using h

/-! ## The claims -/

/-! ## Where the vertices of a surface are read -/

/-- C1, as the code has it: when `dump` succeeds, the vertices read and printed in
the block of surface `i` are the `NumVerts` records of 8 bytes that start at the
absolute file offset `Surface[i].OfsXYZNormal`: the offset is applied to the
whole buffer, that is, relative to the start of the file. -/
theorem dump_verts_at_file_offset (b : List Byte) (hok : (dump b).2 = .ok) :
    VertsPrintedAt (fun _ _ => 0) b := by
  intro m surfs hm hs i hi
  obtain ⟨h1, h2⟩ := dump_ok_surfaces b m surfs hok hm hs
  obtain ⟨g1, pre, post, g2⟩ := forRange_ok_get (surfLines b) surfs 0 h1 i hi
  obtain ⟨name, verts, k1, k2, k3⟩ := surfLines_ok_inv b _ _ g1
  obtain ⟨_, _, _, hv⟩ := readVerts_ok_inv b _ verts k2
  simp only [zero_add] at g2 k3 ⊢
  subst hv
  refine ⟨k2, (headerLines m).1 ++ (dumpFrames b m).1 ++ pre, post, name, k1, ?_⟩
  rw [h2, g2, k3]
  simp only [List.append_assoc]

set_option maxRecDepth 100000 in
/-- C1 on `relFile`, which `dump` prints without failure. -/
theorem dump_verts_at_file_offset_witness :
    (dump relFile).2 = .ok ∧ VertsPrintedAt (fun _ _ => 0) relFile :=
  ⟨by decide, dump_verts_at_file_offset relFile (by decide)⟩

set_option maxRecDepth 100000 in
/-- C1 fails as stated: `dump` succeeds on `relFile`, whose only surface record
starts at offset 108 and has `OfsXYZNormal = 108`; the vertex read is the record
at file offset 108 (the first eight bytes of the surface record itself), not
the record `(64, 128, 192), 0x1234` at offset `108 + 108 * 0 + 108 = 216`. -/
theorem dump_verts_not_surface_relative :
    (dump relFile).2 = .ok ∧
      readVerts relFile relSurf = .ok [⟨⟨17481, 13136, 0⟩, 0⟩] ∧
      recordsAt relFile 216 1 = [⟨⟨64, 128, 192⟩, 0x1234⟩] ∧
      ¬ VertsPrintedAt (fun m i => m.OfsSurfs + 108 * i) relFile := by
  have hv : readVerts relFile relSurf = .ok [⟨⟨17481, 13136, 0⟩, 0⟩] := by rfl
  refine ⟨by decide, hv, by decide, ?_⟩
  intro h
  obtain ⟨h1, _⟩ := h relHeader [relSurf] (by rfl) (by rfl) 0 (by decide)
  have h2 : readVerts relFile relSurf =
      .ok (recordsAt relFile (108 + 108 * 0 + 108 : Int).toNat (1 : Int).toNat) := h1
  rw [hv] at h2
  injection h2 with h2
  revert h2
  decide

/-! ## `cstr` -/

/-- C2: on the 64 name bytes `A`, which hold no zero byte, `cstr` does not
return the full-width text: `bytes.Index` yields `-1` and the slice expression
`b[:-1]` panics.  `dump` of a header with that name stops with a panic after
the `Magic` and `Version` lines. -/
theorem cstr_full_width_panics :
    (0 : Byte) ∉ List.replicate 64 (0x41 : Byte) ∧
      bytesIndex (List.replicate 64 (0x41 : Byte)) 0 = -1 ∧
      cstr (List.replicate 64 (0x41 : Byte)) = none ∧
      dump fullNameFile =
        ([Line.pf "Magic = '" (.str [0x49, 0x44, 0x50, 0x33]) "'",
          Line.ln "Version =" (.int 15)], Status.failed .panic) := by
  refine ⟨by decide, by decide, by decide, by decide⟩

/-- C3: when `b` holds a zero byte, `cstr b` is the part of `b` before the first
zero byte: it holds no zero byte, its length is the index of the first zero, and
`b` is that part, then the zero byte, then a remainder. -/
theorem cstr_prefix_before_first_zero (b : List Byte) (h : (0 : Byte) ∈ b) :
    ∃ r rest, cstr b = some r ∧ (0 : Byte) ∉ r ∧ (r.length : Int) = bytesIndex b 0 ∧
      r.length = b.indexOf (0 : Byte) ∧ b = r ++ [0] ++ rest := by
  obtain ⟨h1, h2⟩ := take_indexOf_split 0 b h
  have hlt : b.indexOf (0 : Byte) < b.length := List.indexOf_lt_length.2 h
  have hlen : (b.take (b.indexOf (0 : Byte))).length = b.indexOf (0 : Byte) := by
    simp
    omega
  refine ⟨b.take (b.indexOf (0 : Byte)), b.drop (b.indexOf (0 : Byte) + 1), cstr_of_mem b h, h1,
    ?_, hlen, h2⟩
  rw [hlen, bytesIndex_of_mem b 0 h]

/-- C3, on the bytes `41 42 00 00 00`: the result is `AB`. -/
theorem cstr_prefix_before_first_zero_witness :
    (0 : Byte) ∈ ([0x41, 0x42, 0, 0, 0] : List Byte) ∧
      cstr [0x41, 0x42, 0, 0, 0] = some [0x41, 0x42] ∧
      ∃ r rest, cstr [0x41, 0x42, 0, 0, 0] = some r ∧ (0 : Byte) ∉ r ∧
        (r.length : Int) = bytesIndex [0x41, 0x42, 0, 0, 0] 0 ∧
        r.length = ([0x41, 0x42, 0, 0, 0] : List Byte).indexOf (0 : Byte) ∧
        ([0x41, 0x42, 0, 0, 0] : List Byte) = r ++ [0] ++ rest :=
  ⟨by decide, by decide, cstr_prefix_before_first_zero [0x41, 0x42, 0, 0, 0] (by decide)⟩

/-! ## `magic` -/

/-- C4: for an `int32` value `m`, `magic m` has exactly four bytes, reading them
back as a little-endian signed 32-bit integer gives `m`, and so `magic` is
injective on `int32`. -/
theorem magic_four_bytes_roundtrip (m : Int) (hm : IsInt32 m) :
    (magic m).length = 4 ∧ toInt32 (le (magic m)) = m ∧
      ∀ m2, IsInt32 m2 → magic m2 = magic m → m2 = m := by
  refine ⟨rfl, magic_roundtrip_aux m hm, ?_⟩
  intro m2 hm2 heq
  rw [← magic_roundtrip_aux m hm, ← magic_roundtrip_aux m2 hm2, heq]

/-- C4 at the negative value `-2`: the bytes are `FE FF FF FF`. -/
theorem magic_four_bytes_roundtrip_witness :
    IsInt32 (-2) ∧ magic (-2) = [0xFE, 0xFF, 0xFF, 0xFF] ∧
      ((magic (-2)).length = 4 ∧ toInt32 (le (magic (-2))) = -2 ∧
        ∀ m2, IsInt32 m2 → magic m2 = magic (-2) → m2 = -2) :=
  ⟨by decide, by decide, magic_four_bytes_roundtrip (-2) (by decide)⟩

/-! ## `xyz` -/

/-- C5: for a triple `c` of `int16` values, every component of `xyz c`,
computed in binary32 arithmetic, is exactly the rational `c[i] / 64`. -/
theorem xyz_component_exact (c : V3 Int) (hx : IsInt16 c.x) (hy : IsInt16 c.y)
    (hz : IsInt16 c.z) (i : Fin 3) : (xyz c).get i = (c.get i : ℚ) / 64 := by
  rw [xyz_exact c hx hy hz]
  fin_cases i <;> rfl

/-- C5 on the three sample triples of the specification. -/
theorem xyz_component_exact_witness :
    (IsInt16 (-64) ∧ IsInt16 128 ∧ IsInt16 192) ∧
      ((xyz ⟨-64, 128, 192⟩).get 0 = -1 ∧ (xyz ⟨-64, 128, 192⟩).get 1 = 2 ∧
        (xyz ⟨-64, 128, 192⟩).get 2 = 3) ∧
      ((xyz ⟨64, 0, 0⟩).get 0 = 1 ∧ (xyz ⟨64, 0, 0⟩).get 1 = 0 ∧ (xyz ⟨64, 0, 0⟩).get 2 = 0) ∧
      ((xyz ⟨0, 0, 0⟩).get 0 = 0 ∧ (xyz ⟨0, 0, 0⟩).get 1 = 0 ∧ (xyz ⟨0, 0, 0⟩).get 2 = 0) := by
  have a := xyz_component_exact ⟨-64, 128, 192⟩ (by decide) (by decide) (by decide)
  have b := xyz_component_exact ⟨64, 0, 0⟩ (by decide) (by decide) (by decide)
  have c := xyz_component_exact ⟨0, 0, 0⟩ (by decide) (by decide) (by decide)
  refine ⟨⟨by decide, by decide, by decide⟩, ⟨?_, ?_, ?_⟩, ⟨?_, ?_, ?_⟩, ⟨?_, ?_, ?_⟩⟩
  · rw [a 0]; norm_num [V3.get]
  · rw [a 1]; norm_num [V3.get]
  · rw [a 2]; norm_num [V3.get]
  · rw [b 0]; norm_num [V3.get]
  · rw [b 1]; norm_num [V3.get]
  · rw [b 2]; norm_num [V3.get]
  · rw [c 0]; norm_num [V3.get]
  · rw [c 1]; norm_num [V3.get]
  · rw [c 2]; norm_num [V3.get]

/-! ## `normal` -/

/-- C6: for an `int16` value `n`, the latitude index `(n>>8)&0xFF` and the
longitude index `n&0xFF` lie in `[0, 255]`, and `256 * lat + lng` is the
unsigned 16-bit pattern `n mod 65536`: they are the raw high and low byte. -/
theorem normal_indices_are_raw_bytes (n : Int) (hn : IsInt16 n) :
    (0 ≤ latIdx n ∧ latIdx n ≤ 255) ∧ (0 ≤ lngIdx n ∧ lngIdx n ≤ 255) ∧
      256 * latIdx n + lngIdx n = n % 65536 ∧
      latIdx n = n % 65536 / 256 ∧ lngIdx n = n % 65536 % 256 := by
  obtain ⟨h1, h2⟩ := hn
  rw [latIdx_eq, lngIdx_eq]
  refine ⟨⟨?_, ?_⟩, ⟨?_, ?_⟩, ?_, ?_, ?_⟩ <;> omega

/-- C6 at the negative value `-2` (pattern `0xFFFE`): latitude 255, longitude 254. -/
theorem normal_indices_are_raw_bytes_witness :
    IsInt16 (-2) ∧ latIdx (-2) = 255 ∧ lngIdx (-2) = 254 ∧
      ((0 ≤ latIdx (-2) ∧ latIdx (-2) ≤ 255) ∧ (0 ≤ lngIdx (-2) ∧ lngIdx (-2) ≤ 255) ∧
        256 * latIdx (-2) + lngIdx (-2) = -2 % 65536 ∧
        latIdx (-2) = -2 % 65536 / 256 ∧ lngIdx (-2) = -2 % 65536 % 256) :=
  ⟨by decide, by rw [latIdx_eq]; decide, by rw [lngIdx_eq]; decide,
    normal_indices_are_raw_bytes (-2) (by decide)⟩

/-- C7: over the reals, for an `int16` value `n` with high byte `lat` and low
byte `lng`, `normal n` is `(cos a * sin b, sin a * sin b, cos b)` with
`a = lat * 2π / 255` and `b = lng * 2π / 255`; and `normal 0 = (0, 0, 1)`. -/
theorem normal_real_formula (n : Int) (hn : IsInt16 n) :
    normal Real.cos Real.sin Real.pi id id n =
        ⟨Real.cos (((n % 65536 / 256 : Int) : ℝ) * (2 * Real.pi) / 255) *
            Real.sin (((n % 65536 % 256 : Int) : ℝ) * (2 * Real.pi) / 255),
          Real.sin (((n % 65536 / 256 : Int) : ℝ) * (2 * Real.pi) / 255) *
            Real.sin (((n % 65536 % 256 : Int) : ℝ) * (2 * Real.pi) / 255),
          Real.cos (((n % 65536 % 256 : Int) : ℝ) * (2 * Real.pi) / 255)⟩ ∧
      normal Real.cos Real.sin Real.pi id id 0 = ⟨0, 0, 1⟩ := by
  have _ := hn
  have hlat : latIdx n = n % 65536 / 256 := by rw [latIdx_eq]; omega
  have hlng : lngIdx n = n % 65536 % 256 := by rw [lngIdx_eq]; omega
  constructor
  · simp only [normal, hlat, hlng, id]
  · simp [normal, latIdx_eq, lngIdx_eq]

/-- C7 at `n = 0x0140` (high byte 1, low byte 64). -/
theorem normal_real_formula_witness :
    IsInt16 0x0140 ∧
      normal Real.cos Real.sin Real.pi id id 0x0140 =
        ⟨Real.cos (1 * (2 * Real.pi) / 255) * Real.sin (64 * (2 * Real.pi) / 255),
          Real.sin (1 * (2 * Real.pi) / 255) * Real.sin (64 * (2 * Real.pi) / 255),
          Real.cos (64 * (2 * Real.pi) / 255)⟩ ∧
      normal Real.cos Real.sin Real.pi id id 0 = ⟨0, 0, 1⟩ := by
  have h := normal_real_formula 0x0140 (by decide)
  refine ⟨by decide, ?_, h.2⟩
  have e := h.1
  norm_num at e ⊢
  exact e

/-- C8: for every `int16` value `n`, the vector `normal n` has Euclidean norm
exactly 1 over the reals, and within `1e-5` of 1 in floating point: for every
`float64` rounding with error at most `1e-9` on `[-2048, 2048]`, every
`float32` conversion with error at most `1e-6` on `[-2, 2]`, every cosine and
sine with error at most `1e-9` on `[-7, 7]` and every value of `math.Pi` within
`1e-9` of `π` (IEEE binary64 and binary32 are well inside these bounds). -/
theorem normal_unit_norm (n : Int) (hn : IsInt16 n) :
    Real.sqrt ((normal Real.cos Real.sin Real.pi id id n).x ^ 2 +
        (normal Real.cos Real.sin Real.pi id id n).y ^ 2 +
        (normal Real.cos Real.sin Real.pi id id n).z ^ 2) = 1 ∧
      ∀ (cosF sinF r64 r32 : ℝ → ℝ) (piF : ℝ),
        |piF - Real.pi| ≤ 1 / 10 ^ 9 →
        (∀ x : ℝ, |x| ≤ 2048 → |r64 x - x| ≤ 1 / 10 ^ 9) →
        (∀ x : ℝ, |x| ≤ 2 → |r32 x - x| ≤ 1 / 10 ^ 6) →
        (∀ x : ℝ, |x| ≤ 7 → |cosF x - Real.cos x| ≤ 1 / 10 ^ 9) →
        (∀ x : ℝ, |x| ≤ 7 → |sinF x - Real.sin x| ≤ 1 / 10 ^ 9) →
        |Real.sqrt ((normal cosF sinF piF r64 r32 n).x ^ 2 +
            (normal cosF sinF piF r64 r32 n).y ^ 2 +
            (normal cosF sinF piF r64 r32 n).z ^ 2) - 1| ≤ 1 / 10 ^ 5 := by
  have _ := hn
  refine ⟨?_, ?_⟩
  · rw [normal_real_sq n, Real.sqrt_one]
  · intro cosF sinF r64 r32 piF hpi h64 h32 hcos hsin
    obtain ⟨hx, hy, hz⟩ := normal_float_error cosF sinF r64 r32 piF n hpi h64 h32 hcos hsin
    exact near_unit_norm _ _ _ _ _ _ (normal_real_sq n) hx hy hz

/-- C8 at `n = -1` (pattern `0xFFFF`); the error bounds are met by the exact
functions, so the floating-point part is not vacuous. -/
theorem normal_unit_norm_witness :
    IsInt16 (-1) ∧
      Real.sqrt ((normal Real.cos Real.sin Real.pi id id (-1)).x ^ 2 +
        (normal Real.cos Real.sin Real.pi id id (-1)).y ^ 2 +
        (normal Real.cos Real.sin Real.pi id id (-1)).z ^ 2) = 1 ∧
      |Real.sqrt ((normal Real.cos Real.sin Real.pi id id (-1)).x ^ 2 +
          (normal Real.cos Real.sin Real.pi id id (-1)).y ^ 2 +
          (normal Real.cos Real.sin Real.pi id id (-1)).z ^ 2) - 1| ≤ 1 / 10 ^ 5 := by
  have h := normal_unit_norm (-1) (by decide)
  refine ⟨by decide, h.1, ?_⟩
  apply h.2 Real.cos Real.sin id id Real.pi
  · simp
  · intro x _; simp
  · intro x _; simp
  · intro x _; simp
  · intro x _; simp

/-! ## Reads of `dump` -/

theorem readSlice_error_iff {α : Type} (size : Nat) (dec : List Byte → α × List Byte)
    (b : List Byte) (n o : Int) (hn : 0 ≤ n) (h0 : 0 ≤ o) (h1 : o ≤ b.length) :
    ((∃ st, readSlice size dec b n o = .error st) ↔ (b.length : Int) < o + n * size) ∧
      (o + n * size ≤ b.length →
        ∃ xs, readSlice size dec b n o = .ok xs ∧ xs.length = n.toNat) := by
  constructor
  · constructor
    · rintro ⟨st, hst⟩
      by_contra hcon
      rw [readSlice_eq_ok size dec b n o hn h0 h1 (not_lt.1 hcon)] at hst
      cases hst
    · intro h
      obtain ⟨e, he⟩ := readSlice_fatal size dec b n o hn h0 h1 h
      exact ⟨_, he⟩
  · intro h
    exact ⟨_, readSlice_eq_ok size dec b n o hn h0 h1 h, decodeN_length _ _ _⟩

/-- C9: for a buffer `b`, an offset `0 ≤ o ≤ len(b)` and a count `n ≥ 0`, the
header read (one record of 108 bytes at offset 0) and the reads of `n` frames
(56 bytes), surfaces (108 bytes) or vertices (8 bytes) at offset `o` fail
exactly when `o + n * size > len(b)`; otherwise they succeed and return `n`
records, also for `n = 0`. -/
theorem read_fails_iff_too_short (b : List Byte) (o n : Int) (h0 : 0 ≤ o)
    (h1 : o ≤ b.length) (hn : 0 ≤ n) :
    (((∃ st, readHeader b = .error st) ↔ (b.length : Int) < 0 + 1 * 108) ∧
        ((0 : Int) + 1 * 108 ≤ b.length → ∃ m, readHeader b = .ok m)) ∧
      (((∃ st, readSlice Frame.size Frame.decode b n o = .error st) ↔
          (b.length : Int) < o + n * 56) ∧
        (o + n * 56 ≤ b.length →
          ∃ xs, readSlice Frame.size Frame.decode b n o = .ok xs ∧ xs.length = n.toNat)) ∧
      (((∃ st, readSlice Surf.size Surf.decode b n o = .error st) ↔
          (b.length : Int) < o + n * 108) ∧
        (o + n * 108 ≤ b.length →
          ∃ xs, readSlice Surf.size Surf.decode b n o = .ok xs ∧ xs.length = n.toNat)) ∧
      (((∃ st, readSlice XYZNormal.size XYZNormal.decode b n o = .error st) ↔
          (b.length : Int) < o + n * 8) ∧
        (o + n * 8 ≤ b.length →
          ∃ xs, readSlice XYZNormal.size XYZNormal.decode b n o = .ok xs ∧
            xs.length = n.toNat)) := by
  have hF : ((Frame.size : Nat) : Int) = 56 := by decide
  have hS : ((Surf.size : Nat) : Int) = 108 := by decide
  have hV : ((XYZNormal.size : Nat) : Int) = 8 := by decide
  have hH : Header.size = 108 := by decide
  refine ⟨⟨⟨?_, ?_⟩, ?_⟩, ?_, ?_, ?_⟩
  · rintro ⟨st, hst⟩
    by_contra hcon
    rw [readHeader_eq_ok b (by omega)] at hst
    cases hst
  · intro h
    obtain ⟨e, he⟩ := readHeader_fatal b (by omega)
    exact ⟨_, he⟩
  · intro h
    exact ⟨_, readHeader_eq_ok b (by omega)⟩
  · have h := readSlice_error_iff Frame.size Frame.decode b n o hn h0 h1
    rw [hF] at h
    exact h
  · have h := readSlice_error_iff Surf.size Surf.decode b n o hn h0 h1
    rw [hS] at h
    exact h
  · have h := readSlice_error_iff XYZNormal.size XYZNormal.decode b n o hn h0 h1
    rw [hV] at h
    exact h

set_option maxRecDepth 100000 in
/-- C9 on the 200 bytes of `truncFile` with offset 108: one surface record does
not fit (`108 + 1 * 108 > 200`), one vertex record and zero frames do. -/
theorem read_fails_iff_too_short_witness :
    ((0 : Int) ≤ 108 ∧ (108 : Int) ≤ truncFile.length ∧ (0 : Int) ≤ 1) ∧
      (∃ st, readSlice Surf.size Surf.decode truncFile 1 108 = .error st) ∧
      (∃ xs, readSlice XYZNormal.size XYZNormal.decode truncFile 1 108 = .ok xs ∧
        xs.length = 1) ∧
      (∃ xs, readSlice Frame.size Frame.decode truncFile 0 108 = .ok xs ∧ xs.length = 0) := by
  have h := read_fails_iff_too_short truncFile 108 1 (by decide) (by decide) (by decide)
  have g := read_fails_iff_too_short truncFile 108 0 (by decide) (by decide) (by decide)
  refine ⟨⟨by decide, by decide, by decide⟩, h.2.2.1.1.2 (by decide), h.2.2.2.2 (by decide), ?_⟩
  exact g.2.1.2 (by decide)

/-! ## Truncated surface array -/

set_option maxRecDepth 100000 in
/-- C10 fails as stated: `feedNameFile` has 158 bytes, its header and its empty
frame array decode, `0 ≤ OfsSurfs = 108 ≤ 158`, `NumSurfs = 1` and
`158 < 108 + 1 * 108`.  `dump` ends with `log.Fatal`, and before that the
header name, a line feed followed by `Surface 0`, has put the line
`Surface 0'` on standard output: it is the fourth line, and it begins with
`Surface`. -/
theorem truncated_surfaces_feed_in_name :
    readHeader feedNameFile = .ok feedNameHeader ∧
      readSlice Frame.size Frame.decode feedNameFile feedNameHeader.NumFrames
        feedNameHeader.OfsFrames = .ok [] ∧
      (0 : Int) ≤ feedNameHeader.OfsSurfs ∧
      feedNameHeader.OfsSurfs ≤ (feedNameFile.length : Int) ∧
      (0 : Int) ≤ feedNameHeader.NumSurfs ∧
      (feedNameFile.length : Int) < feedNameHeader.OfsSurfs + feedNameHeader.NumSurfs * 108 ∧
      (dump feedNameFile).2 = .failed (.fatal .ErrUnexpectedEOF) ∧
      (stdoutLines (dump feedNameFile).1)[3]? = some ((strBytes "Surface 0'").map Tok.byte) ∧
      mayBegin (strBytes "Surface") ((strBytes "Surface 0'").map Tok.byte) = true :=
  ⟨by rfl, by rfl, by decide, by decide, by decide, by decide, by decide, by rfl, by decide⟩

/-- C10, as the code has it: when the header and the frame array decode, the
header name and the frame names hold no line feed before their first zero
byte, `0 ≤ OfsSurfs ≤ len(b)`, `NumSurfs ≥ 0` and the buffer is shorter than
`OfsSurfs + NumSurfs * 108`, `dump` ends in a failure and no line of the text
written to standard output before it begins with `Surface`. -/
theorem truncated_surfaces_fail_without_surface_line (b : List Byte) (m : Header)
    (f : List Frame) (hm : readHeader b = .ok m)
    (hf : readSlice Frame.size Frame.decode b m.NumFrames m.OfsFrames = .ok f)
    (hname : (0x0A : Byte) ∉ textOf m.Name)
    (hfn : ∀ fr ∈ f, (0x0A : Byte) ∉ textOf fr.Name)
    (h0 : 0 ≤ m.OfsSurfs) (h1 : m.OfsSurfs ≤ b.length) (hn : 0 ≤ m.NumSurfs)
    (hshort : (b.length : Int) < m.OfsSurfs + m.NumSurfs * 108) :
    (dump b).2 ≠ .ok ∧
      ∀ t ∈ stdoutLines (dump b).1, mayBegin (strBytes "Surface") t = false := by
  have hS : ((Surf.size : Nat) : Int) = 108 := by decide
  obtain ⟨e, he⟩ := readSlice_fatal Surf.size Surf.decode b m.NumSurfs m.OfsSurfs hn h0 h1
    (by rw [hS]; exact hshort)
  have hsurfs : dumpSurfs b m = die (.fatal e) := by simp [dumpSurfs, he]
  have hframes : dumpFrames b m = forRange frameLines 0 f := by simp [dumpFrames, hf]
  have hdump : dump b =
      andThen (headerLines m) (andThen (forRange frameLines 0 f) (die (.fatal e))) := by
    simp [dump, hm, hsurfs, hframes]
  have key : ∀ L : Line, L.lead ≠ "Surface" →
      (L.tame = true ∧ (L.noFeed ∨ ∃ x, L = Line.pf "Magic = '" (.str (magic x)) "'" ∨
        L = Line.pf " Magic = '" (.str (magic x)) "'")) →
      ∀ t ∈ textLines L.toks, mayBegin (strBytes "Surface") t = false := by
    intro L hlead hL t ht
    have h := line_filter "Surface" (Or.inr (Or.inl rfl)) L hL
    rw [if_neg hlead, List.filter_eq_nil_iff] at h
    simpa using h t ht
  have hhead : ∀ L ∈ headerBlock m, L.lead ≠ "Surface" := by
    intro L hL
    have h := List.filter_eq_nil_iff.1 (filter_headerBlock m).2 L hL
    simpa using h
  have hfr : ∀ i fr, ∀ L ∈ frameBlock i fr, L.lead ≠ "Surface" := by
    intro i fr L hL
    have h := List.filter_eq_nil_iff.1 (filter_frameBlock_surface i fr) L hL
    simpa using h
  rw [hdump]
  constructor
  · apply andThen_not_ok_right
    apply andThen_not_ok_right
    simp [die]
  · apply stdoutLines_all
    intro L hL
    rcases andThen_mem _ _ L hL with h | h
    · have hb := headerLines_sub m L h
      exact key L (hhead L hb) (headerBlock_lines m hname L hb)
    · rcases andThen_mem _ _ L h with h | h
      · exact forRange_mem_of frameLines
          (fun L => ∀ t ∈ textLines L.toks, mayBegin (strBytes "Surface") t = false) f 0
          (fun j fr hfr2 L hL2 =>
            key L (hfr j fr L (frameLines_sub j fr L hL2))
              (frameBlock_lines j fr (hfn fr hfr2) L (frameLines_sub j fr L hL2))) L h
      · simp [die] at h

set_option maxRecDepth 100000 in
/-- C10 on `truncFile`, whose names are empty: the run ends with `log.Fatal`
after the twelve header lines, which are the twelve lines of standard output,
and none of them begins with `Surface`. -/
theorem truncated_surfaces_fail_without_surface_line_witness :
    (readHeader truncFile = .ok relHeader ∧
        readSlice Frame.size Frame.decode truncFile relHeader.NumFrames relHeader.OfsFrames =
          .ok [] ∧
        (0x0A : Byte) ∉ textOf relHeader.Name ∧
        (truncFile.length : Int) < relHeader.OfsSurfs + relHeader.NumSurfs * 108) ∧
      (dump truncFile).2 = .failed (.fatal .ErrUnexpectedEOF) ∧
      (stdoutLines (dump truncFile).1).length = 12 ∧
      ((dump truncFile).2 ≠ .ok ∧
        ∀ t ∈ stdoutLines (dump truncFile).1, mayBegin (strBytes "Surface") t = false) :=
  ⟨⟨by rfl, by rfl, by decide, by decide⟩, by decide, by rfl,
    truncated_surfaces_fail_without_surface_line truncFile relHeader [] (by rfl) (by rfl)
      (by decide) (by simp) (by decide) (by decide) (by decide) (by decide)⟩

/-! ## Shape of the output -/

/-- C11: in a run that ends normally, the block of surface `i` stands in the
output after the header lines, the frame blocks and the blocks of the surfaces
before `i`; after its heading and field lines come exactly `NumVerts` `Vertex`
lines, one for `xyz` of each vertex record in order, and then exactly
`NumVerts` `Normal` lines, one for `normal` of each record in order; the block
of surface `i + 1` follows.  So no `Normal` line of a surface precedes one of
its `Vertex` lines. -/
theorem surface_vertex_lines_then_normal_lines (b : List Byte) (m : Header)
    (surfs : List Surf) (hok : (dump b).2 = .ok) (hm : readHeader b = .ok m)
    (hs : readSlice Surf.size Surf.decode b m.NumSurfs m.OfsSurfs = .ok surfs)
    (i : Nat) (hi : i < surfs.length) :
    ∃ verts, readVerts b (surfs.get ⟨i, hi⟩) = .ok verts ∧
      0 ≤ (surfs.get ⟨i, hi⟩).NumVerts ∧
      verts.length = (surfs.get ⟨i, hi⟩).NumVerts.toNat ∧
      (dump b).1 =
        (headerBlock m ++
            blocks frameBlock 0 (framesAt b m.OfsFrames.toNat m.NumFrames.toNat) ++
            blocks (surfBlockAt b) 0 (surfs.take i)) ++
          ([Line.ln "Surface" (.idx i),
              Line.pf " Magic = '" (.str (magic (surfs.get ⟨i, hi⟩).Magic)) "'"] ++
            surfFieldLines (surfs.get ⟨i, hi⟩) (textOf (surfs.get ⟨i, hi⟩).Name)) ++
          (verts.map (fun v => Line.ln " Vertex =" (.vec (xyz v.XYZ))) ++
            verts.map (fun v => Line.ln " Normal =" (.nrm v.Normal))) ++
          blocks (surfBlockAt b) (i + 1) (surfs.drop (i + 1)) ∧
      (verts.map (fun v => Line.ln " Vertex =" (.vec (xyz v.XYZ)))).length =
        (surfs.get ⟨i, hi⟩).NumVerts.toNat ∧
      (verts.map (fun v => Line.ln " Normal =" (.nrm v.Normal))).length =
        (surfs.get ⟨i, hi⟩).NumVerts.toNat := by
  obtain ⟨m2, h1, _, _, h4, _, h6, h7⟩ := dump_ok_inv b hok
  rw [hm] at h1
  injection h1 with h1
  subst h1
  rw [hs] at h4
  injection h4 with h4
  subst h4
  obtain ⟨g1, _⟩ := forRange_ok_get (surfLines b) _ 0 h6 i hi
  rw [zero_add] at g1
  obtain ⟨_, k2, _⟩ := surfLines_ok_block b i _ g1
  obtain ⟨v1, _, _, _⟩ := readVerts_ok_inv b _ _ k2
  have hlen : ∀ s : Surf,
      (recordsAt b s.OfsXYZNormal.toNat s.NumVerts.toNat).length = s.NumVerts.toNat := by
    intro s
    simp [recordsAt]
  refine ⟨_, k2, v1, hlen _, ?_, by simpa using hlen _, by simpa using hlen _⟩
  rw [h7, expectedOutput, blocks_split (surfBlockAt b) _ 0 i hi]
  simp only [surfBlockAt, surfBlock, vertLines, zero_add, List.append_assoc]

set_option maxRecDepth 100000 in
/-- C11 on `oneFile`: the block of surface 0 ends with one `Vertex` line and
then one `Normal` line. -/
theorem surface_vertex_lines_then_normal_lines_witness :
    ((dump oneFile).2 = .ok ∧ readHeader oneFile = .ok oneHeader ∧
        readSlice Surf.size Surf.decode oneFile oneHeader.NumSurfs oneHeader.OfsSurfs =
          .ok [oneSurf]) ∧
      (dump oneFile).1.drop 31 =
        [Line.ln " Vertex =" (.vec (xyz ⟨64, 128, 192⟩)), Line.ln " Normal =" (.nrm 0x1234)] ∧
      ∃ verts, readVerts oneFile oneSurf = .ok verts ∧ verts.length = 1 := by
  obtain ⟨verts, h1, _, h3, _⟩ := surface_vertex_lines_then_normal_lines oneFile oneHeader
    [oneSurf] (by decide) (by rfl) (by rfl) 0 (by decide)
  exact ⟨⟨by decide, by rfl, by rfl⟩, by rfl, verts, h1, h3⟩

/-! ## Output kept on failure -/

/-- C12: for a buffer of at least 108 bytes whose header name (bytes 8..71) holds
a zero byte, the twelve header lines are printed whatever happens later: if the
frame read fails the run is exactly these lines and the failure, if the surface
read fails it is these lines, the frame blocks and the failure, and a surface
whose vertex read fails has printed its heading and field lines.  And for every
extension `b ++ ext` of the buffer, what `dump b` printed is the beginning of
what `dump (b ++ ext)` prints, in particular when the latter ends normally. -/
theorem dump_keeps_printed_lines (b ext : List Byte) (hlen : 108 ≤ b.length)
    (hname : (0 : Byte) ∈ bytesAt b 8 64) :
    ∃ m, readHeader b = .ok m ∧ (headerBlock m).length = 12 ∧ headerBlock m <+: (dump b).1 ∧
      (∀ st, readSlice Frame.size Frame.decode b m.NumFrames m.OfsFrames = .error st →
        dump b = (headerBlock m, .failed st)) ∧
      (∀ f st, readSlice Frame.size Frame.decode b m.NumFrames m.OfsFrames = .ok f →
        (forRange frameLines 0 f).2 = .ok →
        readSlice Surf.size Surf.decode b m.NumSurfs m.OfsSurfs = .error st →
        dump b = (headerBlock m ++ (forRange frameLines 0 f).1, .failed st)) ∧
      (∀ i s st, (0 : Byte) ∈ s.Name → readVerts b s = .error st →
        surfLines b i s =
          ([Line.ln "Surface" (.idx i), Line.pf " Magic = '" (.str (magic s.Magic)) "'"] ++
            surfFieldLines s (textOf s.Name), .failed st)) ∧
      (dump b).1 <+: (dump (b ++ ext)).1 ∧
      ((dump (b ++ ext)).2 = .ok → (dump b).1 <+: expectedOutput (b ++ ext) m) := by
  have hm := readHeader_eq_ok b hlen
  have hsz : Header.size = 108 := by decide
  have hn : (Header.decode (b.take Header.size)).1.Name = bytesAt b 8 64 := by
    rw [hsz, Header_decode_fields, bytesAt_take b 108 8 64 (by norm_num)]
  generalize (Header.decode (b.take Header.size)).1 = m at hm hn
  rw [← hn] at hname
  have hh := headerLines_of_mem m hname
  have hdump : dump b = andThen (headerLines m) (andThen (dumpFrames b m) (dumpSurfs b m)) := by
    simp [dump, hm]
  refine ⟨m, hm, rfl, ?_, ?_, ?_, ?_, extends_output _ _ (extends_dump b ext), ?_⟩
  · rw [hdump]
    have h := andThen_keeps_first (headerLines m) (andThen (dumpFrames b m) (dumpSurfs b m))
    rw [hh] at h ⊢
    exact h
  · intro st hf
    rw [hdump, hh]
    simp [dumpFrames, hf, andThen, die]
  · intro f st hf hfok hs
    rw [hdump, hh]
    simp [dumpFrames, hf, dumpSurfs, hs, andThen, die, hfok]
  · intro i s st hs hv
    simp [surfLines, cstr_eq_textOf _ hs, hv, andThen, say, die]
  · intro hok
    obtain ⟨m2, h1, _, _, _, _, _, h7⟩ := dump_ok_inv (b ++ ext) hok
    rw [readHeader_append b ext m hm] at h1
    injection h1 with h1
    subst h1
    rw [← h7]
    exact extends_output _ _ (extends_dump b ext)

set_option maxRecDepth 100000 in
/-- C12 on `truncFile`, the first 200 bytes of `relFile`: the surface read
fails, the twelve header lines stay, and they are the beginning of the output
of the complete file, which `dump` prints without failure. -/
theorem dump_keeps_printed_lines_witness :
    (108 ≤ truncFile.length ∧ (0 : Byte) ∈ bytesAt truncFile 8 64 ∧
        truncFile ++ relFile.drop 200 = relFile ∧ (dump relFile).2 = .ok) ∧
      dump truncFile = (headerBlock relHeader, .failed (.fatal .ErrUnexpectedEOF)) ∧
      (dump truncFile).1 <+: (dump relFile).1 := by
  obtain ⟨m, _, _, _, _, _, _, h6, _⟩ := dump_keeps_printed_lines truncFile (relFile.drop 200)
    (by decide) (by decide)
  have e : truncFile ++ relFile.drop 200 = relFile := List.take_append_drop 200 relFile
  rw [e] at h6
  exact ⟨⟨by decide, by decide, e, by decide⟩, by decide, h6⟩

/-! ## Blocks of the output -/

set_option maxRecDepth 100000 in
/-- C13 fails as stated: `dump` succeeds on `feedFrameFile`, whose header has
`NumFrames = 1` and `NumSurfs = 0`, so the output should hold no surface block
and no line `Surface ..`.  The name of its frame is `x`, a line feed and
`Surface 0`; `Println` writes it as it is, so standard output has 19 lines, the
last two being ` Name = x` and `Surface 0`, and one line beginning with
`Surface`. -/
theorem dump_frame_name_feed :
    (dump feedFrameFile).2 = .ok ∧ readHeader feedFrameFile = .ok feedFrameHeader ∧
      feedFrameHeader.NumFrames = 1 ∧ feedFrameHeader.NumSurfs = 0 ∧
      (stdoutLines (dump feedFrameFile).1).length = 19 ∧
      (stdoutLines (dump feedFrameFile).1).drop 17 =
        [(strBytes " Name = x").map Tok.byte, (strBytes "Surface 0").map Tok.byte] ∧
      (stdoutLines (dump feedFrameFile).1).filter (mayBegin (strBytes "Surface")) =
        [(strBytes "Surface 0").map Tok.byte] :=
  ⟨by decide, by rfl, by decide, by decide, by rfl, by rfl, by rfl⟩

/-- C13, as the code has it: in a run that ends normally on a buffer whose names
(header name, frame names, surface names) hold no line feed before their
first zero byte, the output is the twelve header print calls, then one block
per frame (`NumFrames` of them), then one block per surface (`NumSurfs` of
them), and the lines of standard output are the lines of these parts in this
order.  The first line of the block of frame `i` is `Frame i`, the first line
of the block of surface `i` is `Surface i`; the only lines of standard output
beginning with `Frame` or with `Surface` are these headings, `Frame 0` ..
`Frame NumFrames-1` and `Surface 0` .. `Surface NumSurfs-1` in ascending
order; and among the lines of the block of a surface exactly `NumVerts` begin
with ` Vertex =`, the lines written for its `NumVerts` vertex records, and
exactly `NumVerts` begin with ` Normal =`, whatever its `NumFrames` is. -/
theorem dump_text_structure (b : List Byte) (hok : (dump b).2 = .ok)
    (hnames : ∀ m, readHeader b = .ok m →
      (0x0A : Byte) ∉ textOf m.Name ∧
        (∀ fr ∈ framesAt b m.OfsFrames.toNat m.NumFrames.toNat,
          (0x0A : Byte) ∉ textOf fr.Name) ∧
        (∀ s ∈ surfsAt b m.OfsSurfs.toNat m.NumSurfs.toNat, (0x0A : Byte) ∉ textOf s.Name)) :
    ∃ m, readHeader b = .ok m ∧ 0 ≤ m.NumFrames ∧ 0 ≤ m.NumSurfs ∧
      (framesAt b m.OfsFrames.toNat m.NumFrames.toNat).length = m.NumFrames.toNat ∧
      (surfsAt b m.OfsSurfs.toNat m.NumSurfs.toNat).length = m.NumSurfs.toNat ∧
      (dump b).1 =
        headerBlock m ++
          blocks frameBlock 0 (framesAt b m.OfsFrames.toNat m.NumFrames.toNat) ++
          blocks (surfBlockAt b) 0 (surfsAt b m.OfsSurfs.toNat m.NumSurfs.toNat) ∧
      stdoutLines (dump b).1 =
        stdoutLines (headerBlock m) ++
          stdoutLines (blocks frameBlock 0 (framesAt b m.OfsFrames.toNat m.NumFrames.toNat)) ++
          stdoutLines
            (blocks (surfBlockAt b) 0 (surfsAt b m.OfsSurfs.toNat m.NumSurfs.toNat)) ∧
      (∀ i fr, ∃ rest,
        stdoutLines (frameBlock i fr) = (Line.ln "Frame" (.idx i)).body :: rest) ∧
      (∀ i s, ∃ rest,
        stdoutLines (surfBlockAt b i s) = (Line.ln "Surface" (.idx i)).body :: rest) ∧
      (stdoutLines (dump b).1).filter (mayBegin (strBytes "Frame")) =
        (List.range m.NumFrames.toNat).map (fun i => (Line.ln "Frame" (.idx i)).body) ∧
      (stdoutLines (dump b).1).filter (mayBegin (strBytes "Surface")) =
        (List.range m.NumSurfs.toNat).map (fun i => (Line.ln "Surface" (.idx i)).body) ∧
      ∀ i, ∀ s ∈ surfsAt b m.OfsSurfs.toNat m.NumSurfs.toNat,
        0 ≤ s.NumVerts ∧
          (stdoutLines (surfBlockAt b i s)).filter (mayBegin (strBytes " Vertex =")) =
            (recordsAt b s.OfsXYZNormal.toNat s.NumVerts.toNat).map
              (fun v => (Line.ln " Vertex =" (.vec (xyz v.XYZ))).body) ∧
          (stdoutLines (surfBlockAt b i s)).filter (mayBegin (strBytes " Normal =")) =
            (recordsAt b s.OfsXYZNormal.toNat s.NumVerts.toNat).map
              (fun v => (Line.ln " Normal =" (.nrm v.Normal)).body) ∧
          ((stdoutLines (surfBlockAt b i s)).filter
            (mayBegin (strBytes " Vertex ="))).length = s.NumVerts.toNat ∧
          ((stdoutLines (surfBlockAt b i s)).filter
            (mayBegin (strBytes " Normal ="))).length = s.NumVerts.toNat := by
  obtain ⟨m, h1, _, h3, h4, _, h6, h7⟩ := dump_ok_inv b hok
  obtain ⟨f1, _, _, _⟩ := readFrames_ok_inv b _ _ _ h3
  obtain ⟨s1, _, _, _⟩ := readSurfs_ok_inv b _ _ _ h4
  obtain ⟨n1, n2, n3⟩ := hnames m h1
  have hfl : (framesAt b m.OfsFrames.toNat m.NumFrames.toNat).length = m.NumFrames.toNat := by
    simp [framesAt]
  have hsl : (surfsAt b m.OfsSurfs.toNat m.NumSurfs.toNat).length = m.NumSurfs.toNat := by
    simp [surfsAt]
  have hL := expectedOutput_lines b m n1 n2 n3
  have pF : (expectedOutput b m).filter (fun l => decide (l.lead = "Frame")) =
      (List.range m.NumFrames.toNat).map (fun i => Line.ln "Frame" (.idx i)) := by
    rw [expectedOutput, List.filter_append, List.filter_append, (filter_headerBlock m).1,
      filter_blocks_heading _ frameBlock (fun i => Line.ln "Frame" (.idx i))
        filter_frameBlock_frame,
      filter_blocks_nil _ (surfBlockAt b) (fun i x => filter_surfBlock_frame i x _ _), hfl,
      List.range_eq_range']
    simp
  have pS : (expectedOutput b m).filter (fun l => decide (l.lead = "Surface")) =
      (List.range m.NumSurfs.toNat).map (fun i => Line.ln "Surface" (.idx i)) := by
    rw [expectedOutput, List.filter_append, List.filter_append, (filter_headerBlock m).2,
      filter_blocks_nil _ frameBlock filter_frameBlock_surface,
      filter_blocks_heading _ (surfBlockAt b) (fun i => Line.ln "Surface" (.idx i))
        (fun i x => filter_surfBlock_surface i x _ _), hsl,
      List.range_eq_range']
    simp
  refine ⟨m, h1, f1, s1, hfl, hsl, h7, ?_, ?_, ?_, ?_, ?_, ?_⟩
  · rw [h7, expectedOutput, stdoutLines_append, stdoutLines_append]
  · intro i fr
    exact ⟨_, stdoutLines_heading "Frame" i _ (by decide)⟩
  · intro i s
    exact ⟨_, stdoutLines_heading "Surface" i _ (by decide)⟩
  · rw [h7, stdoutLines_filter _ "Frame" _
      (fun L hL2 => line_filter "Frame" (Or.inl rfl) L (hL L hL2)), pF, List.map_map]
    rfl
  · rw [h7, stdoutLines_filter _ "Surface" _
      (fun L hL2 => line_filter "Surface" (Or.inr (Or.inl rfl)) L (hL L hL2)), pS,
      List.map_map]
    rfl
  · intro i s hs
    obtain ⟨j, hj⟩ := forRange_ok_all (surfLines b) _ 0 h6 s hs
    obtain ⟨_, k2, _⟩ := surfLines_ok_block b j s hj
    obtain ⟨v1, _, _, _⟩ := readVerts_ok_inv b _ _ k2
    obtain ⟨c1, c2⟩ := filter_surfBlock_vertex i s (textOf s.Name)
      (recordsAt b s.OfsXYZNormal.toNat s.NumVerts.toNat)
    have hB := surfBlock_lines i s (textOf s.Name)
      (recordsAt b s.OfsXYZNormal.toNat s.NumVerts.toNat) (n3 s hs)
    have eV : (stdoutLines (surfBlockAt b i s)).filter (mayBegin (strBytes " Vertex =")) =
        (recordsAt b s.OfsXYZNormal.toNat s.NumVerts.toNat).map
          (fun v => (Line.ln " Vertex =" (.vec (xyz v.XYZ))).body) := by
      rw [surfBlockAt, stdoutLines_filter _ " Vertex =" _
        (fun L hL2 => line_filter " Vertex =" (Or.inr (Or.inr (Or.inl rfl))) L (hB L hL2)), c1,
        List.map_map]
      rfl
    have eN : (stdoutLines (surfBlockAt b i s)).filter (mayBegin (strBytes " Normal =")) =
        (recordsAt b s.OfsXYZNormal.toNat s.NumVerts.toNat).map
          (fun v => (Line.ln " Normal =" (.nrm v.Normal)).body) := by
      rw [surfBlockAt, stdoutLines_filter _ " Normal =" _
        (fun L hL2 => line_filter " Normal =" (Or.inr (Or.inr (Or.inr rfl))) L (hB L hL2)), c2,
        List.map_map]
      rfl
    refine ⟨v1, eV, eN, ?_, ?_⟩
    · rw [eV]; simp [recordsAt]
    · rw [eN]; simp [recordsAt]

set_option maxRecDepth 100000 in
/-- C13 on `oneFile` (`NumFrames = 1`, `NumSurfs = 1`, `NumVerts = 1`, names `m`,
`f0` and the empty name): standard output has 33 lines; one begins with
`Frame`, the heading `Frame 0`; one begins with `Surface`, the heading
`Surface 0`; one begins with ` Vertex =` and one with ` Normal =`. -/
theorem dump_text_structure_witness :
    ((dump oneFile).2 = .ok ∧ readHeader oneFile = .ok oneHeader ∧
        (0x0A : Byte) ∉ textOf oneHeader.Name ∧
        (∀ fr ∈ framesAt oneFile 108 1, (0x0A : Byte) ∉ textOf fr.Name) ∧
        (∀ s ∈ surfsAt oneFile 164 1, (0x0A : Byte) ∉ textOf s.Name)) ∧
      (stdoutLines (dump oneFile).1).length = 33 ∧
      (stdoutLines (dump oneFile).1).filter (mayBegin (strBytes "Frame")) =
        [(Line.ln "Frame" (.idx 0)).body] ∧
      (stdoutLines (dump oneFile).1).filter (mayBegin (strBytes "Surface")) =
        [(Line.ln "Surface" (.idx 0)).body] ∧
      ((stdoutLines (dump oneFile).1).filter (mayBegin (strBytes " Vertex ="))).length = 1 ∧
      ((stdoutLines (dump oneFile).1).filter (mayBegin (strBytes " Normal ="))).length = 1 ∧
      ∃ m, readHeader oneFile = .ok m ∧
        (dump oneFile).1 =
          headerBlock m ++
            blocks frameBlock 0 (framesAt oneFile m.OfsFrames.toNat m.NumFrames.toNat) ++
            blocks (surfBlockAt oneFile) 0
              (surfsAt oneFile m.OfsSurfs.toNat m.NumSurfs.toNat) ∧
        (stdoutLines (dump oneFile).1).filter (mayBegin (strBytes "Frame")) =
          (List.range m.NumFrames.toNat).map (fun i => (Line.ln "Frame" (.idx i)).body) ∧
        (stdoutLines (dump oneFile).1).filter (mayBegin (strBytes "Surface")) =
          (List.range m.NumSurfs.toNat).map (fun i => (Line.ln "Surface" (.idx i)).body) := by
  have hh : readHeader oneFile = .ok oneHeader := by rfl
  obtain ⟨m, h1, _, _, _, _, h6, _, _, _, h10, h11, _⟩ := dump_text_structure oneFile
    (by decide)
    (fun m hm => by
      rw [hh] at hm
      injection hm with hm
      subst hm
      decide)
  exact ⟨⟨by decide, hh, by decide, by decide, by decide⟩, by rfl, by rfl, by rfl, by rfl,
    by rfl, m, h1, h6, h10, h11⟩

/-! ## Magic and version -/

/-- C14, as the code has it: for two buffers of the same length that differ only
in the bytes 0..7, and in which every array read with a positive count starts
at offset 8 or later (`NumFrames ≤ 0` or `OfsFrames ≥ 8`, `NumSurfs ≤ 0` or
`OfsSurfs ≥ 8`, and for every surface `NumVerts ≤ 0` or `OfsXYZNormal ≥ 8`),
`dump` ends the same way on both, so it succeeds on one exactly when it
succeeds on the other, and the two outputs have the same number of lines and
are identical from the third line on: they differ at most in the `Magic` and
`Version` lines, which are the first two. -/
theorem magic_version_not_enforced (b1 b2 : List Byte) (hlen : b1.length = b2.length)
    (hrest : b1.drop 8 = b2.drop 8)
    (hoff : ∀ m, readHeader b1 = .ok m →
      (m.NumFrames ≤ 0 ∨ 8 ≤ m.OfsFrames) ∧ (m.NumSurfs ≤ 0 ∨ 8 ≤ m.OfsSurfs) ∧
        ∀ surfs, readSlice Surf.size Surf.decode b1 m.NumSurfs m.OfsSurfs = .ok surfs →
          ∀ s ∈ surfs, s.NumVerts ≤ 0 ∨ 8 ≤ s.OfsXYZNormal) :
    (dump b1).2 = (dump b2).2 ∧ ((dump b1).2 = .ok ↔ (dump b2).2 = .ok) ∧
      (dump b1).1.length = (dump b2).1.length ∧
      (dump b1).1.drop 2 = (dump b2).1.drop 2 ∧
      (∀ m1 m2, readHeader b1 = .ok m1 → readHeader b2 = .ok m2 →
        (dump b1).1.take 2 = [Line.pf "Magic = '" (.str (magic m1.Magic)) "'",
          Line.ln "Version =" (.int m1.Version)] ∧
        (dump b2).1.take 2 = [Line.pf "Magic = '" (.str (magic m2.Magic)) "'",
          Line.ln "Version =" (.int m2.Version)]) := by
  by_cases h108 : 108 ≤ b1.length
  · obtain ⟨m1, m2, t, h1, h2, d1, d2⟩ := dump_congr b1 b2 hlen hrest h108 hoff
    rw [d1, d2]
    refine ⟨rfl, Iff.rfl, by simp, by simp, ?_⟩
    intro n1 n2 g1 g2
    rw [h1] at g1
    rw [h2] at g2
    injection g1 with g1
    injection g2 with g2
    subst g1 g2
    simp
  · have hc := readHeader_short_congr b1 b2 hlen (by omega)
    obtain ⟨e, he⟩ := readHeader_fatal b1 (by
      have hsz : Header.size = 108 := by decide
      omega)
    have he2 : readHeader b2 = .error (.fatal e) := by rw [← hc, he]
    have d1 : dump b1 = die (.fatal e) := by simp [dump, he]
    have d2 : dump b2 = die (.fatal e) := by simp [dump, he2]
    rw [d1, d2]
    refine ⟨rfl, Iff.rfl, rfl, rfl, ?_⟩
    intro n1 n2 g1
    rw [he] at g1
    cases g1

set_option maxRecDepth 100000 in
/-- C14 on `relFile` and `relFileAlt`, which carries magic `XXXX` and version 16:
both runs end normally and differ in the first two lines only. -/
theorem magic_version_not_enforced_witness :
    (relFile.length = relFileAlt.length ∧ relFile.drop 8 = relFileAlt.drop 8 ∧
        relFile ≠ relFileAlt) ∧
      (dump relFile).2 = .ok ∧ (dump relFileAlt).2 = .ok ∧
      (dump relFileAlt).1.take 2 =
        [Line.pf "Magic = '" (.str [0x58, 0x58, 0x58, 0x58]) "'", Line.ln "Version =" (.int 16)] ∧
      (dump relFile).1.drop 2 = (dump relFileAlt).1.drop 2 := by
  have hoff : ∀ m, readHeader relFile = .ok m →
      (m.NumFrames ≤ 0 ∨ 8 ≤ m.OfsFrames) ∧ (m.NumSurfs ≤ 0 ∨ 8 ≤ m.OfsSurfs) ∧
        ∀ surfs, readSlice Surf.size Surf.decode relFile m.NumSurfs m.OfsSurfs = .ok surfs →
          ∀ s ∈ surfs, s.NumVerts ≤ 0 ∨ 8 ≤ s.OfsXYZNormal := by
    intro m hm
    have h1 : readHeader relFile = .ok relHeader := by rfl
    rw [h1] at hm
    injection hm with hm
    subst hm
    refine ⟨by decide, by decide, ?_⟩
    intro surfs hs
    have h2 : readSlice Surf.size Surf.decode relFile relHeader.NumSurfs relHeader.OfsSurfs =
        .ok [relSurf] := by rfl
    rw [h2] at hs
    injection hs with hs
    subst hs
    decide
  have h := magic_version_not_enforced relFile relFileAlt (by decide) (by decide) hoff
  exact ⟨⟨by decide, by decide, by decide⟩, by decide, by decide, by rfl, h.2.2.2.1⟩

set_option maxRecDepth 100000 in
/-- C14 fails as stated: `overlapFile 15` and `overlapFile 0x01010101` have the
same length and differ only in the version bytes 4..7.  Their header sets
`OfsSurfs = 0`, so the name of the one surface record is the bytes 4..67: with
version 15 it holds a zero byte and `dump` ends normally, with version
`0x01010101` it holds none and `dump` stops with a panic in `cstr`. -/
theorem magic_version_change_status :
    (overlapFile 15).length = (overlapFile 0x01010101).length ∧
      (overlapFile 15).drop 8 = (overlapFile 0x01010101).drop 8 ∧
      (dump (overlapFile 15)).2 = .ok ∧
      (dump (overlapFile 0x01010101)).2 = .failed .panic ∧
      (dump (overlapFile 15)).1.length = 25 ∧
      (dump (overlapFile 0x01010101)).1.length = 14 ∧
      ¬ ((dump (overlapFile 15)).2 = .ok ↔ (dump (overlapFile 0x01010101)).2 = .ok) := by
  refine ⟨by decide, by decide, by decide, by decide, by decide, by decide, by decide⟩

/-! ## Record layout -/

/-- C15: for a buffer of at least 108 bytes the header read succeeds and every
field of the decoded `Header` is the little-endian signed 32-bit value at its
offset of the format table (`Magic` 0, `Version` 4, `Flags` 72, `NumFrames` 76,
`NumTags` 80, `NumSurfs` 84, `NumSkins` 88, `OfsFrames` 92, `OfsTags` 96,
`OfsSurfs` 100, `OfsEOF` 104), `Name` is the bytes 8..71, and the record takes
exactly 108 bytes with no padding. -/
theorem header_field_offsets (b : List Byte) (hlen : 108 ≤ b.length) :
    ∃ m, readHeader b = .ok m ∧
      m.Magic = i32At b 0 ∧ m.Version = i32At b 4 ∧
      m.Name = bytesAt b 8 64 ∧ m.Name.length = 64 ∧
      m.Flags = i32At b 72 ∧ m.NumFrames = i32At b 76 ∧ m.NumTags = i32At b 80 ∧
      m.NumSurfs = i32At b 84 ∧ m.NumSkins = i32At b 88 ∧ m.OfsFrames = i32At b 92 ∧
      m.OfsTags = i32At b 96 ∧ m.OfsSurfs = i32At b 100 ∧ m.OfsEOF = i32At b 104 ∧
      Header.size = 108 ∧ (Header.decode b).2 = b.drop 108 := by
  have hsz : Header.size = 108 := by decide
  have hm : (Header.decode (b.take Header.size)).1 =
      { Magic := i32At b 0, Version := i32At b 4, Name := bytesAt b 8 64,
        Flags := i32At b 72, NumFrames := i32At b 76, NumTags := i32At b 80,
        NumSurfs := i32At b 84, NumSkins := i32At b 88, OfsFrames := i32At b 92,
        OfsTags := i32At b 96, OfsSurfs := i32At b 100, OfsEOF := i32At b 104 } := by
    rw [hsz, Header_decode_fields]
    rw [i32At_take b 108 0 (by norm_num), i32At_take b 108 4 (by norm_num),
      i32At_take b 108 72 (by norm_num), i32At_take b 108 76 (by norm_num),
      i32At_take b 108 80 (by norm_num), i32At_take b 108 84 (by norm_num),
      i32At_take b 108 88 (by norm_num), i32At_take b 108 92 (by norm_num),
      i32At_take b 108 96 (by norm_num), i32At_take b 108 100 (by norm_num),
      i32At_take b 108 104 (by norm_num), bytesAt_take b 108 8 64 (by norm_num)]
  refine ⟨_, readHeader_eq_ok b hlen, ?_⟩
  rw [hm]
  refine ⟨rfl, rfl, rfl, ?_, rfl, rfl, rfl, rfl, rfl, rfl, rfl, rfl, rfl, hsz,
    Header_decode_rest b⟩
  simp only [bytesAt, List.length_take, List.length_drop]
  omega

set_option maxRecDepth 100000 in
/-- C15 on `relFile`: the header read gives `relHeader`. -/
theorem header_field_offsets_witness :
    108 ≤ relFile.length ∧ readHeader relFile = .ok relHeader ∧
      ∃ m, readHeader relFile = .ok m ∧
        m.Magic = i32At relFile 0 ∧ m.Version = i32At relFile 4 ∧
        m.Name = bytesAt relFile 8 64 ∧ m.Name.length = 64 ∧
        m.Flags = i32At relFile 72 ∧ m.NumFrames = i32At relFile 76 ∧
        m.NumTags = i32At relFile 80 ∧ m.NumSurfs = i32At relFile 84 ∧
        m.NumSkins = i32At relFile 88 ∧ m.OfsFrames = i32At relFile 92 ∧
        m.OfsTags = i32At relFile 96 ∧ m.OfsSurfs = i32At relFile 100 ∧
        m.OfsEOF = i32At relFile 104 ∧
        Header.size = 108 ∧ (Header.decode relFile).2 = relFile.drop 108 :=
  ⟨by decide, by rfl, header_field_offsets relFile (by decide)⟩

theorem surfsAt_get (b : List Byte) (o n i : Nat) (h : i < (surfsAt b o n).length) :
    (surfsAt b o n).get ⟨i, h⟩ = (Surf.decode (bytesAt b (o + 108 * i) 108)).1 := by
  simp [surfsAt, bytesAt]

/-- C16: when the surface read succeeds it yields `NumSurfs` records, and record
`i` is decoded from the 108 bytes at file offset `OfsSurfs + 108 * i`: `Magic`
at `+0`, `Name` at `+4..+67`, then `Flags`, `NumFrames`, `NumShaders`,
`NumVerts`, `NumTris`, `OfsTris`, `OfsShaders`, `OfsST`, `OfsXYZNormal`,
`OfsEnd` as consecutive little-endian `int32` from `+68`.  No `OfsEnd` enters
the position of a record. -/
theorem surfaces_at_consecutive_records (b : List Byte) (m : Header) (surfs : List Surf)
    (hm : readHeader b = .ok m)
    (hs : readSlice Surf.size Surf.decode b m.NumSurfs m.OfsSurfs = .ok surfs) :
    surfs.length = m.NumSurfs.toNat ∧
      ∀ i (h : i < surfs.length),
        surfs.get ⟨i, h⟩ = (Surf.decode (bytesAt b (m.OfsSurfs.toNat + 108 * i) 108)).1 ∧
        (surfs.get ⟨i, h⟩).Magic = i32At b (m.OfsSurfs.toNat + 108 * i) ∧
        (surfs.get ⟨i, h⟩).Name = bytesAt b (m.OfsSurfs.toNat + 108 * i + 4) 64 ∧
        (surfs.get ⟨i, h⟩).Flags = i32At b (m.OfsSurfs.toNat + 108 * i + 68) ∧
        (surfs.get ⟨i, h⟩).NumFrames = i32At b (m.OfsSurfs.toNat + 108 * i + 72) ∧
        (surfs.get ⟨i, h⟩).NumShaders = i32At b (m.OfsSurfs.toNat + 108 * i + 76) ∧
        (surfs.get ⟨i, h⟩).NumVerts = i32At b (m.OfsSurfs.toNat + 108 * i + 80) ∧
        (surfs.get ⟨i, h⟩).NumTris = i32At b (m.OfsSurfs.toNat + 108 * i + 84) ∧
        (surfs.get ⟨i, h⟩).OfsTris = i32At b (m.OfsSurfs.toNat + 108 * i + 88) ∧
        (surfs.get ⟨i, h⟩).OfsShaders = i32At b (m.OfsSurfs.toNat + 108 * i + 92) ∧
        (surfs.get ⟨i, h⟩).OfsST = i32At b (m.OfsSurfs.toNat + 108 * i + 96) ∧
        (surfs.get ⟨i, h⟩).OfsXYZNormal = i32At b (m.OfsSurfs.toNat + 108 * i + 100) ∧
        (surfs.get ⟨i, h⟩).OfsEnd = i32At b (m.OfsSurfs.toNat + 108 * i + 104) := by
  have _ := hm
  obtain ⟨_, _, _, h4⟩ := readSurfs_ok_inv b _ _ surfs hs
  subst h4
  refine ⟨by simp [surfsAt], ?_⟩
  intro i h
  rw [surfsAt_get]
  refine ⟨rfl, ?_⟩
  rw [Surf_decode_fields]
  simp only [bytesAt]
  rw [i32At_take _ 108 0 (by norm_num), i32At_take _ 108 68 (by norm_num),
    i32At_take _ 108 72 (by norm_num), i32At_take _ 108 76 (by norm_num),
    i32At_take _ 108 80 (by norm_num), i32At_take _ 108 84 (by norm_num),
    i32At_take _ 108 88 (by norm_num), i32At_take _ 108 92 (by norm_num),
    i32At_take _ 108 96 (by norm_num), i32At_take _ 108 100 (by norm_num),
    i32At_take _ 108 104 (by norm_num)]
  simp only [i32At_drop, Nat.add_zero, true_and, and_true]
  have e := bytesAt_take (b.drop (m.OfsSurfs.toNat + 108 * i)) 108 4 64 (by norm_num)
  simp only [bytesAt, List.drop_drop] at e ⊢
  exact e

set_option maxRecDepth 100000 in
/-- C16 on `relFile`: one surface record, decoded from the bytes 108..215; its
`OfsEnd` is 116, which is not where the record ends. -/
theorem surfaces_at_consecutive_records_witness :
    (readHeader relFile = .ok relHeader ∧
        readSlice Surf.size Surf.decode relFile relHeader.NumSurfs relHeader.OfsSurfs =
          .ok [relSurf]) ∧
      relSurf = (Surf.decode (bytesAt relFile 108 108)).1 ∧
      relSurf.OfsEnd = i32At relFile (108 + 104) := by
  have h := surfaces_at_consecutive_records relFile relHeader [relSurf] (by rfl) (by rfl)
  have h0 := h.2 0 (by decide)
  exact ⟨⟨by rfl, by rfl⟩, h0.1, h0.2.2.2.2.2.2.2.2.2.2.2.2⟩

/-! ## Linearity of `xyz` -/

/-- C17: for `int16` triples `c` and `d` whose component-wise sum is in the
`int16` range, `xyz (c + d) = xyz c + xyz d` component-wise, and for an integer
`k` with `k * c` in range, `xyz (k * c) = k * xyz c`, as exact rationals. -/
theorem xyz_additive_homogeneous (c d : V3 Int) (k : Int)
    (hc : IsInt16 c.x ∧ IsInt16 c.y ∧ IsInt16 c.z)
    (hd : IsInt16 d.x ∧ IsInt16 d.y ∧ IsInt16 d.z)
    (hs : IsInt16 (c.x + d.x) ∧ IsInt16 (c.y + d.y) ∧ IsInt16 (c.z + d.z))
    (hk : IsInt16 (k * c.x) ∧ IsInt16 (k * c.y) ∧ IsInt16 (k * c.z)) :
    xyz ⟨c.x + d.x, c.y + d.y, c.z + d.z⟩ =
        ⟨(xyz c).x + (xyz d).x, (xyz c).y + (xyz d).y, (xyz c).z + (xyz d).z⟩ ∧
      xyz ⟨k * c.x, k * c.y, k * c.z⟩ =
        ⟨(k : ℚ) * (xyz c).x, (k : ℚ) * (xyz c).y, (k : ℚ) * (xyz c).z⟩ := by
  rw [xyz_exact c hc.1 hc.2.1 hc.2.2, xyz_exact d hd.1 hd.2.1 hd.2.2,
    xyz_exact _ hs.1 hs.2.1 hs.2.2, xyz_exact _ hk.1 hk.2.1 hk.2.2]
  constructor
  · simp only [V3.mk.injEq]
    push_cast
    refine ⟨by ring, by ring, by ring⟩
  · simp only [V3.mk.injEq]
    push_cast
    refine ⟨by ring, by ring, by ring⟩

/-- C17 at `c = (64, 0, -64)`, `d = (1, 2, 3)`, `k = 3`. -/
theorem xyz_additive_homogeneous_witness :
    ((IsInt16 64 ∧ IsInt16 0 ∧ IsInt16 (-64)) ∧ (IsInt16 1 ∧ IsInt16 2 ∧ IsInt16 3) ∧
        (IsInt16 (64 + 1) ∧ IsInt16 (0 + 2) ∧ IsInt16 (-64 + 3)) ∧
        (IsInt16 (3 * 64) ∧ IsInt16 (3 * 0) ∧ IsInt16 (3 * -64))) ∧
      xyz ⟨64 + 1, 0 + 2, -64 + 3⟩ =
        ⟨(xyz ⟨64, 0, -64⟩).x + (xyz ⟨1, 2, 3⟩).x, (xyz ⟨64, 0, -64⟩).y + (xyz ⟨1, 2, 3⟩).y,
          (xyz ⟨64, 0, -64⟩).z + (xyz ⟨1, 2, 3⟩).z⟩ ∧
      xyz ⟨3 * 64, 3 * 0, 3 * -64⟩ =
        ⟨((3 : Int) : ℚ) * (xyz ⟨64, 0, -64⟩).x, ((3 : Int) : ℚ) * (xyz ⟨64, 0, -64⟩).y,
          ((3 : Int) : ℚ) * (xyz ⟨64, 0, -64⟩).z⟩ :=
  ⟨⟨by decide, by decide, by decide, by decide⟩,
    xyz_additive_homogeneous ⟨64, 0, -64⟩ ⟨1, 2, 3⟩ 3 (by decide) (by decide) (by decide)
      (by decide)⟩

/-! ## Well-formed input -/

/-- C18: let `m` be the header of `b` (so `len(b) ≥ 108`).  If `NumFrames ≥ 0`,
`NumSurfs ≥ 0`, `0 ≤ OfsFrames`, `OfsFrames + 56 * NumFrames ≤ len(b)`,
`0 ≤ OfsSurfs`, `OfsSurfs + 108 * NumSurfs ≤ len(b)`, every surface record has
`NumVerts ≥ 0`, `0 ≤ OfsXYZNormal` and its vertex array as `dump` reads it
(`OfsXYZNormal + 8 * NumVerts ≤ len(b)`) inside `b`, and the name of the header,
of every frame and of every surface holds a zero byte, then `dump` ends
normally, with the whole output printed. -/
theorem wellformed_dump_ok (b : List Byte) (m : Header) (hlen : 108 ≤ b.length)
    (hm : readHeader b = .ok m)
    (hnf : 0 ≤ m.NumFrames) (hns : 0 ≤ m.NumSurfs)
    (hof : 0 ≤ m.OfsFrames) (hff : m.OfsFrames + 56 * m.NumFrames ≤ b.length)
    (hos : 0 ≤ m.OfsSurfs) (hsf : m.OfsSurfs + 108 * m.NumSurfs ≤ b.length)
    (hverts : ∀ s ∈ surfsAt b m.OfsSurfs.toNat m.NumSurfs.toNat,
      0 ≤ s.NumVerts ∧ 0 ≤ s.OfsXYZNormal ∧ s.OfsXYZNormal + 8 * s.NumVerts ≤ b.length)
    (hname : (0 : Byte) ∈ m.Name)
    (hfname : ∀ fr ∈ framesAt b m.OfsFrames.toNat m.NumFrames.toNat, (0 : Byte) ∈ fr.Name)
    (hsname : ∀ s ∈ surfsAt b m.OfsSurfs.toNat m.NumSurfs.toNat, (0 : Byte) ∈ s.Name) :
    (dump b).2 = .ok ∧ (dump b).1 = expectedOutput b m := by
  have _ := hlen
  have hf := readFrames_eq_ok b _ _ hnf hof hff
  have hs := readSurfs_eq_ok b _ _ hns hos hsf
  have g1 : (forRange frameLines 0 (framesAt b m.OfsFrames.toNat m.NumFrames.toNat)).2 = .ok :=
    forRange_ok_of_all frameLines _ 0 (fun j fr hfr => (frameLines_ok_iff j fr).2 (hfname fr hfr))
  have g2 : (forRange (surfLines b) 0 (surfsAt b m.OfsSurfs.toNat m.NumSurfs.toNat)).2 = .ok := by
    apply forRange_ok_of_all
    intro j s hs
    obtain ⟨v1, v2, v3⟩ := hverts s hs
    rw [surfLines_of_ok b j s _ (hsname s hs) (readVerts_eq_ok b s v1 v2 v3)]
  have hok : (dump b).2 = .ok := by
    simp only [dump, hm, dumpFrames, hf, dumpSurfs, hs]
    rw [andThen_of_ok _ _ ((headerLines_ok_iff m).2 hname), andThen_of_ok _ _ g1]
    exact g2
  refine ⟨hok, ?_⟩
  obtain ⟨m2, h1, _, _, _, _, _, h7⟩ := dump_ok_inv b hok
  rw [hm] at h1
  injection h1 with h1
  subst h1
  exact h7

set_option maxRecDepth 100000 in
/-- C18 on `oneFile`: one frame, one surface, one vertex, every name terminated. -/
theorem wellformed_dump_ok_witness :
    (108 ≤ oneFile.length ∧ readHeader oneFile = .ok oneHeader ∧
        (0 ≤ oneHeader.NumFrames ∧ 0 ≤ oneHeader.NumSurfs) ∧
        (0 ≤ oneHeader.OfsFrames ∧
          oneHeader.OfsFrames + 56 * oneHeader.NumFrames ≤ oneFile.length) ∧
        (0 ≤ oneHeader.OfsSurfs ∧
          oneHeader.OfsSurfs + 108 * oneHeader.NumSurfs ≤ oneFile.length) ∧
        surfsAt oneFile oneHeader.OfsSurfs.toNat oneHeader.NumSurfs.toNat = [oneSurf]) ∧
      ((dump oneFile).2 = .ok ∧ (dump oneFile).1 = expectedOutput oneFile oneHeader) :=
  ⟨⟨by decide, by rfl, by decide, by decide, by decide, by decide⟩,
    wellformed_dump_ok oneFile oneHeader (by decide) (by rfl) (by decide) (by decide)
      (by decide) (by decide) (by decide) (by decide) (by decide) (by decide) (by decide)
      (by decide)⟩

/-! ## Coincidences of `normal` -/

/-- C19: over the reals `normal` is not injective on `int16`.  For every
longitude byte `l`, the latitude bytes `0x00` and `0xFF` give the same vector;
for the longitude bytes `0` and `255`, every latitude byte `h` gives
`(0, 0, 1)`. -/
theorem normal_not_injective (h l : Nat) (hh : h ≤ 255) (hl : l ≤ 255) :
    normal Real.cos Real.sin Real.pi id id (toInt16 (256 * 0 + l)) =
        normal Real.cos Real.sin Real.pi id id (toInt16 (256 * 255 + l)) ∧
      normal Real.cos Real.sin Real.pi id id (toInt16 (256 * h + 0)) = ⟨0, 0, 1⟩ ∧
      normal Real.cos Real.sin Real.pi id id (toInt16 (256 * h + 255)) = ⟨0, 0, 1⟩ ∧
      toInt16 (256 * 0 + l) ≠ toInt16 (256 * 255 + l) ∧
      IsInt16 (toInt16 (256 * 0 + l)) ∧ IsInt16 (toInt16 (256 * 255 + l)) := by
  refine ⟨?_, ?_, ?_, ?_, toInt16_isInt16 _, toInt16_isInt16 _⟩
  · rw [normal_real_of_bytes 0 l (by norm_num) hl, normal_real_of_bytes 255 l (by norm_num) hl,
      angle_255]
    simp
  · rw [normal_real_of_bytes h 0 hh (by norm_num)]
    simp
  · rw [normal_real_of_bytes h 255 hh (by norm_num), angle_255]
    simp
  · unfold toInt16
    norm_num
    split_ifs <;> omega

/-- C19 at latitude byte `0x12` and longitude byte `0x34`: the values `0x0034`
and `-204` (pattern `0xFF34`) decode to the same vector. -/
theorem normal_not_injective_witness :
    ((0x12 : Nat) ≤ 255 ∧ (0x34 : Nat) ≤ 255) ∧
      toInt16 (256 * 0 + 0x34) = 0x34 ∧ toInt16 (256 * 255 + 0x34) = -204 ∧
      (normal Real.cos Real.sin Real.pi id id (toInt16 (256 * 0 + 0x34)) =
          normal Real.cos Real.sin Real.pi id id (toInt16 (256 * 255 + 0x34)) ∧
        normal Real.cos Real.sin Real.pi id id (toInt16 (256 * 0x12 + 0)) = ⟨0, 0, 1⟩ ∧
        normal Real.cos Real.sin Real.pi id id (toInt16 (256 * 0x12 + 255)) = ⟨0, 0, 1⟩ ∧
        toInt16 (256 * 0 + 0x34) ≠ toInt16 (256 * 255 + 0x34) ∧
        IsInt16 (toInt16 (256 * 0 + 0x34)) ∧ IsInt16 (toInt16 (256 * 255 + 0x34))) :=
  ⟨⟨by decide, by decide⟩, by decide, by decide,
    normal_not_injective 0x12 0x34 (by decide) (by decide)⟩

end Md3
